import Mathlib

/-!
Verification of the bipartite matching engine (Hopcroft–Karp maximum matching,
König vertex cover, envy-free matching partition) of the repository's
`networkx/algorithms/bipartite/matching.py`.

Modelling conventions:
* nodes are natural numbers;
* a networkx graph is a node list together with an adjacency association list
  (Python's adjacency dictionary); `G[v]` becomes `NXGraph.adj`;
* Python dictionaries become association lists (`mlookup` is `dict.get`);
* Python sets become lists, compared up to membership, or `Finset ℕ` for
  returned set values;
* `float("inf")` distances become `Option ℕ` with `none` playing the role of
  infinity (so `inf + 1 = inf` and `inf == inf` hold, as for Python floats);
* functions that can raise return `Except NXError`;
* the two unbounded loops of the source (the Hopcroft–Karp phase loop and the
  depth-first searches) are written with an explicit fuel argument; the fuel
  used by the exported definitions is proved sufficient under the stated
  well-formedness hypotheses, so on those inputs the definitions compute the
  same result as the source's unbounded loops.
-/

namespace NXMatching

/-- An undirected (or directed, when the flag is set) networkx-style graph:
a list of nodes and an adjacency association list.  `directed` and
`multigraph` record the Python class of the object, used only by the
`not_implemented_for` guards. -/
structure NXGraph where
  nodes : List Nat
  adjl : List (Nat × List Nat)
  directed : Bool := false
  multigraph : Bool := false

/-- `G.adj v` is Python's `G[v]` (an empty list when `v` has no adjacency
entry; the source only indexes nodes of the graph under its preconditions). -/
def NXGraph.adj (G : NXGraph) (v : Nat) : List Nat :=
  match G.adjl.find? (fun p => p.1 == v) with
  | some p => p.2
  | none => []

/-- Dictionary lookup: `M.get(k)` for an association-list dictionary. -/
def mlookup (M : List (Nat × Nat)) (k : Nat) : Option Nat :=
  match M.find? (fun p => p.1 == k) with
  | some p => some p.2
  | none => none

/-- The key list of a dictionary (`set(M)` in the source). -/
def mkeys (M : List (Nat × Nat)) : List Nat := M.map Prod.fst

/-- Well-formedness of a simple undirected graph: distinct nodes, adjacency
keys and values are nodes, adjacency is symmetric, neighbour lists have no
duplicates and no self-loops. -/
def NXGraph.WF (G : NXGraph) : Prop :=
  G.nodes.Nodup ∧
  (∀ p ∈ G.adjl, p.1 ∈ G.nodes) ∧
  (∀ p ∈ G.adjl, ∀ u ∈ p.2, u ∈ G.nodes) ∧
  (∀ p ∈ G.adjl, ∀ u ∈ p.2, p.1 ∈ G.adj u) ∧
  (∀ p ∈ G.adjl, p.2.Nodup) ∧
  (∀ p ∈ G.adjl, p.1 ∉ p.2)

instance (G : NXGraph) : Decidable G.WF := by
  unfold NXGraph.WF; infer_instance

/-- `G` is bipartite with respect to the parts `L`, `R`: every adjacency pair
crosses the bipartition. -/
def Bip (G : NXGraph) (L R : List Nat) : Prop :=
  ∀ p ∈ G.adjl, ∀ u ∈ p.2, (p.1 ∈ L ∧ u ∈ R) ∨ (p.1 ∈ R ∧ u ∈ L)

instance (G : NXGraph) (L R : List Nat) : Decidable (Bip G L R) := by
  unfold Bip; infer_instance

/-- Errors raised by the subsystem. -/
inductive NXError where
  | ambiguousSolution
  | notImplementedFor
deriving DecidableEq, Repr

instance {ε α : Type} [DecidableEq ε] [DecidableEq α] :
    DecidableEq (Except ε α) := fun x y =>
  match x, y with
  | .ok a, .ok b =>
    if h : a = b then isTrue (by rw [h])
    else isFalse (fun hc => h (by cases hc; rfl))
  | .ok _, .error _ => isFalse (fun hc => Except.noConfusion hc)
  | .error _, .ok _ => isFalse (fun hc => Except.noConfusion hc)
  | .error a, .error b =>
    if h : a = b then isTrue (by rw [h])
    else isFalse (fun hc => h (by cases hc; rfl))

/-- Total adjacency weight of a graph, used to size the fuel of the
worklist loops (each loop is proved to finish within this potential). -/
def gWeight (G : NXGraph) : Nat :=
  (G.nodes.map (fun x => 2 + (G.adj x).length)).sum

/-- Worklist two-colouring used to infer a bipartition by connectivity.
Processes `(node, colour)` work items, colouring each not-yet-coloured node
(`rem` holds the uncoloured nodes) and queueing its neighbours with the
opposite colour.  Structural recursion on a step-counting fuel. -/
def colorAux (G : NXGraph) :
    Nat → List (Nat × Bool) → List Nat → List (Nat × Bool) → List (Nat × Bool)
  | 0, _, _, acc => acc.reverse
  | _ + 1, [], _, acc => acc.reverse
  | fuel + 1, (v, c) :: work, rem, acc =>
    if v ∈ rem then
      colorAux G fuel (work ++ (G.adj v).map (fun u => (u, !c))) (rem.erase v)
        ((v, c) :: acc)
    else colorAux G fuel work rem acc

/-- Two-colouring of the whole graph starting from its first node. -/
def twoColorAll (G : NXGraph) : List (Nat × Bool) :=
  match G.nodes with
  | [] => []
  | v :: _ => colorAux G (2 + G.nodes.length + gWeight G) [(v, false)] G.nodes []

/-- Modelled from the spec: the collaborator `bipartite_sets(graph, top_nodes)`
(the repository's `networkx.algorithms.bipartite.sets`, whose source file is
not part of the excerpt).  Per the spec it returns the two sides of the
bipartition: when `top_nodes` is supplied that container is the left set and
the remaining nodes the right set; when it is omitted the bipartition is
inferred by two-colouring via connectivity, and an ambiguous-solution error is
raised if the graph is disconnected. -/
def bipartite_sets (G : NXGraph) (top : Option (List Nat)) :
    Except NXError (List Nat × List Nat) :=
  match top with
  | some t => .ok (t.dedup, G.nodes.filter (fun v => ¬ v ∈ t))
  | none =>
    let cols := twoColorAll G
    if cols.length = G.nodes.length then
      .ok ((cols.filter (fun p => !p.2)).map Prod.fst,
           (cols.filter (fun p => p.2)).map Prod.fst)
    else .error .ambiguousSolution

/-! ### Alternating-path reachability (`_connected_by_alternating_paths`) -/

/-- `frozenset((u, v)) ∈ edge_sets` for the matched edge sets built from the
matching's items: the unordered pair `{a, b}` equals `{k, w}` for some entry
`(k, w)` of the matching. -/
def inEdgeSets (M : List (Nat × Nat)) (a b : Nat) : Bool :=
  M.any (fun p => (p.1 == a && p.2 == b) || (p.1 == b && p.2 == a))

/-- `(a, b) in matched_edges or (b, a) in matched_edges`: the matched edges are
the two-element tuples obtained from `edge_sets`, so degenerate entries
(`M[k] == k`) produce one-element tuples and never pass this test. -/
def matchedTest (M : List (Nat × Nat)) (a b : Nat) : Bool :=
  M.any (fun p =>
    (!(p.1 == p.2)) && ((p.1 == a && p.2 == b) || (p.1 == b && p.2 == a)))

/-- `(a, b) in unmatched_edges or (b, a) in unmatched_edges`: the edge is an
edge of the graph (in one of its two orientations) whose unordered pair is not
in `edge_sets`. -/
def unmatchedTest (G : NXGraph) (M : List (Nat × Nat)) (a b : Nat) : Bool :=
  ((G.adj a).contains b || (G.adj b).contains a) && !(inEdgeSets M a b)

/-- `valid_edges = matched_edges if depth % 2 else unmatched_edges`, where `d`
is the parity of the depth (`true` for odd depth). -/
def validEdge (G : NXGraph) (M : List (Nat × Nat)) (a b : Nat) (d : Bool) :
    Bool :=
  if d then matchedTest M a b else unmatchedTest G M a b

/-- The stack-based depth-first search `_alternating_dfs`, rendered as an
explicit stack machine, exactly as in the source: the stack holds
`(parent, remaining-children, depth-parity)` frames; the top frame's next
child is skipped when visited or joined by an edge of the wrong parity,
reported as success when it is a target, and otherwise marked visited and
pushed with the opposite parity; a frame with no children left is popped.
Structural recursion on a step-counting fuel (proved sufficient for the
callers' choice of fuel on well-formed graphs). -/
def altDfs (G : NXGraph) (M : List (Nat × Nat)) (targets : List Nat) :
    Nat → List (Nat × List Nat × Bool) → List Nat → Bool × List Nat
  | 0, _, vis => (false, vis)
  | _ + 1, [], vis => (false, vis)
  | fuel + 1, (_, [], _) :: rest, vis => altDfs G M targets fuel rest vis
  | fuel + 1, (p, c :: cs, d) :: rest, vis =>
    if c ∉ vis ∧ validEdge G M p c d = true then
      if c ∈ targets then (true, vis)
      else
        altDfs G M targets fuel
          ((c, G.adj c, !d) :: (p, cs, d) :: rest) (c :: vis)
    else altDfs G M targets fuel ((p, cs, d) :: rest) vis

/-- Fuel sufficient for a complete run of `altDfs` from a single root. -/
def dfsFuel (G : NXGraph) (v : Nat) : Nat :=
  2 + (G.adj v).length + gWeight G

/-- `_is_connected_by_alternating_path`: run the depth-first search once
starting at even depth and once starting at odd depth. -/
def isConnectedByAltPath (G : NXGraph) (M : List (Nat × Nat))
    (targets : List Nat) (v : Nat) : Bool :=
  (altDfs G M targets (dfsFuel G v) [(v, G.adj v, false)] []).1 ||
  (altDfs G M targets (dfsFuel G v) [(v, G.adj v, true)] []).1

/-- `_connected_by_alternating_paths`: the nodes of `G` that are targets or
connected to a target by an alternating path. -/
def connectedByAlternatingPaths (G : NXGraph) (M : List (Nat × Nat))
    (targets : List Nat) : List Nat :=
  G.nodes.filter (fun v => v ∈ targets ∨ isConnectedByAltPath G M targets v)

/-- `to_vertex_cover(G, matching, top_nodes)`: König construction
`(L - Z) ∪ (R ∩ Z)` where `Z` is the set of vertices connected to the
unmatched left vertices by alternating paths. -/
def to_vertex_cover (G : NXGraph) (M : List (Nat × Nat))
    (top : Option (List Nat)) : Except NXError (Finset Nat) :=
  match bipartite_sets G top with
  | .error e => .error e
  | .ok (L, R) =>
    let unmatchedV := G.nodes.filter (fun v => ¬ v ∈ mkeys M)
    let U := unmatchedV.filter (fun v => v ∈ L)
    let Z := connectedByAlternatingPaths G M U
    .ok ((L.filter (fun v => ¬ v ∈ Z)).toFinset ∪
         (R.filter (fun v => v ∈ Z)).toFinset)

/-! ### Hopcroft–Karp (`hopcroft_karp_matching` / `maximum_matching`)

Distances are Python floats with value `INFINITY`; they are modelled by
`Option ℕ` where `none` is infinity, so that `inf + 1 = inf` and
`inf == inf + 1` as in the source.  The distance dictionary is keyed by left
vertices and the sentinel `None`, hence has type `Option ℕ → Option ℕ`. -/

/-- `d + 1` on distances (`inf + 1 = inf`). -/
def dmap1 (d : Option Nat) : Option Nat := d.map (· + 1)

/-- `<` on distances (`inf` compares greater than everything, `inf < inf`
is false). -/
def dlt : Option Nat → Option Nat → Bool
  | none, _ => false
  | some _, none => true
  | some a, some b => a < b

/-- Pointwise update of a node-keyed dictionary. -/
def updF (f : Nat → Option Nat) (k : Nat) (v : Option Nat) :
    Nat → Option Nat :=
  fun x => if x = k then v else f x

/-- Pointwise update of the distance dictionary (keys include the sentinel). -/
def updD (f : Option Nat → Option Nat) (k : Option Nat) (v : Option Nat) :
    Option Nat → Option Nat :=
  fun x => if x = k then v else f x

/-- `G[v]` for a queue element (the sentinel is never dereferenced: it is
popped under a false guard). -/
def adjO (G : NXGraph) : Option Nat → List Nat
  | none => []
  | some v => G.adj v

/-- Mutable search state of `hopcroft_karp_matching`: `leftmatches`,
`rightmatches` and `distances`. -/
structure HKSt where
  lm : Nat → Option Nat
  rm : Nat → Option Nat
  dist : Option Nat → Option Nat

/-- The inner loop of `breadth_first_search`: for each `u` in `G[v]`, if
`distances[rightmatches[u]]` is infinite, set it to `distances[v] + 1` and
enqueue `rightmatches[u]`. -/
def bfsScan (rm : Nat → Option Nat) (v : Option Nat) :
    List Nat → (Option Nat → Option Nat) → List (Option Nat) →
    (Option Nat → Option Nat) × List (Option Nat)
  | [], dist, queue => (dist, queue)
  | u :: us, dist, queue =>
    if dist (rm u) = none then
      bfsScan rm v us (updD dist (rm u) (dmap1 (dist v))) (queue ++ [rm u])
    else bfsScan rm v us dist queue

/-- The queue loop of `breadth_first_search`: pop `v`; when
`distances[v] < distances[None]`, scan its neighbourhood.  Structural
recursion on a pop-counting fuel. -/
def bfsLoop (G : NXGraph) (rm : Nat → Option Nat) :
    Nat → List (Option Nat) → (Option Nat → Option Nat) →
    (Option Nat → Option Nat)
  | 0, _, dist => dist
  | _ + 1, [], dist => dist
  | fuel + 1, v :: queue, dist =>
    if dlt (dist v) (dist none) then
      let s := bfsScan rm v (adjO G v) dist queue
      bfsLoop G rm fuel s.2 s.1
    else bfsLoop G rm fuel queue dist

/-- Initial distances: `0` for unmatched left vertices, infinity for matched
left vertices and the sentinel. -/
def initDist (left : List Nat) (lm : Nat → Option Nat) :
    Option Nat → Option Nat :=
  fun x =>
    match x with
    | none => none
    | some v => if v ∈ left ∧ lm v = none then some 0 else none

/-- Initial queue: the unmatched left vertices, in order. -/
def initQueue (left : List Nat) (lm : Nat → Option Nat) :
    List (Option Nat) :=
  (left.filter (fun v => lm v = none)).map some

/-- `breadth_first_search()`: the final distance dictionary (the boolean
result of the source is `dist none ≠ none`). -/
def breadthFirstSearch (G : NXGraph) (left : List Nat)
    (lm rm : Nat → Option Nat) : Option Nat → Option Nat :=
  bfsLoop G rm (2 * left.length + 2) (initQueue left lm) (initDist left lm)

/-- Unwinding a successful `depth_first_search`: every frame on the stack
performs `rightmatches[u] = v; leftmatches[v] = u` for its pending edge `u`
(deepest frame first, as the Python recursion returns). -/
def unwindTrue : List (Nat × List Nat) → HKSt → HKSt
  | [], st => st
  | (_, []) :: rest, st => unwindTrue rest st
  | (v, u :: _) :: rest, st =>
    unwindTrue rest { st with rm := updF st.rm u (some v), lm := updF st.lm v (some u) }

/-- `depth_first_search`, as a stack machine: the stack holds
`(v, remaining-children)` frames, the head child of each non-top frame being
the edge it descended on.  The top frame tries its next child `u`: when
`distances[rightmatches[u]] == distances[v] + 1`, it either succeeds
(`rightmatches[u]` is `None`: the whole stack unwinds, flipping the path) or
descends into `rightmatches[u]`; otherwise the child is skipped.  A frame with
no children left sets `distances[v]` to infinity and reports failure to its
parent.  Structural recursion on a step-counting fuel. -/
def dfsRun (G : NXGraph) : Nat → List (Nat × List Nat) → HKSt → Bool × HKSt
  | 0, _, st => (false, st)
  | _ + 1, [], st => (false, st)
  | fuel + 1, (v, []) :: rest, st =>
    let st2 := { st with dist := updD st.dist (some v) none }
    match rest with
    | [] => (false, st2)
    | (_, []) :: _ => (false, st2)
    | (w, _ :: us) :: rest2 => dfsRun G fuel ((w, us) :: rest2) st2
  | fuel + 1, (v, u :: us) :: rest, st =>
    if st.dist (st.rm u) = dmap1 (st.dist (some v)) then
      match st.rm u with
      | none => (true, unwindTrue ((v, u :: us) :: rest) st)
      | some w => dfsRun G fuel ((w, G.adj w) :: (v, u :: us) :: rest) st
    else dfsRun G fuel ((v, us) :: rest) st

/-- Fuel sufficient for a complete `depth_first_search` run. -/
def hkDfsFuel (G : NXGraph) (left : List Nat) : Nat :=
  4 * gWeight G + 4 * left.length + 8

/-- The augmentation pass of a phase: `for v in left: if leftmatches[v] is
None and depth_first_search(v): ...` (the counter of the source is unused). -/
def phaseLoop (G : NXGraph) (dfuel : Nat) : List Nat → HKSt → HKSt
  | [], st => st
  | v :: vs, st =>
    if st.lm v = none then
      phaseLoop G dfuel vs (dfsRun G dfuel [(v, G.adj v)] st).2
    else phaseLoop G dfuel vs st

/-- `while breadth_first_search(): for v in left: ...`.  Structural recursion
on a phase-counting fuel (each continuing phase augments the matching, so
`|left| + 1` phases suffice; proved below). -/
def hkLoop (G : NXGraph) (left : List Nat) (dfuel : Nat) :
    Nat → (Nat → Option Nat) → (Nat → Option Nat) →
    (Nat → Option Nat) × (Nat → Option Nat)
  | 0, lm, rm => (lm, rm)
  | fuel + 1, lm, rm =>
    let dist := breadthFirstSearch G left lm rm
    if dist none ≠ none then
      let st := phaseLoop G dfuel left ⟨lm, rm, dist⟩
      hkLoop G left dfuel fuel st.lm st.rm
    else (lm, rm)

/-- `hopcroft_karp_matching(G, top_nodes)`: run phases until no augmenting
path exists, strip the `None` entries and combine the left and right match
dictionaries. -/
def hopcroft_karp_matching (G : NXGraph) (top : Option (List Nat)) :
    Except NXError (List (Nat × Nat)) :=
  match bipartite_sets G top with
  | .error e => .error e
  | .ok (left, right) =>
    let p := hkLoop G left (hkDfsFuel G left) (left.length + 1)
      (fun _ => none) (fun _ => none)
    let leftPairs := left.filterMap (fun v => (p.1 v).map (fun u => (v, u)))
    let rightPairs := right.filterMap (fun u => (p.2 u).map (fun v => (u, v)))
    .ok (leftPairs ++ rightPairs)

/-- `maximum_matching` is an alias of `hopcroft_karp_matching`. -/
def maximum_matching (G : NXGraph) (top : Option (List Nat)) :
    Except NXError (List (Nat × Nat)) :=
  hopcroft_karp_matching G top

/-! ### `_M_alternating_sequence` and the envy-free derivatives -/

/-- `Y_i`: neighbours of the previous `X` set reachable by non-matching
edges, not already in an earlier `Y` set (a Python set comprehension;
modelled as a deduplicated list). -/
def altSeqY (G : NXGraph) (M : List (Nat × Nat)) (Xlast Yaccum : List Nat) :
    List Nat :=
  (Xlast.flatMap (fun n => (G.adj n).filter (fun nbr =>
    ¬ nbr ∈ Yaccum ∧ mlookup M n ≠ some nbr ∧ mlookup M nbr ≠ some n))).dedup

/-- `X_i`: neighbours of `Y_i` matched to it by `M`. -/
def altSeqX (G : NXGraph) (M : List (Nat × Nat)) (Ycur : List Nat) :
    List Nat :=
  (Ycur.flatMap (fun n => (G.adj n).filter (fun nbr =>
    mlookup M n = some nbr ∧ mlookup M nbr = some n))).dedup

/-- The `while` loop of `_M_alternating_sequence`: compute `Y_i` then `X_i`,
stopping (and discarding the current sets) when either is empty; otherwise
append both and accumulate `Y_i`.  After any append both appended sets are
non-empty, so the source's loop condition is always true and the loop is
left only through its `break` statements; each appended `Y_i` is disjoint
from the accumulated `Y` sets, which bounds the iteration count. -/
def altSeqLoop (G : NXGraph) (M : List (Nat × Nat)) :
    Nat → List Nat → List (List Nat) → List (List Nat) → List Nat →
    List (List Nat) × List (List Nat)
  | 0, _, Xacc, Yacc, _ => (Xacc, Yacc)
  | fuel + 1, Xlast, Xacc, Yacc, Yaccum =>
    let Ycur := altSeqY G M Xlast Yaccum
    if Ycur.isEmpty then (Xacc, Yacc)
    else
      let Xcur := altSeqX G M Ycur
      if Xcur.isEmpty then (Xacc, Yacc)
      else
        altSeqLoop G M fuel Xcur (Xacc ++ [Xcur]) (Yacc ++ [Ycur])
          (Yaccum ++ Ycur)

/-- `_M_alternating_sequence(G, M, top_nodes)`. -/
def M_alternating_sequence (G : NXGraph) (M : List (Nat × Nat))
    (top : Option (List Nat)) :
    Except NXError (List (List Nat) × List (List Nat)) :=
  match bipartite_sets G top with
  | .error e => .error e
  | .ok (X, _) =>
    let X0 := X.filter (fun v => ¬ v ∈ mkeys M)
    if X0.isEmpty then .ok ([], [])
    else .ok (altSeqLoop G M (G.nodes.length + 1) X0 [X0] [] [])

/-- `envy_free_matching_partition(G, M=?, top_nodes)`: the 4-tuple
`(X_L, X_S, Y_L, Y_S)`. -/
def envy_free_matching_partition (G : NXGraph)
    (Mopt : Option (List (Nat × Nat))) (top : Option (List Nat)) :
    Except NXError (Finset Nat × Finset Nat × Finset Nat × Finset Nat) :=
  match (match Mopt with
         | none => maximum_matching G top
         | some M0 => .ok M0) with
  | .error e => .error e
  | .ok M =>
    match bipartite_sets G top with
    | .error e => .error e
    | .ok (X, Y) =>
      match M_alternating_sequence G M top with
      | .error e => .error e
      | .ok (Xs, Ys) =>
        .ok (X.toFinset \ Xs.flatten.toFinset, Xs.flatten.toFinset,
             Y.toFinset \ Ys.flatten.toFinset, Ys.flatten.toFinset)

/-- `maximum_envy_free_matching(G, top_nodes)`: guarded for directed and
multigraph inputs (`not_implemented_for`), then the maximum matching
restricted to pairs outside `X_S ∪ Y_S`. -/
def maximum_envy_free_matching (G : NXGraph) (top : Option (List Nat)) :
    Except NXError (List (Nat × Nat)) :=
  if G.directed then .error .notImplementedFor
  else if G.multigraph then .error .notImplementedFor
  else
    match maximum_matching G top with
    | .error e => .error e
    | .ok M =>
      match envy_free_matching_partition G (some M) top with
      | .error e => .error e
      | .ok part =>
        let un := part.2.1 ∪ part.2.2.2
        .ok (M.filter (fun p => ¬ p.1 ∈ un ∧ ¬ p.2 ∈ un))

/-- `G.subgraph(s)`: the induced subgraph on the node set `s`. -/
def NXGraph.subgraph (G : NXGraph) (s : Finset Nat) : NXGraph :=
  { nodes := G.nodes.filter (fun v => v ∈ s),
    adjl := (G.adjl.filter (fun p => p.1 ∈ s)).map
      (fun p => (p.1, p.2.filter (fun u => u ∈ s))),
    directed := G.directed,
    multigraph := G.multigraph }

/-- `minimum_weight_envy_free_matching(G, top_nodes)`: guarded for directed
and multigraph inputs, then delegates to `minimum_weight_full_matching` on
the subgraph induced by `X_L ∪ Y_L`.  The weight solver (SciPy's linear sum
assignment, an external black box per the spec) is a parameter. -/
def minimum_weight_envy_free_matching
    (solver : NXGraph → List (Nat × Nat)) (G : NXGraph)
    (top : Option (List Nat)) : Except NXError (List (Nat × Nat)) :=
  if G.directed then .error .notImplementedFor
  else if G.multigraph then .error .notImplementedFor
  else
    match maximum_matching G top with
    | .error e => .error e
    | .ok M =>
      match envy_free_matching_partition G (some M) top with
      | .error e => .error e
      | .ok part => .ok (solver (G.subgraph (part.1 ∪ part.2.2.1)))

/-! ### Invariants of the Hopcroft–Karp search (used in the proofs) -/

/-- Invariant of the match dictionaries during the search: `leftmatches` and
`rightmatches` are mutually inverse partial maps, matched pairs are edges,
and the two dictionaries are keyed by the two sides. -/
def MInv (G : NXGraph) (L R : List Nat) (lm rm : Nat → Option Nat) : Prop :=
  (∀ v u, lm v = some u → rm u = some v) ∧
  (∀ u v, rm u = some v → lm v = some u) ∧
  (∀ v u, lm v = some u → u ∈ G.adj v) ∧
  (∀ v, lm v ≠ none → v ∈ L) ∧
  (∀ u, rm u ≠ none → u ∈ R)

/-- Each non-top frame of the depth-first-search stack descended into the
frame above it through its pending head edge. -/
def FrameChain (rm : Nat → Option Nat) : List (Nat × List Nat) → Prop
  | [] => True
  | [_] => True
  | (c, _cs) :: (v, us) :: rest =>
    (∃ u us2, us = u :: us2 ∧ rm u = some c) ∧
    FrameChain rm ((v, us) :: rest)

/-- Distances strictly increase (by exactly one, staying finite) from the
bottom of the depth-first-search stack to its top. -/
def FrameDist (dist : Option Nat → Option Nat) : List (Nat × List Nat) → Prop
  | [] => True
  | [(v, _us)] => dist (some v) ≠ none
  | (c, _cs) :: (v, us) :: rest =>
    dist (some c) = dmap1 (dist (some v)) ∧ dist (some c) ≠ none ∧
    FrameDist dist ((v, us) :: rest)

/-- Every stack frame's node is a left vertex and its remaining-children
list is a suffix of that node's adjacency. -/
def FrameEdges (G : NXGraph) (L : List Nat) (stack : List (Nat × List Nat)) :
    Prop :=
  ∀ p ∈ stack, p.1 ∈ L ∧ ∃ pre, pre ++ p.2 = G.adj p.1

/-- Postcondition of a successful `depth_first_search` started at root `r`:
the match dictionaries still satisfy the invariant, except that the inverse
of the old entry of `r` may dangle; `r` is newly matched; no other left
vertex changes matched status from unmatched to matched or back; distances
only move towards infinity. -/
def AugOk (G : NXGraph) (L R : List Nat) (st st2 : HKSt) (r : Nat) : Prop :=
  (∀ v u, st2.lm v = some u → st2.rm u = some v) ∧
  (∀ u w, st2.rm u = some w → st2.lm w = some u ∨ (w = r ∧ st.lm r = some u)) ∧
  (∀ v u, st2.lm v = some u → u ∈ G.adj v) ∧
  (∀ v, st2.lm v ≠ none → v ∈ L) ∧
  (∀ u, st2.rm u ≠ none → u ∈ R) ∧
  st2.lm r ≠ none ∧
  (∀ w, st.lm w ≠ none → st2.lm w ≠ none) ∧
  (∀ w, st.lm w = none → w ≠ r → st2.lm w = none) ∧
  (∀ x, st2.dist x = st.dist x ∨ st2.dist x = none)

/-- The node of the bottom (root) frame of a depth-first-search stack. -/
def lastNode (stack : List (Nat × List Nat)) : Option Nat :=
  stack.getLast?.map Prod.fst

/-- Concrete single-edge graph used in counterexamples and witnesses. -/
def gEdge01 : NXGraph := { nodes := [0, 1], adjl := [(0, [1]), (1, [0])] }

/-- Concrete directed two-cycle used in counterexamples and witnesses. -/
def gDir01 : NXGraph :=
  { nodes := [0, 1], adjl := [(0, [1]), (1, [0])], directed := true }

/-- The graph of the source's docstring examples: edges
`(0,3), (0,4), (1,4), (2,4)` with left part `{0,1,2}`. -/
def gHouse : NXGraph :=
  { nodes := [0, 3, 4, 1, 2],
    adjl := [(0, [3, 4]), (3, [0]), (4, [0, 1, 2]), (1, [4]), (2, [4])] }

/-- A maximum matching of `gHouse` (the docstring's `{0: 3, 3: 0, 1: 4, 4: 1}`). -/
def mHouse : List (Nat × Nat) := [(0, 3), (3, 0), (1, 4), (4, 1)]

/-- Alternating walks: `AWalk a d xs` says that from vertex `a` the vertex
list `xs` can be walked, the first step using an edge of parity `d` (`true`
for matched) and the parities alternating thereafter. -/
def AWalk (G : NXGraph) (M : List (Nat × Nat)) : Nat → Bool → List Nat → Prop
  | _, _, [] => True
  | a, d, b :: rest => validEdge G M a b d = true ∧ AWalk G M b (!d) rest

/-- A target of `targets` is reachable from `a` by a non-empty alternating
walk. -/
def ReachU (G : NXGraph) (M : List (Nat × Nat)) (targets : List Nat)
    (a : Nat) : Prop :=
  ∃ d xs t, AWalk G M a d xs ∧ xs.getLast? = some t ∧ t ∈ targets

/-- The pairs (in both orientations) of a path's edges, used to flip an
augmenting path. -/
def flipPairs : List Nat → List (Nat × Nat)
  | a :: b :: rest => (a, b) :: (b, a) :: flipPairs rest
  | _ => []

/-- The matching obtained by flipping an augmenting path: the path's edges
become matched and all old entries touching the path are dropped. -/
def flipMatching (M : List (Nat × Nat)) (path : List Nat) :
    List (Nat × Nat) :=
  flipPairs path ++ M.filter (fun p => ¬ p.1 ∈ path ∧ ¬ p.2 ∈ path)

/-- Total remaining exploration capacity of the unvisited nodes (fuel
potential of `_alternating_dfs`). -/
def remWeight (G : NXGraph) (vis : List Nat) : Nat :=
  ((G.nodes.filter (fun x => ¬ x ∈ vis)).map
    (fun x => (G.adj x).length + 1)).sum

/-- Total remaining exploration capacity of the stack (fuel potential of
`_alternating_dfs`). -/
def stackWeight (stack : List (Nat × List Nat × Bool)) : Nat :=
  (stack.map (fun f => f.2.1.length + 1)).sum

/-- Left part `{0, ..., m-1}` of the complete bipartite graph `K(m, n)`. -/
def cbLeft (m : Nat) : List Nat := List.range m

/-- Right part `{m, ..., m+n-1}` of the complete bipartite graph `K(m, n)`. -/
def cbRight (m n : Nat) : List Nat := (List.range n).map (fun j => m + j)

/-- The complete bipartite graph `K(m, n)` (`nx.complete_bipartite_graph`):
every left node is adjacent to every right node. -/
def completeBipartite (m n : Nat) : NXGraph :=
  { nodes := cbLeft m ++ cbRight m n,
    adjl := (cbLeft m).map (fun i => (i, cbRight m n)) ++
      (cbRight m n).map (fun j => (j, cbLeft m)) }

/-! ## Theorems -/

theorem adj_mem_adjl {G : NXGraph} {v u : Nat} (h : u ∈ G.adj v) :
    ∃ p ∈ G.adjl, p.1 = v ∧ u ∈ p.2 := by
  unfold NXGraph.adj at h
  cases hf : G.adjl.find? (fun p => p.1 == v) with
  | none => simp [hf] at h
  | some p =>
    refine ⟨p, List.mem_of_find?_eq_some hf, ?_, ?_⟩
    · have := List.find?_some hf
      simpa using this
    · simpa [hf] using h

theorem WF.adj_mem_nodes {G : NXGraph} (hG : G.WF) {v u : Nat}
    (h : u ∈ G.adj v) : v ∈ G.nodes ∧ u ∈ G.nodes := by
  obtain ⟨p, hp, hpv, hu⟩ := adj_mem_adjl h
  exact ⟨hpv ▸ hG.2.1 p hp, hG.2.2.1 p hp u hu⟩

theorem WF.adj_symm {G : NXGraph} (hG : G.WF) {v u : Nat}
    (h : u ∈ G.adj v) : v ∈ G.adj u := by
  obtain ⟨p, hp, hpv, hu⟩ := adj_mem_adjl h
  exact hpv ▸ hG.2.2.2.1 p hp u hu

theorem WF.adj_irrefl {G : NXGraph} (hG : G.WF) {v : Nat} : v ∉ G.adj v := by
  intro h
  obtain ⟨p, hp, hpv, hu⟩ := adj_mem_adjl h
  exact hG.2.2.2.2.2 p hp (hpv ▸ hu)

theorem Bip.adj {G : NXGraph} {L R : List Nat} (hB : Bip G L R) {v u : Nat}
    (h : u ∈ G.adj v) : (v ∈ L ∧ u ∈ R) ∨ (v ∈ R ∧ u ∈ L) := by
  obtain ⟨p, hp, hpv, hu⟩ := adj_mem_adjl h
  have := hB p hp u hu
  rw [hpv] at this
  exact this

theorem mem_connectedByAlternatingPaths {G : NXGraph} {M : List (Nat × Nat)}
    {T : List Nat} {v : Nat} :
    v ∈ connectedByAlternatingPaths G M T ↔
      v ∈ G.nodes ∧ (v ∈ T ∨ isConnectedByAltPath G M T v = true) := by
  unfold connectedByAlternatingPaths
  simp [List.mem_filter]

/-! ### C10: the alternating-reachability result is a subset of the graph's
nodes; targets outside the graph are silently omitted. -/

/-- C10: for every graph `G`, matching `M` and target set `T`, the result of
`_connected_by_alternating_paths(G, M, T)` is a subset of `G`'s node set; a
target that is not a node of `G` is silently omitted (no error is raised: the
function is total), and no node outside `G` ever appears in the result. -/
theorem C10_reach_subset_nodes (G : NXGraph) (M : List (Nat × Nat))
    (T : List Nat) :
    (∀ v ∈ connectedByAlternatingPaths G M T, v ∈ G.nodes) ∧
    (∀ t ∈ T, t ∉ G.nodes → t ∉ connectedByAlternatingPaths G M T) := by
  constructor
  · intro v hv
    exact (mem_connectedByAlternatingPaths.mp hv).1
  · intro t _ ht hmem
    exact ht (mem_connectedByAlternatingPaths.mp hmem).1

/-- Witness for C10 at a concrete input: node `5` is a target but not a node
of the one-edge graph, and it is absent from the result. -/
theorem C10_reach_subset_nodes_witness :
    (∀ v ∈ connectedByAlternatingPaths gEdge01 [] [5], v ∈ gEdge01.nodes) ∧
    5 ∉ connectedByAlternatingPaths gEdge01 [] [5] :=
  ⟨(C10_reach_subset_nodes gEdge01 [] [5]).1,
   (C10_reach_subset_nodes gEdge01 [] [5]).2 5 (by decide) (by decide)⟩

/-! ### C8: targets are contained in the alternating-reachability result. -/

/-- C8 counterexample: the claim "`T` is a subset of the result for every
`G`, `M`, `T`" fails when a target is not a node of the graph: with the
one-edge graph and `T = [5]`, `5 ∈ T` but `5` is not in the result. -/
theorem C8_counterexample :
    5 ∈ ([5] : List Nat) ∧
    5 ∉ connectedByAlternatingPaths gEdge01 [] [5] := by
  constructor
  · decide
  · decide

/-- C8 (amended): every target that is a node of `G` is contained in the
result of `_connected_by_alternating_paths(G, M, T)`. -/
theorem C8_targets_subset_reach (G : NXGraph) (M : List (Nat × Nat))
    (T : List Nat) :
    ∀ t ∈ T, t ∈ G.nodes → t ∈ connectedByAlternatingPaths G M T := by
  intro t ht htn
  exact mem_connectedByAlternatingPaths.mpr ⟨htn, Or.inl ht⟩

/-- Witness for C8 (amended) at a concrete input. -/
theorem C8_targets_subset_reach_witness :
    0 ∈ connectedByAlternatingPaths gEdge01 [] [0] :=
  C8_targets_subset_reach gEdge01 [] [0] 0 (by decide) (by decide)

theorem nodup_keys_eq {α β : Type} {l : List (α × β)} {a : α} {b c : β}
    (hn : (l.map Prod.fst).Nodup) (hb : (a, b) ∈ l) (hc : (a, c) ∈ l) :
    b = c := by
  induction l with
  | nil => cases hb
  | cons p t ih =>
    rw [List.map_cons, List.nodup_cons] at hn
    rcases List.mem_cons.mp hb with hb0 | hb0 <;>
      rcases List.mem_cons.mp hc with hc0 | hc0
    · exact congrArg Prod.snd (hb0.trans hc0.symm)
    · exfalso
      exact hn.1 (hb0 ▸ (List.mem_map.mpr ⟨(a, c), hc0, rfl⟩ : a ∈ _))
    · exfalso
      exact hn.1 (hc0 ▸ (List.mem_map.mpr ⟨(a, b), hb0, rfl⟩ : a ∈ _))
    · exact ih hn.2 hb0 hc0

theorem colorAux_spec (G : NXGraph) (N : List Nat) :
    ∀ fuel work rem (acc : List (Nat × Bool)),
    rem.Nodup →
    (∀ p ∈ acc, p.1 ∉ rem) →
    (acc.map Prod.fst).Nodup →
    (∀ p ∈ acc, p.1 ∈ N) →
    (∀ z ∈ rem, z ∈ N) →
    ((colorAux G fuel work rem acc).map Prod.fst).Nodup ∧
    (∀ p ∈ colorAux G fuel work rem acc, p.1 ∈ N) := by
  intro fuel
  induction fuel with
  | zero =>
    intro work rem acc _ _ h3 h4 _
    rw [colorAux]
    constructor
    · rw [List.map_reverse]
      exact List.nodup_reverse.mpr h3
    · intro p hp
      exact h4 p (List.mem_reverse.mp hp)
  | succ f ih =>
    intro work rem acc h1 h2 h3 h4 h5
    match work with
    | [] =>
      rw [colorAux]
      constructor
      · rw [List.map_reverse]
        exact List.nodup_reverse.mpr h3
      · intro p hp
        exact h4 p (List.mem_reverse.mp hp)
    | (v, c) :: work2 =>
      rw [colorAux]
      by_cases hv : v ∈ rem
      · rw [if_pos hv]
        apply ih
        · exact h1.erase v
        · intro p hp
          rcases List.mem_cons.mp hp with hp0 | hp0
          · rw [hp0]
            exact h1.not_mem_erase
          · intro hc
            exact h2 p hp0 (List.mem_of_mem_erase hc)
        · rw [List.map_cons, List.nodup_cons]
          exact ⟨fun hc => by
            obtain ⟨q, hq, hq2⟩ := List.mem_map.mp hc
            exact h2 q hq (hq2 ▸ hv), h3⟩
        · intro p hp
          rcases List.mem_cons.mp hp with hp0 | hp0
          · rw [hp0]
            exact h5 v hv
          · exact h4 p hp0
        · intro z hz
          exact h5 z (List.mem_of_mem_erase hz)
      · rw [if_neg hv]
        exact ih work2 rem acc h1 h2 h3 h4 h5

/-- The two parts returned by `bipartite_sets` have no duplicates, are
disjoint, and the right part consists of graph nodes. -/
theorem bipartite_sets_props {G : NXGraph} {top : Option (List Nat)}
    {L R : List Nat} (hnd : G.nodes.Nodup)
    (h : bipartite_sets G top = Except.ok (L, R)) :
    L.Nodup ∧ R.Nodup ∧ (∀ x ∈ L, x ∉ R) ∧ (∀ x ∈ R, x ∈ G.nodes) := by
  match top with
  | some t =>
    unfold bipartite_sets at h
    simp only [Except.ok.injEq, Prod.mk.injEq] at h
    obtain ⟨hL, hR⟩ := h
    subst hL
    subst hR
    refine ⟨List.nodup_dedup t, hnd.filter _, ?_, ?_⟩
    · intro x hx hxr
      rw [List.mem_filter] at hxr
      exact (by simpa using hxr.2 : x ∉ t) (List.mem_dedup.mp hx)
    · intro x hx
      exact (List.mem_filter.mp hx).1
  | none =>
    unfold bipartite_sets at h
    by_cases hc : (twoColorAll G).length = G.nodes.length
    · rw [if_pos hc] at h
      simp only [Except.ok.injEq, Prod.mk.injEq] at h
      obtain ⟨hL, hR⟩ := h
      have hcols : ((twoColorAll G).map Prod.fst).Nodup ∧
          (∀ p ∈ twoColorAll G, p.1 ∈ G.nodes) := by
        unfold twoColorAll
        rcases hn : G.nodes with _ | ⟨v, vs⟩
        · exact ⟨List.nodup_nil, by intro p hp; cases hp⟩
        · exact colorAux_spec G (v :: vs) _ _ _ [] (hn ▸ hnd)
            (by intro p hp; cases hp) List.nodup_nil
            (by intro p hp; cases hp) (fun z hz => hz)
      have hsubl : ∀ (pred : Nat × Bool → Bool),
          (((twoColorAll G).filter pred).map Prod.fst).Nodup := by
        intro pred
        exact hcols.1.sublist (List.Sublist.map _ (List.filter_sublist _))
      refine ⟨hL ▸ hsubl _, hR ▸ hsubl _, ?_, ?_⟩
      · subst hL
        subst hR
        intro x hx hxr
        obtain ⟨p, hp, hp2⟩ := List.mem_map.mp hx
        obtain ⟨q, hq, hq2⟩ := List.mem_map.mp hxr
        rw [List.mem_filter] at hp hq
        have hpq : p.2 = q.2 := by
          have : p = (x, p.2) := by rw [← hp2]
          have hq3 : q = (x, q.2) := by rw [← hq2]
          exact nodup_keys_eq hcols.1 (this ▸ hp.1) (hq3 ▸ hq.1)
        rw [hpq] at hp
        rw [hq.2] at hp
        simp at hp
      · subst hR
        intro x hx
        obtain ⟨p, hp, hp2⟩ := List.mem_map.mp hx
        exact hp2 ▸ hcols.2 p (List.mem_filter.mp hp).1
    · rw [if_neg hc] at h
      exact Except.noConfusion h

theorem mem_altSeqY {G : NXGraph} {M : List (Nat × Nat)}
    {Xlast Yaccum : List Nat} {y : Nat} :
    y ∈ altSeqY G M Xlast Yaccum ↔
      ∃ n, n ∈ Xlast ∧ y ∈ G.adj n ∧ ¬ y ∈ Yaccum ∧
        mlookup M n ≠ some y ∧ mlookup M y ≠ some n := by
  unfold altSeqY
  simp [List.mem_dedup, List.mem_flatMap, List.mem_filter, and_assoc]

theorem mem_altSeqX {G : NXGraph} {M : List (Nat × Nat)}
    {Ycur : List Nat} {x : Nat} :
    x ∈ altSeqX G M Ycur ↔
      ∃ n, n ∈ Ycur ∧ x ∈ G.adj n ∧
        mlookup M n = some x ∧ mlookup M x = some n := by
  unfold altSeqX
  simp [List.mem_dedup, List.mem_flatMap, List.mem_filter, and_assoc]

/-- Disjointness of two lists, elementwise. -/
def LDisj (A B : List Nat) : Prop := ∀ y ∈ A, y ∉ B

/-- Main invariant lemma for the `_M_alternating_sequence` loop: assuming the
graph is bipartite with disjoint parts `X`, `Y`, the loop keeps its `X` sets
inside `X` and its `Y` sets inside `Y`, the collected `Y` sets are non-empty
and pairwise disjoint, the number of collected `Y` sets is bounded by the
number of `Y` nodes not yet collected, and the result is independent of the
fuel once the fuel exceeds that number. -/
theorem altSeqLoop_spec {G : NXGraph} {M : List (Nat × Nat)} {X Y : List Nat}
    (hB : Bip G X Y) (hD : ∀ x ∈ X, x ∉ Y) :
    ∀ fuel Xlast Xacc Yacc Yaccum,
    (Y.toFinset \ Yaccum.toFinset).card + 1 ≤ fuel →
    (∀ x ∈ Xlast, x ∈ X) →
    (∀ l ∈ Xacc, ∀ x ∈ l, x ∈ X) →
    (∀ l ∈ Yacc, ∀ y ∈ l, y ∈ Y) →
    (∀ y, y ∈ Yaccum ↔ ∃ l ∈ Yacc, y ∈ l) →
    Yacc.Pairwise LDisj →
    (∀ l ∈ Yacc, l ≠ []) →
    (∀ l ∈ (altSeqLoop G M fuel Xlast Xacc Yacc Yaccum).1, ∀ x ∈ l, x ∈ X) ∧
    (∀ l ∈ (altSeqLoop G M fuel Xlast Xacc Yacc Yaccum).2, ∀ y ∈ l, y ∈ Y) ∧
    (altSeqLoop G M fuel Xlast Xacc Yacc Yaccum).2.Pairwise LDisj ∧
    (∀ l ∈ (altSeqLoop G M fuel Xlast Xacc Yacc Yaccum).2, l ≠ []) ∧
    (altSeqLoop G M fuel Xlast Xacc Yacc Yaccum).2.length ≤
      Yacc.length + (Y.toFinset \ Yaccum.toFinset).card ∧
    (∀ fuel2, (Y.toFinset \ Yaccum.toFinset).card + 1 ≤ fuel2 →
      altSeqLoop G M fuel2 Xlast Xacc Yacc Yaccum =
        altSeqLoop G M fuel Xlast Xacc Yacc Yaccum) := by
  intro fuel
  induction fuel with
  | zero =>
    intro Xlast Xacc Yacc Yaccum hfuel
    omega
  | succ f ih =>
    intro Xlast Xacc Yacc Yaccum hfuel hXlast hXacc hYacc hYaccum hYpair hYne
    have hYsub : ∀ y ∈ altSeqY G M Xlast Yaccum, y ∈ Y := by
      intro y hy
      obtain ⟨n, hn, hadj, -, -, -⟩ := mem_altSeqY.mp hy
      rcases hB.adj hadj with ⟨hnX, hyY⟩ | ⟨hnY, -⟩
      · exact hyY
      · exact absurd hnY (hD n (hXlast n hn))
    have hYnotacc : ∀ y ∈ altSeqY G M Xlast Yaccum, y ∉ Yaccum := by
      intro y hy
      obtain ⟨n, hn, hadj, hnin, -, -⟩ := mem_altSeqY.mp hy
      exact hnin
    show _ ∧ _ ∧ _ ∧ _ ∧ _ ∧ _
    rw [altSeqLoop]
    by_cases hYe : (altSeqY G M Xlast Yaccum).isEmpty
    · rw [if_pos hYe]
      refine ⟨hXacc, hYacc, hYpair, hYne, Nat.le_add_right _ _, ?_⟩
      intro fuel2 hfuel2
      match fuel2, hfuel2 with
      | f2 + 1, _ =>
        rw [altSeqLoop, if_pos hYe]
    · rw [if_neg hYe]
      by_cases hXe : (altSeqX G M (altSeqY G M Xlast Yaccum)).isEmpty
      · rw [if_pos hXe]
        refine ⟨hXacc, hYacc, hYpair, hYne, Nat.le_add_right _ _, ?_⟩
        intro fuel2 hfuel2
        match fuel2, hfuel2 with
        | f2 + 1, _ =>
          rw [altSeqLoop, if_neg hYe, if_pos hXe]
      · rw [if_neg hXe]
        -- the appended sets
        set Ycur := altSeqY G M Xlast Yaccum with hYcur
        set Xcur := altSeqX G M Ycur with hXcur
        have hXsub : ∀ x ∈ Xcur, x ∈ X := by
          intro x hx
          obtain ⟨n, hn, hadj, -, -⟩ := mem_altSeqX.mp hx
          rcases hB.adj hadj with ⟨hnX, -⟩ | ⟨-, hxX⟩
          · exact absurd (hYsub n hn) (hD n hnX)
          · exact hxX
        have hYne2 : Ycur ≠ [] := by
          intro hc
          rw [hc] at hYe
          exact hYe rfl
        obtain ⟨y0, hy0⟩ := List.exists_mem_of_ne_nil _ hYne2
        have hsub2 : Y.toFinset \ (Yaccum ++ Ycur).toFinset ⊆
            Y.toFinset \ Yaccum.toFinset := by
          intro z hz
          simp only [Finset.mem_sdiff, List.mem_toFinset, List.mem_append] at hz ⊢
          exact ⟨hz.1, fun hc => hz.2 (Or.inl hc)⟩
        have hy0mem : y0 ∈ Y.toFinset \ Yaccum.toFinset := by
          simp only [Finset.mem_sdiff, List.mem_toFinset]
          exact ⟨hYsub y0 hy0, hYnotacc y0 hy0⟩
        have hy0not : y0 ∉ Y.toFinset \ (Yaccum ++ Ycur).toFinset := by
          simp only [Finset.mem_sdiff, List.mem_toFinset, List.mem_append]
          intro hc
          exact hc.2 (Or.inr hy0)
        have hcard : (Y.toFinset \ (Yaccum ++ Ycur).toFinset).card <
            (Y.toFinset \ Yaccum.toFinset).card := by
          apply Finset.card_lt_card
          rw [Finset.ssubset_def]
          exact ⟨hsub2, fun hts => hy0not (hts hy0mem)⟩
        have hrec := ih Xcur (Xacc ++ [Xcur]) (Yacc ++ [Ycur]) (Yaccum ++ Ycur)
          (by omega) hXsub
          (by
            intro l hl x hx
            rcases List.mem_append.mp hl with hl | hl
            · exact hXacc l hl x hx
            · rw [List.mem_singleton.mp hl] at hx
              exact hXsub x hx)
          (by
            intro l hl y hy
            rcases List.mem_append.mp hl with hl | hl
            · exact hYacc l hl y hy
            · rw [List.mem_singleton.mp hl] at hy
              exact hYsub y hy)
          (by
            intro y
            simp only [List.mem_append, List.mem_singleton]
            constructor
            · rintro (hy | hy)
              · obtain ⟨l, hl, hyl⟩ := (hYaccum y).mp hy
                exact ⟨l, Or.inl hl, hyl⟩
              · exact ⟨Ycur, Or.inr rfl, hy⟩
            · rintro ⟨l, hl | hl, hyl⟩
              · exact Or.inl ((hYaccum y).mpr ⟨l, hl, hyl⟩)
              · rw [hl] at hyl
                exact Or.inr hyl)
          (by
            rw [List.pairwise_append]
            refine ⟨hYpair, List.pairwise_singleton _ _, ?_⟩
            intro A hA B hB0 y hyA
            rw [List.mem_singleton.mp hB0]
            intro hyB
            exact hYnotacc y hyB ((hYaccum y).mpr ⟨A, hA, hyA⟩))
          (by
            intro l hl
            rcases List.mem_append.mp hl with hl | hl
            · exact hYne l hl
            · rw [List.mem_singleton.mp hl]
              exact hYne2)
        refine ⟨hrec.1, hrec.2.1, hrec.2.2.1, hrec.2.2.2.1, ?_, ?_⟩
        · calc (altSeqLoop G M f Xcur (Xacc ++ [Xcur]) (Yacc ++ [Ycur])
              (Yaccum ++ Ycur)).2.length
              ≤ (Yacc ++ [Ycur]).length +
                (Y.toFinset \ (Yaccum ++ Ycur).toFinset).card :=
                hrec.2.2.2.2.1
            _ ≤ Yacc.length + (Y.toFinset \ Yaccum.toFinset).card := by
                simp only [List.length_append, List.length_singleton]
                omega
        · intro fuel2 hfuel2
          match fuel2, hfuel2 with
          | f2 + 1, _ =>
            rw [altSeqLoop, if_neg hYe, if_neg hXe]
            exact hrec.2.2.2.2.2 f2 (by omega)

theorem M_alternating_sequence_ok {G : NXGraph} {M : List (Nat × Nat)}
    {top : Option (List Nat)} {L R : List Nat}
    (h : bipartite_sets G top = Except.ok (L, R)) :
    ∃ s, M_alternating_sequence G M top = Except.ok s := by
  unfold M_alternating_sequence
  simp only [h]
  split
  · exact ⟨_, rfl⟩
  · exact ⟨_, rfl⟩

theorem envy_free_matching_partition_ok {G : NXGraph} {M : List (Nat × Nat)}
    {top : Option (List Nat)} {L R : List Nat} {Xs Ys : List (List Nat)}
    (h : bipartite_sets G top = Except.ok (L, R))
    (hs : M_alternating_sequence G M top = Except.ok (Xs, Ys)) :
    envy_free_matching_partition G (some M) top =
      Except.ok (L.toFinset \ Xs.flatten.toFinset, Xs.flatten.toFinset,
        R.toFinset \ Ys.flatten.toFinset, Ys.flatten.toFinset) := by
  unfold envy_free_matching_partition
  simp only [h, hs]

/-- Specification of `_M_alternating_sequence` under the bipartite
hypotheses: the `X` sets live in `X`, the `Y` sets live in `Y`, the `Y` sets
are non-empty and pairwise disjoint, there are at most `|Y|` of them, and the
underlying loop's result is stable once the fuel exceeds `|nodes|`. -/
theorem M_alternating_sequence_spec {G : NXGraph} {M : List (Nat × Nat)}
    {top : Option (List Nat)} {X Y : List Nat} {Xs Ys : List (List Nat)}
    (h : bipartite_sets G top = Except.ok (X, Y))
    (hB : Bip G X Y) (hD : ∀ x ∈ X, x ∉ Y) (hYn : ∀ y ∈ Y, y ∈ G.nodes)
    (hs : M_alternating_sequence G M top = Except.ok (Xs, Ys)) :
    (∀ l ∈ Xs, ∀ x ∈ l, x ∈ X) ∧ (∀ l ∈ Ys, ∀ y ∈ l, y ∈ Y) ∧
    Ys.Pairwise LDisj ∧ (∀ l ∈ Ys, l ≠ []) ∧
    Ys.length ≤ Y.toFinset.card ∧
    (∀ fuel2, G.nodes.length + 1 ≤ fuel2 →
      altSeqLoop G M fuel2 (X.filter (fun v => ¬ v ∈ mkeys M))
        [X.filter (fun v => ¬ v ∈ mkeys M)] [] [] =
      altSeqLoop G M (G.nodes.length + 1)
        (X.filter (fun v => ¬ v ∈ mkeys M))
        [X.filter (fun v => ¬ v ∈ mkeys M)] [] []) := by
  have hcard : (Y.toFinset \ ([] : List Nat).toFinset).card + 1 ≤
      G.nodes.length + 1 := by
    have h1 : Y.toFinset ⊆ G.nodes.toFinset := by
      intro y hy
      exact List.mem_toFinset.mpr (hYn y (List.mem_toFinset.mp hy))
    have h2 := Finset.card_le_card h1
    have h3 := G.nodes.toFinset_card_le
    simp only [List.toFinset_nil, Finset.sdiff_empty]
    omega
  have hX0 : ∀ x ∈ X.filter (fun v => ¬ v ∈ mkeys M), x ∈ X := by
    intro x hx
    exact (List.mem_filter.mp hx).1
  have hspec := @altSeqLoop_spec G M X Y hB hD (G.nodes.length + 1)
    (X.filter (fun v => ¬ v ∈ mkeys M)) [X.filter (fun v => ¬ v ∈ mkeys M)]
    [] [] hcard hX0
    (by
      intro l hl x hx
      rw [List.mem_singleton.mp hl] at hx
      exact hX0 x hx)
    (by intro l hl; cases hl)
    (by
      intro y
      constructor
      · intro hy; cases hy
      · rintro ⟨l, hl, -⟩; cases hl)
    List.Pairwise.nil
    (by intro l hl; cases hl)
  have hflarge : ∀ fuel2, G.nodes.length + 1 ≤ fuel2 →
      (Y.toFinset \ ([] : List Nat).toFinset).card + 1 ≤ fuel2 := by
    intro fuel2 hf2
    omega
  have hloop : M_alternating_sequence G M top =
      (if (X.filter (fun v => ¬ v ∈ mkeys M)).isEmpty then
        Except.ok (([] : List (List Nat)), ([] : List (List Nat)))
      else Except.ok (altSeqLoop G M (G.nodes.length + 1)
        (X.filter (fun v => ¬ v ∈ mkeys M))
        [X.filter (fun v => ¬ v ∈ mkeys M)] [] [])) := by
    unfold M_alternating_sequence
    rw [h]
  rw [hloop] at hs
  by_cases hX0e : (X.filter (fun v => ¬ v ∈ mkeys M)).isEmpty
  · rw [if_pos hX0e] at hs
    injection hs with hs2
    injection hs2 with hXs hYs
    rw [← hXs, ← hYs]
    refine ⟨(by intro l hl; cases hl), (by intro l hl; cases hl),
      List.Pairwise.nil, (by intro l hl; cases hl), Nat.zero_le _, ?_⟩
    intro fuel2 hf2
    exact hspec.2.2.2.2.2 fuel2 (hflarge fuel2 hf2)
  · rw [if_neg hX0e] at hs
    injection hs with hs2
    have e1 := hspec.1
    have e2 := hspec.2.1
    have e3 := hspec.2.2.1
    have e4 := hspec.2.2.2.1
    have e5 := hspec.2.2.2.2.1
    rw [hs2] at e1 e2 e3 e4 e5
    refine ⟨e1, e2, e3, e4, ?_, ?_⟩
    · simpa using e5
    · intro fuel2 hf2
      exact hspec.2.2.2.2.2 fuel2 (hflarge fuel2 hf2)

/-! ### C5: the EFM partition partitions the two sides. -/

/-- C5: for every well-formed bipartite graph `G` with parts `(X, Y)` and
every matching `M`, the 4-tuple `(X_L, X_S, Y_L, Y_S)` returned by
`envy_free_matching_partition(G, M=M)` satisfies: `X_L` and `X_S` are
disjoint with union exactly `X`, and `Y_L` and `Y_S` are disjoint with union
exactly `Y`. -/
theorem C5_partition_parts (G : NXGraph) (M : List (Nat × Nat))
    (top : Option (List Nat)) (X Y : List Nat) (XL XS YL YS : Finset Nat)
    (hWF : G.WF) (h : bipartite_sets G top = Except.ok (X, Y))
    (hB : Bip G X Y)
    (hp : envy_free_matching_partition G (some M) top =
      Except.ok (XL, XS, YL, YS)) :
    Disjoint XL XS ∧ XL ∪ XS = X.toFinset ∧
    Disjoint YL YS ∧ YL ∪ YS = Y.toFinset := by
  obtain ⟨hXnd, hYnd, hD, hYn⟩ := bipartite_sets_props hWF.1 h
  obtain ⟨⟨Xs, Ys⟩, hs⟩ := @M_alternating_sequence_ok G M top X Y h
  have heq := envy_free_matching_partition_ok h hs
  rw [hp] at heq
  simp only [Except.ok.injEq, Prod.mk.injEq] at heq
  obtain ⟨hXL, hXS, hYL, hYS⟩ := heq
  subst hXL
  subst hXS
  subst hYL
  subst hYS
  have hspec := M_alternating_sequence_spec h hB hD hYn hs
  have hXSsub : Xs.flatten.toFinset ⊆ X.toFinset := by
    intro a ha
    rw [List.mem_toFinset, List.mem_flatten] at ha
    obtain ⟨l, hl, hal⟩ := ha
    exact List.mem_toFinset.mpr (hspec.1 l hl a hal)
  have hYSsub : Ys.flatten.toFinset ⊆ Y.toFinset := by
    intro a ha
    rw [List.mem_toFinset, List.mem_flatten] at ha
    obtain ⟨l, hl, hal⟩ := ha
    exact List.mem_toFinset.mpr (hspec.2.1 l hl a hal)
  exact ⟨Finset.sdiff_disjoint, Finset.sdiff_union_of_subset hXSsub,
    Finset.sdiff_disjoint, Finset.sdiff_union_of_subset hYSsub⟩

/-- Witness for C5 at the docstring example. -/
theorem C5_partition_parts_witness :
    Disjoint ({0} : Finset Nat) {2, 1} ∧
    ({0} : Finset Nat) ∪ {2, 1} = [0, 1, 2].toFinset ∧
    Disjoint ({3} : Finset Nat) {4} ∧
    ({3} : Finset Nat) ∪ {4} = [3, 4].toFinset :=
  C5_partition_parts gHouse mHouse (some [0, 1, 2]) [0, 1, 2] [3, 4]
    {0} {2, 1} {3} {4} (by decide) (by decide) (by decide) (by decide)

/-! ### C9: termination of the alternating-sequence construction. -/

/-- C9: for every well-formed bipartite graph and matching, the
`_M_alternating_sequence` loop terminates: every collected `Y` set is a
non-empty set of right nodes disjoint from all previously collected `Y`
sets, at most `|Right|` loop iterations complete (one per collected `Y`
set), and the loop's result no longer changes once the fuel exceeds the
number of graph nodes (a stopping condition has been reached). -/
theorem C9_altseq_terminates (G : NXGraph) (M : List (Nat × Nat))
    (top : Option (List Nat)) (X Y : List Nat) (Xs Ys : List (List Nat))
    (hWF : G.WF) (h : bipartite_sets G top = Except.ok (X, Y))
    (hB : Bip G X Y)
    (hs : M_alternating_sequence G M top = Except.ok (Xs, Ys)) :
    (∀ l ∈ Ys, l ≠ [] ∧ ∀ y ∈ l, y ∈ Y) ∧
    Ys.Pairwise LDisj ∧
    Ys.length ≤ Y.toFinset.card ∧
    (∀ fuel2, G.nodes.length + 1 ≤ fuel2 →
      altSeqLoop G M fuel2 (X.filter (fun v => ¬ v ∈ mkeys M))
        [X.filter (fun v => ¬ v ∈ mkeys M)] [] [] =
      altSeqLoop G M (G.nodes.length + 1)
        (X.filter (fun v => ¬ v ∈ mkeys M))
        [X.filter (fun v => ¬ v ∈ mkeys M)] [] []) := by
  obtain ⟨hXnd, hYnd, hD, hYn⟩ := bipartite_sets_props hWF.1 h
  have hspec := M_alternating_sequence_spec h hB hD hYn hs
  exact ⟨fun l hl => ⟨hspec.2.2.2.1 l hl, hspec.2.1 l hl⟩,
    hspec.2.2.1, hspec.2.2.2.2.1, hspec.2.2.2.2.2⟩

/-- Witness for C9 at the docstring example (`Y` sets `[[4]]`). -/
theorem C9_altseq_terminates_witness :
    (∀ l ∈ [[4]], l ≠ [] ∧ ∀ y ∈ l, y ∈ [3, 4]) ∧
    ([[4]] : List (List Nat)).Pairwise LDisj ∧
    ([[4]] : List (List Nat)).length ≤ [3, 4].toFinset.card ∧
    (∀ fuel2, gHouse.nodes.length + 1 ≤ fuel2 →
      altSeqLoop gHouse mHouse fuel2
        ([0, 1, 2].filter (fun v => ¬ v ∈ mkeys mHouse))
        [[0, 1, 2].filter (fun v => ¬ v ∈ mkeys mHouse)] [] [] =
      altSeqLoop gHouse mHouse (gHouse.nodes.length + 1)
        ([0, 1, 2].filter (fun v => ¬ v ∈ mkeys mHouse))
        [[0, 1, 2].filter (fun v => ¬ v ∈ mkeys mHouse)] [] []) :=
  C9_altseq_terminates gHouse mHouse (some [0, 1, 2]) [0, 1, 2] [3, 4]
    [[2], [1]] [[4]] (by decide) (by decide) (by decide) (by decide)

/-! ### C6: validation of supplied matchings. -/

/-- C6 counterexample: the claim that a malformed supplied matching is
rejected by validation fails.  On the one-edge graph, `to_vertex_cover` with
a matching referencing node `5` (absent from the graph) returns a result,
and `envy_free_matching_partition` with an asymmetric matching `{0: 1}` also
returns a result; neither raises. -/
theorem C6_counterexample :
    to_vertex_cover gEdge01 [(0, 5), (5, 0)] (some [0]) = Except.ok {0} ∧
    envy_free_matching_partition gEdge01 (some [(0, 1)]) (some [0]) =
      Except.ok ({0}, ∅, {1}, ∅) := by
  constructor
  · decide
  · decide

/-- C6 (amended): no validation of the supplied matching is performed at all.
`to_vertex_cover` and `envy_free_matching_partition` succeed or fail
independently of the supplied matching: they return a result exactly when
`bipartite_sets` succeeds on the graph, for any matching dictionary
whatsoever (malformed input is silently processed, never rejected). -/
theorem C6_no_matching_validation (G : NXGraph) (M : List (Nat × Nat))
    (top : Option (List Nat)) :
    ((∃ c, to_vertex_cover G M top = Except.ok c) ↔
      (∃ s, bipartite_sets G top = Except.ok s)) ∧
    ((∃ r, envy_free_matching_partition G (some M) top = Except.ok r) ↔
      (∃ s, bipartite_sets G top = Except.ok s)) := by
  cases h : bipartite_sets G top with
  | ok s =>
    obtain ⟨L, R⟩ := s
    refine ⟨⟨fun _ => ⟨(L, R), rfl⟩, fun _ => ?_⟩,
            ⟨fun _ => ⟨(L, R), rfl⟩, fun _ => ?_⟩⟩
    · exact ⟨_, by unfold to_vertex_cover; rw [h]⟩
    · obtain ⟨⟨Xs, Ys⟩, hs⟩ := @M_alternating_sequence_ok G M top L R h
      exact ⟨_, envy_free_matching_partition_ok h hs⟩
  | error e =>
    refine ⟨⟨fun hex => ?_, fun hex => ?_⟩, ⟨fun hex => ?_, fun hex => ?_⟩⟩
    · obtain ⟨c, hc⟩ := hex
      unfold to_vertex_cover at hc
      rw [h] at hc
      exact Except.noConfusion hc
    · obtain ⟨s, hs⟩ := hex
      exact Except.noConfusion hs
    · obtain ⟨r, hr⟩ := hex
      unfold envy_free_matching_partition M_alternating_sequence at hr
      rw [h] at hr
      exact Except.noConfusion hr
    · obtain ⟨s, hs⟩ := hex
      exact Except.noConfusion hs

/-! ### C7: directed graphs. -/

/-- C7 counterexample: the claim that every core operation raises an
unsupported-graph-type error on a directed graph fails:
`hopcroft_karp_matching`, `to_vertex_cover` and
`envy_free_matching_partition` have no directedness guard and return
results on a directed two-cycle. -/
theorem C7_counterexample :
    hopcroft_karp_matching gDir01 (some [0]) = Except.ok [(0, 1), (1, 0)] ∧
    to_vertex_cover gDir01 [(0, 1), (1, 0)] (some [0]) = Except.ok {0} ∧
    envy_free_matching_partition gDir01 (some [(0, 1), (1, 0)]) (some [0]) =
      Except.ok ({0}, ∅, {1}, ∅) := by
  refine ⟨?_, ?_, ?_⟩
  · decide
  · decide
  · decide

/-- C7 (amended): only `maximum_envy_free_matching` and
`minimum_weight_envy_free_matching` carry the `not_implemented_for` guard:
they fail fast with the unsupported-graph-type error on every directed
graph (for any weight solver), before any computation. -/
theorem C7_envy_free_directed_guard (G : NXGraph) (top : Option (List Nat))
    (hd : G.directed = true) :
    maximum_envy_free_matching G top = Except.error NXError.notImplementedFor ∧
    (∀ solver, minimum_weight_envy_free_matching solver G top =
      Except.error NXError.notImplementedFor) := by
  constructor
  · simp [maximum_envy_free_matching, hd]
  · intro solver
    simp [minimum_weight_envy_free_matching, hd]

/-- Witness for C7 (amended) at a concrete directed graph. -/
theorem C7_envy_free_directed_guard_witness :
    maximum_envy_free_matching gDir01 (some [0]) =
      Except.error NXError.notImplementedFor ∧
    minimum_weight_envy_free_matching (fun _ => []) gDir01 (some [0]) =
      Except.error NXError.notImplementedFor :=
  ⟨(C7_envy_free_directed_guard gDir01 (some [0]) (by decide)).1,
   (C7_envy_free_directed_guard gDir01 (some [0]) (by decide)).2 (fun _ => [])⟩

/-! ### Hopcroft–Karp: stack-frame lemmas -/

theorem frameDist_tail {dist : Option Nat → Option Nat}
    {f : Nat × List Nat} {rest : List (Nat × List Nat)}
    (h : FrameDist dist (f :: rest)) : FrameDist dist rest := by
  match rest with
  | [] => trivial
  | (v, us) :: r2 =>
    obtain ⟨c, cs⟩ := f
    exact h.2.2

theorem frameDist_headfin {dist : Option Nat → Option Nat}
    {c : Nat} {cs : List Nat} {rest : List (Nat × List Nat)}
    (h : FrameDist dist ((c, cs) :: rest)) : dist (some c) ≠ none := by
  match rest with
  | [] => exact h
  | (v, us) :: r2 => exact h.2.1

theorem frameDist_lt {dist : Option Nat → Option Nat} :
    ∀ {stack : List (Nat × List Nat)} {c : Nat} {cs : List Nat},
    FrameDist dist ((c, cs) :: stack) →
    ∀ p ∈ stack, ∃ a b, dist (some p.1) = some a ∧ dist (some c) = some b ∧
      a < b := by
  intro stack
  induction stack with
  | nil =>
    intro c cs _ p hp
    cases hp
  | cons f rest ih =>
    intro c cs h p hp
    obtain ⟨v, us⟩ := f
    obtain ⟨hstep, hfin, htail⟩ := h
    have hvfin : dist (some v) ≠ none := frameDist_headfin htail
    obtain ⟨a, ha⟩ := Option.ne_none_iff_exists'.mp hvfin
    rcases List.mem_cons.mp hp with hp0 | hp0
    · rw [hp0]
      exact ⟨a, a + 1, ha, by rw [hstep, ha]; rfl, Nat.lt_succ_self a⟩
    · obtain ⟨a2, b2, ha2, hb2, hab⟩ := ih htail p hp0
      refine ⟨a2, b2 + 1, ha2, ?_, by omega⟩
      rw [hstep, hb2]
      rfl

theorem frameDist_nodes_nodup {dist : Option Nat → Option Nat} :
    ∀ {stack : List (Nat × List Nat)}, FrameDist dist stack →
    (stack.map Prod.fst).Nodup := by
  intro stack
  induction stack with
  | nil => exact fun _ => List.nodup_nil
  | cons f rest ih =>
    intro h
    obtain ⟨c, cs⟩ := f
    rw [List.map_cons, List.nodup_cons]
    refine ⟨?_, ih (frameDist_tail h)⟩
    intro hc
    obtain ⟨p, hp, hpc⟩ := List.mem_map.mp hc
    obtain ⟨a, b, ha, hb, hab⟩ := frameDist_lt h p hp
    rw [hpc] at ha
    rw [ha] at hb
    have hab2 := Option.some.inj hb
    omega

theorem frameChain_tail {rm : Nat → Option Nat} {f : Nat × List Nat}
    {rest : List (Nat × List Nat)} (h : FrameChain rm (f :: rest)) :
    FrameChain rm rest := by
  match rest with
  | [] => trivial
  | (v, us) :: r2 =>
    obtain ⟨c, cs⟩ := f
    exact h.2

theorem frameChain_nonempty {rm : Nat → Option Nat} :
    ∀ {stack : List (Nat × List Nat)} {f : Nat × List Nat},
    FrameChain rm (f :: stack) → ∀ p ∈ stack, p.2 ≠ [] := by
  intro stack
  induction stack with
  | nil =>
    intro f _ p hp
    cases hp
  | cons g rest ih =>
    intro f h p hp
    obtain ⟨c, cs⟩ := f
    obtain ⟨v, us⟩ := g
    obtain ⟨⟨u, us2, hus, _⟩, htail⟩ := h
    rcases List.mem_cons.mp hp with hp0 | hp0
    · rw [hp0, hus]
      exact List.cons_ne_nil u us2
    · exact ih htail p hp0

/-- The pending heads of the frames below the top have pairwise-distinct
`rightmatches` values (the nodes of the frames above them), hence are
pairwise distinct. -/
theorem chain_pend_nodup {rm : Nat → Option Nat} :
    ∀ {stack : List (Nat × List Nat)}, FrameChain rm stack →
    (stack.map Prod.fst).Nodup →
    (stack.tail.filterMap (fun p => p.2.head?)).Nodup ∧
    (∀ u2 ∈ stack.tail.filterMap (fun p => p.2.head?),
      ∃ c2, rm u2 = some c2 ∧ c2 ∈ stack.map Prod.fst) := by
  intro stack
  induction stack with
  | nil => exact fun _ _ => ⟨List.nodup_nil, by intro u2 hu; cases hu⟩
  | cons f rest ih =>
    intro hch hnd
    match rest, hch with
    | [], _ => exact ⟨List.nodup_nil, by intro u2 hu; cases hu⟩
    | (v, us) :: r2, hch =>
      obtain ⟨c, cs⟩ := f
      obtain ⟨⟨u, us2, hus, hrmu⟩, htail⟩ := hch
      rw [List.map_cons, List.nodup_cons] at hnd
      obtain ⟨hcnot, hndtail⟩ := hnd
      obtain ⟨ihn, ihv⟩ := ih htail hndtail
      subst hus
      constructor
      · simp only [List.tail_cons, List.filterMap_cons, List.head?_cons]
        rw [List.nodup_cons]
        refine ⟨?_, ihn⟩
        intro hu2
        obtain ⟨c2, hc2, hc2mem⟩ := ihv u hu2
        rw [hrmu] at hc2
        cases hc2
        exact hcnot hc2mem
      · intro u2 hu2
        simp only [List.tail_cons, List.filterMap_cons, List.head?_cons] at hu2
        rcases List.mem_cons.mp hu2 with hu0 | hu0
        · subst hu0
          exact ⟨c, hrmu, List.mem_cons_self _ _⟩
        · obtain ⟨c2, hc2, hc2mem⟩ := ihv u2 hu0
          exact ⟨c2, hc2, List.mem_cons_of_mem _ hc2mem⟩

/-- Pointwise description of `unwindTrue`: every frame's node becomes matched
to its pending head edge (and conversely), while all other entries of the
two match dictionaries, and all distances, are untouched. -/
theorem unwindTrue_lookup :
    ∀ (stack : List (Nat × List Nat)) (st : HKSt),
    (stack.map Prod.fst).Nodup →
    (stack.filterMap (fun p => p.2.head?)).Nodup →
    (∀ p u us, p ∈ stack → p.2 = u :: us →
      (unwindTrue stack st).lm p.1 = some u ∧
      (unwindTrue stack st).rm u = some p.1) ∧
    (∀ x, (∀ p ∈ stack, p.1 ≠ x) → (unwindTrue stack st).lm x = st.lm x) ∧
    (∀ u, (∀ p ∈ stack, p.2.head? ≠ some u) →
      (unwindTrue stack st).rm u = st.rm u) ∧
    (unwindTrue stack st).dist = st.dist := by
  intro stack
  induction stack with
  | nil =>
    intro st _ _
    refine ⟨?_, fun x _ => rfl, fun u _ => rfl, rfl⟩
    intro p u us hp
    cases hp
  | cons f rest ih =>
    intro st hnd hpnd
    match f with
    | (v, []) =>
      have hnd2 : (rest.map Prod.fst).Nodup := by
        rw [List.map_cons, List.nodup_cons] at hnd
        exact hnd.2
      have hpnd2 : (rest.filterMap (fun p => p.2.head?)).Nodup := by
        simpa using hpnd
      obtain ⟨ih1, ih2, ih3, ih4⟩ := ih st hnd2 hpnd2
      rw [unwindTrue]
      refine ⟨?_, ?_, ?_, ih4⟩
      · intro p u us hp hus
        rcases List.mem_cons.mp hp with hp0 | hp0
        · rw [hp0] at hus
          cases hus
        · exact ih1 p u us hp0 hus
      · intro x hx
        exact ih2 x (fun p hp => hx p (List.mem_cons_of_mem _ hp))
      · intro u hu
        exact ih3 u (fun p hp => hu p (List.mem_cons_of_mem _ hp))
    | (v, u :: us0) =>
      rw [List.map_cons, List.nodup_cons] at hnd
      obtain ⟨hvnot, hndrest⟩ := hnd
      simp only [List.filterMap_cons, List.head?_cons] at hpnd
      rw [List.nodup_cons] at hpnd
      obtain ⟨hunot, hpndrest⟩ := hpnd
      set st1 : HKSt :=
        { st with rm := updF st.rm u (some v), lm := updF st.lm v (some u) }
        with hst1
      obtain ⟨ih1, ih2, ih3, ih4⟩ := ih st1 hndrest hpndrest
      rw [unwindTrue]
      refine ⟨?_, ?_, ?_, ih4⟩
      · intro p u2 us2 hp hus
        rcases List.mem_cons.mp hp with hp0 | hp0
        · rw [hp0] at hus ⊢
          cases hus
          constructor
          · have hlmv : (unwindTrue rest st1).lm v = st1.lm v := by
              apply ih2
              intro q hq hqv
              exact hvnot (hqv ▸ List.mem_map.mpr ⟨q, hq, rfl⟩)
            rw [hlmv]
            simp [hst1, updF]
          · have hrmu : (unwindTrue rest st1).rm u = st1.rm u := by
              apply ih3
              intro q hq hqu
              exact hunot (List.mem_filterMap.mpr ⟨q, hq, hqu⟩)
            rw [hrmu]
            simp [hst1, updF]
        · exact ih1 p u2 us2 hp0 hus
      · intro x hx
        rw [ih2 x (fun p hp => hx p (List.mem_cons_of_mem _ hp))]
        have hvx : v ≠ x := hx (v, u :: us0) (List.mem_cons_self _ _)
        simp [hst1, updF, Ne.symm hvx]
      · intro u2 hu2
        rw [ih3 u2 (fun p hp => hu2 p (List.mem_cons_of_mem _ hp))]
        have huu : u ≠ u2 := by
          intro hc
          exact hu2 (v, u :: us0) (List.mem_cons_self _ _) (by simp [hc])
        simp [hst1, updF, Ne.symm huu]

theorem unwindTrue_dist : ∀ (stack : List (Nat × List Nat)) (st : HKSt),
    (unwindTrue stack st).dist = st.dist := by
  intro stack
  induction stack with
  | nil => intro st; rfl
  | cons p rest ih =>
    intro st
    match p with
    | (v, []) => exact ih st
    | (v, u :: us) => exact ih _

theorem updD_cases (dist : Option Nat → Option Nat) (k : Option Nat)
    (val : Option Nat) (x : Option Nat) :
    updD dist k val x = dist x ∨ updD dist k val x = val := by
  unfold updD
  by_cases hx : x = k
  · rw [if_pos hx]
    exact Or.inr rfl
  · rw [if_neg hx]
    exact Or.inl rfl

theorem updD_ne (dist : Option Nat → Option Nat) (k : Option Nat)
    (val : Option Nat) (x : Option Nat) (hx : x ≠ k) :
    updD dist k val x = dist x := by
  unfold updD
  rw [if_neg hx]

/-- A failed `depth_first_search` leaves both match dictionaries unchanged
and only moves distances to infinity. -/
theorem dfsRun_false_frozen (G : NXGraph) :
    ∀ fuel stack st st2, dfsRun G fuel stack st = (false, st2) →
    st2.lm = st.lm ∧ st2.rm = st.rm ∧
    (∀ x, st2.dist x = st.dist x ∨ st2.dist x = none) := by
  intro fuel
  induction fuel with
  | zero =>
    intro stack st st2 h
    rw [dfsRun] at h
    cases h
    exact ⟨rfl, rfl, fun x => Or.inl rfl⟩
  | succ f ih =>
    intro stack st st2 h
    match stack with
    | [] =>
      rw [dfsRun] at h
      cases h
      exact ⟨rfl, rfl, fun x => Or.inl rfl⟩
    | (v, []) :: rest =>
      match rest with
      | [] =>
        rw [dfsRun] at h
        cases h
        exact ⟨rfl, rfl, fun x => updD_cases _ _ _ x⟩
      | (w, []) :: rest2 =>
        rw [dfsRun] at h
        cases h
        exact ⟨rfl, rfl, fun x => updD_cases _ _ _ x⟩
      | (w, u :: us) :: rest2 =>
        rw [dfsRun] at h
        obtain ⟨h1, h2, h3⟩ := ih _ _ _ h
        refine ⟨h1, h2, fun x => ?_⟩
        rcases h3 x with h4 | h4
        · rw [h4]
          exact updD_cases _ _ _ x
        · exact Or.inr h4
    | (v, u :: us) :: rest =>
      rw [dfsRun] at h
      by_cases hg : st.dist (st.rm u) = dmap1 (st.dist (some v))
      · rw [if_pos hg] at h
        match hrm : st.rm u with
        | none =>
          rw [hrm] at h
          cases h
        | some w =>
          rw [hrm] at h
          exact ih _ _ _ h
      · rw [if_neg hg] at h
        exact ih _ _ _ h

/-- The only distance entries a `depth_first_search` can change belong to
stack-frame nodes or to values of `rightmatches`. -/
theorem dfsRun_dist_keys (G : NXGraph) :
    ∀ fuel stack st b st2, dfsRun G fuel stack st = (b, st2) →
    ∀ x, st2.dist x ≠ st.dist x →
      (∃ p ∈ stack, x = some p.1) ∨ (∃ u w, st.rm u = some w ∧ x = some w) := by
  intro fuel
  induction fuel with
  | zero =>
    intro stack st b st2 h x hx
    rw [dfsRun] at h
    cases h
    exact absurd rfl hx
  | succ f ih =>
    intro stack st b st2 h x hx
    match stack with
    | [] =>
      rw [dfsRun] at h
      cases h
      exact absurd rfl hx
    | (v, []) :: rest =>
      match rest with
      | [] =>
        rw [dfsRun] at h
        cases h
        by_cases hxv : x = some v
        · exact Or.inl ⟨(v, []), List.mem_cons_self _ _, hxv⟩
        · exact absurd (updD_ne st.dist (some v) none x hxv) hx
      | (w, []) :: rest2 =>
        rw [dfsRun] at h
        cases h
        by_cases hxv : x = some v
        · exact Or.inl ⟨(v, []), List.mem_cons_self _ _, hxv⟩
        · exact absurd (updD_ne st.dist (some v) none x hxv) hx
      | (w, u :: us) :: rest2 =>
        rw [dfsRun] at h
        by_cases hxv : x = some v
        · exact Or.inl ⟨(v, []), List.mem_cons_self _ _, hxv⟩
        · by_cases hx3 : st2.dist x = updD st.dist (some v) none x
          · rw [updD_ne st.dist (some v) none x hxv] at hx3
            exact absurd hx3 hx
          · rcases ih _ _ _ _ h x hx3 with ⟨p, hp, hxp⟩ | ⟨u2, w2, hrw, hxw⟩
            · rcases List.mem_cons.mp hp with hp0 | hp0
              · rw [hp0] at hxp
                exact Or.inl ⟨(w, u :: us), List.mem_cons_of_mem _
                  (List.mem_cons_self _ _), hxp⟩
              · exact Or.inl ⟨p, List.mem_cons_of_mem _
                  (List.mem_cons_of_mem _ hp0), hxp⟩
            · exact Or.inr ⟨u2, w2, hrw, hxw⟩
    | (v, u :: us) :: rest =>
      rw [dfsRun] at h
      by_cases hg : st.dist (st.rm u) = dmap1 (st.dist (some v))
      · rw [if_pos hg] at h
        match hrm : st.rm u with
        | none =>
          rw [hrm] at h
          cases h
          rw [unwindTrue_dist] at hx
          exact absurd rfl hx
        | some w =>
          rw [hrm] at h
          rcases ih _ _ _ _ h x hx with ⟨p, hp, hxp⟩ | hres
          · rcases List.mem_cons.mp hp with hp0 | hp0
            · rw [hp0] at hxp
              exact Or.inr ⟨u, w, hrm, hxp⟩
            · exact Or.inl (by
                rcases List.mem_cons.mp hp0 with hp1 | hp1
                · exact ⟨(v, u :: us), List.mem_cons_self _ _, hp1 ▸ hxp⟩
                · exact ⟨p, List.mem_cons_of_mem _ hp1, hxp⟩)
          · exact Or.inr hres
      · rw [if_neg hg] at h
        rcases ih _ _ _ _ h x hx with ⟨p, hp, hxp⟩ | hres
        · rcases List.mem_cons.mp hp with hp0 | hp0
          · rw [hp0] at hxp
            exact Or.inl ⟨(v, u :: us), List.mem_cons_self _ _, hxp⟩
          · exact Or.inl ⟨p, List.mem_cons_of_mem _ hp0, hxp⟩
        · exact Or.inr hres

theorem lastNode_cons_cons (a b : Nat × List Nat)
    (l : List (Nat × List Nat)) :
    lastNode (a :: b :: l) = lastNode (b :: l) := by
  unfold lastNode
  rw [List.getLast?_cons_cons]

theorem lastNode_singleton (a : Nat × List Nat) :
    lastNode [a] = some a.1 := by
  unfold lastNode
  simp

theorem lastNode_retop (v : Nat) (us us2 : List Nat)
    (rest : List (Nat × List Nat)) :
    lastNode ((v, us) :: rest) = lastNode ((v, us2) :: rest) := by
  cases rest with
  | nil => rw [lastNode_singleton, lastNode_singleton]
  | cons g r2 => rw [lastNode_cons_cons, lastNode_cons_cons]

theorem lastNode_mem :
    ∀ {stack : List (Nat × List Nat)} {r : Nat},
    lastNode stack = some r → ∃ p ∈ stack, p.1 = r := by
  intro stack
  induction stack with
  | nil =>
    intro r h
    cases h
  | cons f rest ih =>
    intro r h
    cases rest with
    | nil =>
      rw [lastNode_singleton] at h
      exact ⟨f, List.mem_cons_self _ _, Option.some.inj h⟩
    | cons g r2 =>
      rw [lastNode_cons_cons] at h
      obtain ⟨p, hp, hpr⟩ := ih h
      exact ⟨p, List.mem_cons_of_mem _ hp, hpr⟩

theorem frameChain_retop {rm : Nat → Option Nat} {v : Nat}
    {us : List Nat} {rest : List (Nat × List Nat)}
    (h : FrameChain rm ((v, us) :: rest)) (us2 : List Nat) :
    FrameChain rm ((v, us2) :: rest) := by
  match rest with
  | [] => trivial
  | (w, ws) :: r2 => exact ⟨h.1, h.2⟩

theorem frameDist_retop {dist : Option Nat → Option Nat} {v : Nat}
    {us : List Nat} {rest : List (Nat × List Nat)}
    (h : FrameDist dist ((v, us) :: rest)) (us2 : List Nat) :
    FrameDist dist ((v, us2) :: rest) := by
  match rest with
  | [] => exact h
  | (w, ws) :: r2 => exact ⟨h.1, h.2.1, h.2.2⟩

theorem frameDist_congr {dist dist2 : Option Nat → Option Nat} :
    ∀ {stack : List (Nat × List Nat)},
    (∀ p ∈ stack, dist2 (some p.1) = dist (some p.1)) →
    FrameDist dist stack → FrameDist dist2 stack := by
  intro stack
  induction stack with
  | nil => exact fun _ _ => trivial
  | cons f rest ih =>
    intro hagree h
    obtain ⟨c, cs⟩ := f
    match rest, h with
    | [], h =>
      have h2 : dist2 (some c) = dist (some c) :=
        hagree (c, cs) (List.mem_cons_self _ _)
      show dist2 (some c) ≠ none
      rw [h2]
      exact h
    | (v, us) :: r2, h =>
      have h2 : dist2 (some c) = dist (some c) :=
        hagree (c, cs) (List.mem_cons_self _ _)
      have h3 : dist2 (some v) = dist (some v) :=
        hagree (v, us) (List.mem_cons_of_mem _ (List.mem_cons_self _ _))
      refine ⟨?_, ?_, ih (fun p hp => hagree p (List.mem_cons_of_mem _ hp))
        h.2.2⟩
      · rw [h2, h3]
        exact h.1
      · rw [h2]
        exact h.2.1

/-- Every stack frame except the bottom one is the target of the pending
head edge of the frame directly below it. -/
theorem chain_pointed {rm : Nat → Option Nat} :
    ∀ {stack : List (Nat × List Nat)} {r : Nat},
    FrameChain rm stack → lastNode stack = some r →
    ∀ p ∈ stack, p.1 ≠ r →
    ∃ q ∈ stack, ∃ uq usq, q.2 = uq :: usq ∧ rm uq = some p.1 := by
  intro stack
  induction stack with
  | nil =>
    intro r _ _ p hp
    cases hp
  | cons f rest ih =>
    intro r hch hlast p hp hpr
    obtain ⟨c, cs⟩ := f
    match rest, hch with
    | [], _ =>
      rw [lastNode_singleton] at hlast
      rcases List.mem_cons.mp hp with hp0 | hp0
      · rw [hp0] at hpr
        exact absurd (Option.some.inj hlast) hpr
      · cases hp0
    | (v, us) :: r2, hch =>
      obtain ⟨⟨u, us2, hus, hrmu⟩, htail⟩ := hch
      rw [lastNode_cons_cons] at hlast
      rcases List.mem_cons.mp hp with hp0 | hp0
      · rw [hp0]
        exact ⟨(v, us), List.mem_cons_of_mem _ (List.mem_cons_self _ _),
          u, us2, hus, hrmu⟩
      · obtain ⟨q, hq, hq2⟩ := ih htail hlast p hp0 hpr
        exact ⟨q, List.mem_cons_of_mem _ hq, hq2⟩

/-- A successful unwind establishes the augmentation postcondition: flipping
the pending edges of the stack re-matches every frame node, matches the root,
and leaves everything else untouched. -/
theorem unwind_aug (G : NXGraph) (L R : List Nat)
    (hLR : ∀ x ∈ L, x ∉ R) (hB : Bip G L R)
    (v u : Nat) (us : List Nat) (rest : List (Nat × List Nat))
    (st : HKSt) (r : Nat)
    (hM : MInv G L R st.lm st.rm)
    (hFC : FrameChain st.rm ((v, u :: us) :: rest))
    (hFD : FrameDist st.dist ((v, u :: us) :: rest))
    (hFE : FrameEdges G L ((v, u :: us) :: rest))
    (hlast : lastNode ((v, u :: us) :: rest) = some r)
    (hrm : st.rm u = none) :
    AugOk G L R st (unwindTrue ((v, u :: us) :: rest) st) r := by
  obtain ⟨i1, i2, i3, i4, i5⟩ := hM
  have hndN : (((v, u :: us) :: rest).map Prod.fst).Nodup :=
    frameDist_nodes_nodup hFD
  obtain ⟨hpndt, hpval⟩ := chain_pend_nodup hFC hndN
  have hunot : u ∉ rest.filterMap (fun p => p.2.head?) := by
    intro hc
    obtain ⟨c2, hc2, _⟩ := hpval u hc
    rw [hrm] at hc2
    cases hc2
  have hpnd : (((v, u :: us) :: rest).filterMap
      (fun p => p.2.head?)).Nodup := by
    simp only [List.filterMap_cons, List.head?_cons]
    exact List.nodup_cons.mpr ⟨hunot, hpndt⟩
  obtain ⟨U1, U2, U3, U4⟩ :=
    unwindTrue_lookup ((v, u :: us) :: rest) st hndN hpnd
  have hne : ∀ p ∈ (v, u :: us) :: rest, p.2 ≠ [] := by
    intro p hp
    rcases List.mem_cons.mp hp with h0 | h0
    · rw [h0]
      exact List.cons_ne_nil _ _
    · exact frameChain_nonempty hFC p h0
  have hframe : ∀ p ∈ (v, u :: us) :: rest, ∃ up usp, p.2 = up :: usp ∧
      (unwindTrue ((v, u :: us) :: rest) st).lm p.1 = some up ∧
      (unwindTrue ((v, u :: us) :: rest) st).rm up = some p.1 := by
    intro p hp
    cases hp2 : p.2 with
    | nil => exact absurd hp2 (hne p hp)
    | cons up usp => exact ⟨up, usp, rfl, U1 p up usp hp hp2⟩
  have hpend_rm : ∀ u2, (∃ p ∈ (v, u :: us) :: rest,
      p.2.head? = some u2) →
      u2 = u ∨ ∃ c2, st.rm u2 = some c2 ∧
        c2 ∈ ((v, u :: us) :: rest).map Prod.fst := by
    intro u2 hex
    obtain ⟨p, hp, hph⟩ := hex
    rcases List.mem_cons.mp hp with h0 | h0
    · left
      rw [h0] at hph
      simp only [List.head?_cons] at hph
      exact (Option.some.inj hph).symm
    · right
      exact hpval u2 (List.mem_filterMap.mpr ⟨p, h0, hph⟩)
  refine ⟨?_, ?_, ?_, ?_, ?_, ?_, ?_, ?_, ?_⟩
  · intro w2 u2 hlm
    by_cases hNf : ∃ p ∈ (v, u :: us) :: rest, p.1 = w2
    · obtain ⟨p, hp, hpw⟩ := hNf
      obtain ⟨up, usp, hp2, hplm, hprm⟩ := hframe p hp
      rw [hpw] at hplm hprm
      rw [hlm] at hplm
      obtain rfl := Option.some.inj hplm
      exact hprm
    · rw [U2 w2 (fun p hp hc => hNf ⟨p, hp, hc⟩)] at hlm
      have hrm2 : st.rm u2 = some w2 := i1 w2 u2 hlm
      have hnp : ∀ p ∈ (v, u :: us) :: rest, p.2.head? ≠ some u2 := by
        intro p hp hc
        rcases hpend_rm u2 ⟨p, hp, hc⟩ with h0 | ⟨c2, hc2, hc2m⟩
        · rw [h0, hrm] at hrm2
          cases hrm2
        · rw [hrm2] at hc2
          obtain rfl := Option.some.inj hc2
          obtain ⟨p2, hp2, hp2w⟩ := List.mem_map.mp hc2m
          exact hNf ⟨p2, hp2, hp2w⟩
      rw [U3 u2 hnp]
      exact hrm2
  · intro u2 w2 hrm2
    by_cases hP : ∃ p ∈ (v, u :: us) :: rest, p.2.head? = some u2
    · obtain ⟨p, hp, hph⟩ := hP
      obtain ⟨up, usp, hp2, hplm, hprm⟩ := hframe p hp
      rw [hp2] at hph
      simp only [List.head?_cons] at hph
      obtain rfl := Option.some.inj hph
      rw [hrm2] at hprm
      obtain rfl := Option.some.inj hprm
      exact Or.inl hplm
    · rw [U3 u2 (fun p hp hc => hP ⟨p, hp, hc⟩)] at hrm2
      have hlm2 : st.lm w2 = some u2 := i2 u2 w2 hrm2
      by_cases hNf : ∃ p ∈ (v, u :: us) :: rest, p.1 = w2
      · obtain ⟨p, hp, hpw⟩ := hNf
        by_cases hwr : w2 = r
        · refine Or.inr ⟨hwr, ?_⟩
          rw [← hwr]
          exact hlm2
        · exfalso
          obtain ⟨q, hq, uq, usq, hq2, hqrm⟩ :=
            chain_pointed hFC hlast p hp (by rw [hpw]; exact hwr)
          rw [hpw] at hqrm
          have huq := i2 uq w2 hqrm
          rw [hlm2] at huq
          obtain rfl := Option.some.inj huq
          refine hP ⟨q, hq, ?_⟩
          rw [hq2]
          rfl
      · rw [U2 w2 (fun p hp hc => hNf ⟨p, hp, hc⟩)]
        exact Or.inl hlm2
  · intro v2 u2 hlm
    by_cases hNf : ∃ p ∈ (v, u :: us) :: rest, p.1 = v2
    · obtain ⟨p, hp, hpw⟩ := hNf
      obtain ⟨up, usp, hp2, hplm, hprm⟩ := hframe p hp
      rw [hpw] at hplm
      rw [hlm] at hplm
      obtain rfl := Option.some.inj hplm
      obtain ⟨hpL, pre, hpre⟩ := hFE p hp
      rw [← hpw, ← hpre, hp2]
      exact List.mem_append_right _ (List.mem_cons_self _ _)
    · rw [U2 v2 (fun p hp hc => hNf ⟨p, hp, hc⟩)] at hlm
      exact i3 v2 u2 hlm
  · intro v2 hlm
    by_cases hNf : ∃ p ∈ (v, u :: us) :: rest, p.1 = v2
    · obtain ⟨p, hp, hpw⟩ := hNf
      rw [← hpw]
      exact (hFE p hp).1
    · rw [U2 v2 (fun p hp hc => hNf ⟨p, hp, hc⟩)] at hlm
      exact i4 v2 hlm
  · intro u2 hrm2
    by_cases hP : ∃ p ∈ (v, u :: us) :: rest, p.2.head? = some u2
    · obtain ⟨p, hp, hph⟩ := hP
      obtain ⟨hpL, pre, hpre⟩ := hFE p hp
      have hmem : u2 ∈ G.adj p.1 := by
        cases hp2 : p.2 with
        | nil =>
          rw [hp2] at hph
          cases hph
        | cons up usp =>
          rw [hp2] at hph
          simp only [List.head?_cons] at hph
          obtain rfl := Option.some.inj hph
          rw [← hpre, hp2]
          exact List.mem_append_right _ (List.mem_cons_self _ _)
      rcases Bip.adj hB hmem with ⟨h1, h2⟩ | ⟨h1, h2⟩
      · exact h2
      · exact absurd h1 (hLR p.1 hpL)
    · rw [U3 u2 (fun p hp hc => hP ⟨p, hp, hc⟩)] at hrm2
      exact i5 u2 hrm2
  · obtain ⟨p, hp, hpr⟩ := lastNode_mem hlast
    obtain ⟨up, usp, hp2, hplm, hprm⟩ := hframe p hp
    rw [hpr] at hplm
    rw [hplm]
    exact Option.some_ne_none _
  · intro w2 hw
    by_cases hNf : ∃ p ∈ (v, u :: us) :: rest, p.1 = w2
    · obtain ⟨p, hp, hpw⟩ := hNf
      obtain ⟨up, usp, hp2, hplm, hprm⟩ := hframe p hp
      rw [hpw] at hplm
      rw [hplm]
      exact Option.some_ne_none _
    · rw [U2 w2 (fun p hp hc => hNf ⟨p, hp, hc⟩)]
      exact hw
  · intro w2 hw hw2r
    by_cases hNf : ∃ p ∈ (v, u :: us) :: rest, p.1 = w2
    · exfalso
      obtain ⟨p, hp, hpw⟩ := hNf
      obtain ⟨q, hq, uq, usq, hq2, hqrm⟩ :=
        chain_pointed hFC hlast p hp (by rw [hpw]; exact hw2r)
      rw [hpw] at hqrm
      have huq := i2 uq w2 hqrm
      rw [hw] at huq
      cases huq
    · rw [U2 w2 (fun p hp hc => hNf ⟨p, hp, hc⟩)]
      exact hw
  · intro x
    rw [U4]
    exact Or.inl rfl

/-- A successful `depth_first_search` satisfies the augmentation
postcondition with respect to the node of the bottom stack frame. -/
theorem dfsRun_true_aug (G : NXGraph) (L R : List Nat)
    (hLR : ∀ x ∈ L, x ∉ R) (hB : Bip G L R) :
    ∀ fuel stack st st2 r,
    MInv G L R st.lm st.rm →
    FrameChain st.rm stack →
    FrameDist st.dist stack →
    FrameEdges G L stack →
    lastNode stack = some r →
    dfsRun G fuel stack st = (true, st2) →
    AugOk G L R st st2 r := by
  intro fuel
  induction fuel with
  | zero =>
    intro stack st st2 r _ _ _ _ _ h
    rw [dfsRun] at h
    cases h
  | succ f ih =>
    intro stack st st2 r hM hFC hFD hFE hlast h
    match stack with
    | [] =>
      rw [dfsRun] at h
      cases h
    | (v, []) :: rest =>
      match rest with
      | [] =>
        rw [dfsRun] at h
        cases h
      | (w, []) :: rest2 =>
        rw [dfsRun] at h
        cases h
      | (w, u :: us) :: rest2 =>
        rw [dfsRun] at h
        have hFC2 : FrameChain st.rm ((w, us) :: rest2) :=
          frameChain_retop (frameChain_tail hFC) us
        have hFDt : FrameDist st.dist ((w, us) :: rest2) :=
          frameDist_retop (frameDist_tail hFD) us
        have hvnot : ∀ p ∈ (w, us) :: rest2, p.1 ≠ v := by
          intro p hp hc
          have hndN := frameDist_nodes_nodup hFD
          rw [List.map_cons, List.nodup_cons] at hndN
          apply hndN.1
          rcases List.mem_cons.mp hp with h0 | h0
          · rw [← hc, h0]
            simp
          · rw [← hc]
            exact List.mem_map.mpr ⟨p, List.mem_cons_of_mem _ h0, rfl⟩
        have hFD2 : FrameDist (updD st.dist (some v) none)
            ((w, us) :: rest2) :=
          frameDist_congr (fun p hp => updD_ne st.dist (some v) none
            (some p.1) (fun hc => hvnot p hp (Option.some.inj hc))) hFDt
        have hFE2 : FrameEdges G L ((w, us) :: rest2) := by
          intro p hp
          rcases List.mem_cons.mp hp with h0 | h0
          · obtain ⟨hwL, pre, hpre⟩ := hFE (w, u :: us)
              (List.mem_cons_of_mem _ (List.mem_cons_self _ _))
            rw [h0]
            refine ⟨hwL, pre ++ [u], ?_⟩
            rw [List.append_assoc]
            exact hpre
          · exact hFE p (List.mem_cons_of_mem _ (List.mem_cons_of_mem _ h0))
        have hlast2 : lastNode ((w, us) :: rest2) = some r := by
          rw [lastNode_retop w us (u :: us) rest2]
          rw [lastNode_cons_cons] at hlast
          exact hlast
        obtain ⟨a1, a2, a3, a4, a5, a6, a7, a8, a9⟩ :=
          ih ((w, us) :: rest2)
            { st with dist := updD st.dist (some v) none } st2 r
            hM hFC2 hFD2 hFE2 hlast2 h
        refine ⟨a1, a2, a3, a4, a5, a6, a7, a8, fun x => ?_⟩
        rcases a9 x with h9 | h9
        · rw [h9]
          exact updD_cases _ _ _ x
        · exact Or.inr h9
    | (v, u :: us) :: rest =>
      rw [dfsRun] at h
      by_cases hg : st.dist (st.rm u) = dmap1 (st.dist (some v))
      · rw [if_pos hg] at h
        match hrm : st.rm u with
        | none =>
          rw [hrm] at h
          cases h
          exact unwind_aug G L R hLR hB v u us rest st r
            ⟨hM.1, hM.2.1, hM.2.2.1, hM.2.2.2.1, hM.2.2.2.2⟩
            hFC hFD hFE hlast hrm
        | some w =>
          rw [hrm] at h
          rw [hrm] at hg
          have hFC2 : FrameChain st.rm
              ((w, G.adj w) :: (v, u :: us) :: rest) :=
            ⟨⟨u, us, rfl, hrm⟩, hFC⟩
          have hvfin : st.dist (some v) ≠ none := frameDist_headfin hFD
          obtain ⟨a, ha⟩ := Option.ne_none_iff_exists'.mp hvfin
          have hFD2 : FrameDist st.dist
              ((w, G.adj w) :: (v, u :: us) :: rest) := by
            refine ⟨hg, ?_, hFD⟩
            rw [hg, ha]
            simp [dmap1]
          have hlmw : st.lm w = some u := hM.2.1 u w hrm
          have hwL : w ∈ L := by
            apply hM.2.2.2.1 w
            rw [hlmw]
            exact Option.some_ne_none _
          have hFE2 : FrameEdges G L
              ((w, G.adj w) :: (v, u :: us) :: rest) := by
            intro p hp
            rcases List.mem_cons.mp hp with h0 | h0
            · rw [h0]
              exact ⟨hwL, [], rfl⟩
            · exact hFE p h0
          have hlast2 : lastNode ((w, G.adj w) :: (v, u :: us) :: rest) =
              some r := by
            rw [lastNode_cons_cons]
            exact hlast
          exact ih _ st st2 r hM hFC2 hFD2 hFE2 hlast2 h
      · rw [if_neg hg] at h
        have hFC2 := frameChain_retop hFC us
        have hFD2 := frameDist_retop hFD us
        have hFE2 : FrameEdges G L ((v, us) :: rest) := by
          intro p hp
          rcases List.mem_cons.mp hp with h0 | h0
          · obtain ⟨hvL, pre, hpre⟩ := hFE (v, u :: us)
              (List.mem_cons_self _ _)
            rw [h0]
            refine ⟨hvL, pre ++ [u], ?_⟩
            rw [List.append_assoc]
            exact hpre
          · exact hFE p (List.mem_cons_of_mem _ h0)
        have hlast2 : lastNode ((v, us) :: rest) = some r := by
          rw [lastNode_retop v us (u :: us) rest]
          exact hlast
        exact ih _ st st2 r hM hFC2 hFD2 hFE2 hlast2 h

/-- `breadth_first_search` never overwrites a finite distance (the scan only
touches keys whose current distance is infinite). -/
theorem bfsScan_pres {rm : Nat → Option Nat} {v : Option Nat} :
    ∀ (us : List Nat) (dist : Option Nat → Option Nat)
      (queue : List (Option Nat)) (x : Option Nat),
    dist x ≠ none → (bfsScan rm v us dist queue).1 x = dist x := by
  intro us
  induction us with
  | nil =>
    intro dist queue x _
    rfl
  | cons u us ih =>
    intro dist queue x hx
    rw [bfsScan]
    by_cases hg : dist (rm u) = none
    · rw [if_pos hg]
      have hxu : x ≠ rm u := by
        intro hc
        rw [hc] at hx
        exact hx hg
      have hupd : updD dist (rm u) (dmap1 (dist v)) x = dist x :=
        updD_ne _ _ _ x hxu
      rw [ih _ _ x (by rw [hupd]; exact hx)]
      exact hupd
    · rw [if_neg hg]
      exact ih _ _ x hx

theorem bfsLoop_pres {G : NXGraph} {rm : Nat → Option Nat} :
    ∀ (fuel : Nat) (queue : List (Option Nat))
      (dist : Option Nat → Option Nat) (x : Option Nat),
    dist x ≠ none → bfsLoop G rm fuel queue dist x = dist x := by
  intro fuel
  induction fuel with
  | zero =>
    intro queue dist x _
    rfl
  | succ f ih =>
    intro queue dist x hx
    match queue with
    | [] => rfl
    | v :: queue =>
      rw [bfsLoop]
      by_cases hg : dlt (dist v) (dist none) = true
      · rw [if_pos hg]
        have hs := @bfsScan_pres rm v (adjO G v) dist queue x hx
        rw [ih _ _ x (by rw [hs]; exact hx)]
        exact hs
      · rw [if_neg hg]
        exact ih _ _ x hx

theorem breadthFirstSearch_roots {G : NXGraph} {left : List Nat}
    {lm rm : Nat → Option Nat} {v : Nat}
    (hv : v ∈ left) (hlm : lm v = none) :
    breadthFirstSearch G left lm rm (some v) = some 0 := by
  unfold breadthFirstSearch
  have hinit : initDist left lm (some v) = some 0 := by
    show (if v ∈ left ∧ lm v = none then some 0 else none) = some 0
    rw [if_pos ⟨hv, hlm⟩]
  rw [bfsLoop_pres _ _ _ _ (by rw [hinit]; exact Option.some_ne_none _)]
  exact hinit

/-- The augmentation pass preserves the matching invariant, provided roots
still to be tried have finite distances. -/
theorem phaseLoop_inv (G : NXGraph) (L R : List Nat)
    (hLR : ∀ x ∈ L, x ∉ R) (hB : Bip G L R) (dfuel : Nat) :
    ∀ (vs : List Nat) (st : HKSt),
    vs.Nodup →
    (∀ v ∈ vs, v ∈ L) →
    MInv G L R st.lm st.rm →
    (∀ v ∈ vs, st.lm v = none → st.dist (some v) ≠ none) →
    MInv G L R (phaseLoop G dfuel vs st).lm (phaseLoop G dfuel vs st).rm := by
  intro vs
  induction vs with
  | nil =>
    intro st _ _ hM _
    rw [phaseLoop]
    exact hM
  | cons v0 vs ih =>
    intro st hnd hsub hM hRF
    obtain ⟨h0nd, hndt⟩ := List.nodup_cons.mp hnd
    rw [phaseLoop]
    by_cases h0 : st.lm v0 = none
    · rw [if_pos h0]
      cases hdfs : dfsRun G dfuel [(v0, G.adj v0)] st with
      | mk b st' =>
        have hkeys : ∀ v ∈ vs, st.lm v = none →
            st'.dist (some v) = st.dist (some v) := by
          intro v hv hlmv
          by_cases hch : st'.dist (some v) = st.dist (some v)
          · exact hch
          · exfalso
            rcases dfsRun_dist_keys G dfuel _ st b st' hdfs (some v) hch with
              ⟨p, hp, hxp⟩ | ⟨u2, w2, hrw, hxw⟩
            · rcases List.mem_cons.mp hp with hp0 | hp0
              · rw [hp0] at hxp
                have hvv0 : v = (v0, G.adj v0).1 := Option.some.inj hxp
                rw [hvv0] at hv
                exact h0nd hv
              · cases hp0
            · have hvw : v = w2 := Option.some.inj hxw
              rw [← hvw] at hrw
              rw [hM.2.1 u2 v hrw] at hlmv
              cases hlmv
        match b with
        | false =>
          obtain ⟨e1, e2, e3⟩ := dfsRun_false_frozen G dfuel _ st st' hdfs
          apply ih st' hndt (fun v hv => hsub v (List.mem_cons_of_mem _ hv))
          · rw [e1, e2]
            exact hM
          · intro v hv hlmv
            rw [e1] at hlmv
            rw [hkeys v hv hlmv]
            exact hRF v (List.mem_cons_of_mem _ hv) hlmv
        | true =>
          obtain ⟨a1, a2, a3, a4, a5, a6, a7, a8, a9⟩ :=
            dfsRun_true_aug G L R hLR hB dfuel [(v0, G.adj v0)] st st' v0
              hM trivial
              (hRF v0 (List.mem_cons_self _ _) h0)
              (by
                intro p hp
                rcases List.mem_cons.mp hp with hp0 | hp0
                · rw [hp0]
                  exact ⟨hsub v0 (List.mem_cons_self _ _), [], rfl⟩
                · cases hp0)
              (lastNode_singleton _)
              hdfs
          have hM' : MInv G L R st'.lm st'.rm := by
            refine ⟨a1, ?_, a3, a4, a5⟩
            intro u w hw
            rcases a2 u w hw with hgood | ⟨hwv, hlm0⟩
            · exact hgood
            · rw [h0] at hlm0
              cases hlm0
          apply ih st' hndt (fun v hv => hsub v (List.mem_cons_of_mem _ hv))
            hM'
          intro v hv hlmv
          have hlmv0 : st.lm v = none := by
            by_cases hc : st.lm v = none
            · exact hc
            · exact absurd hlmv (a7 v hc)
          rw [hkeys v hv hlmv0]
          exact hRF v (List.mem_cons_of_mem _ hv) hlmv0
    · rw [if_neg h0]
      exact ih st hndt (fun v hv => hsub v (List.mem_cons_of_mem _ hv)) hM
        (fun v hv => hRF v (List.mem_cons_of_mem _ hv))

/-- The outer `while breadth_first_search()` loop preserves the matching
invariant. -/
theorem hkLoop_inv (G : NXGraph) (L R : List Nat)
    (hLR : ∀ x ∈ L, x ∉ R) (hB : Bip G L R) (dfuel : Nat)
    (hndL : L.Nodup) :
    ∀ (fuel : Nat) (lm rm : Nat → Option Nat),
    MInv G L R lm rm →
    MInv G L R (hkLoop G L dfuel fuel lm rm).1
      (hkLoop G L dfuel fuel lm rm).2 := by
  intro fuel
  induction fuel with
  | zero =>
    intro lm rm hM
    rw [hkLoop]
    exact hM
  | succ f ih =>
    intro lm rm hM
    rw [hkLoop]
    by_cases hc : breadthFirstSearch G L lm rm none ≠ none
    · rw [if_pos hc]
      apply ih
      exact phaseLoop_inv G L R hLR hB dfuel L
        ⟨lm, rm, breadthFirstSearch G L lm rm⟩ hndL (fun v hv => hv) hM
        (fun v hv hlmv => by
          show breadthFirstSearch G L lm rm (some v) ≠ none
          rw [breadthFirstSearch_roots hv hlmv]
          exact Option.some_ne_none _)
    · rw [if_neg hc]
      exact hM

theorem mlookup_cons (a b k : Nat) (t : List (Nat × Nat)) :
    mlookup ((a, b) :: t) k = if a = k then some b else mlookup t k := by
  unfold mlookup
  by_cases h : a = k
  · rw [List.find?_cons_of_pos _ (by simp [h]), if_pos h]
  · rw [List.find?_cons_of_neg _ (by simp [h]), if_neg h]

theorem mlookup_append_left {A : List (Nat × Nat)} (B : List (Nat × Nat))
    {k v : Nat} (h : mlookup A k = some v) :
    mlookup (A ++ B) k = some v := by
  induction A with
  | nil => cases h
  | cons p t ih =>
    obtain ⟨a, b⟩ := p
    rw [mlookup_cons] at h
    rw [List.cons_append, mlookup_cons]
    by_cases ha : a = k
    · rw [if_pos ha]
      rw [if_pos ha] at h
      exact h
    · rw [if_neg ha]
      rw [if_neg ha] at h
      exact ih h

theorem mlookup_append_none {A : List (Nat × Nat)} (B : List (Nat × Nat))
    {k : Nat} (h : mlookup A k = none) :
    mlookup (A ++ B) k = mlookup B k := by
  induction A with
  | nil => rfl
  | cons p t ih =>
    obtain ⟨a, b⟩ := p
    rw [mlookup_cons] at h
    rw [List.cons_append, mlookup_cons]
    by_cases ha : a = k
    · rw [if_pos ha] at h
      cases h
    · rw [if_neg ha]
      rw [if_neg ha] at h
      exact ih h

theorem mkeys_filterMap_sub (l : List Nat) (f : Nat → Option Nat) :
    ∀ z ∈ mkeys (l.filterMap (fun v => (f v).map (fun u => (v, u)))), z ∈ l := by
  intro z hz
  obtain ⟨p, hp, hpz⟩ := List.mem_map.mp hz
  obtain ⟨v, hv, hfv⟩ := List.mem_filterMap.mp hp
  cases hfv2 : f v with
  | none =>
    rw [hfv2] at hfv
    cases hfv
  | some u =>
    rw [hfv2] at hfv
    simp only [Option.map_some'] at hfv
    have hvp : (v, u) = p := Option.some.inj hfv
    rw [← hvp] at hpz
    rw [← hpz]
    exact hv

/-- Lookup in the stripped dictionary `{v: f v | v in l, f v is not None}`. -/
theorem mlookup_filterMap (l : List Nat) (f : Nat → Option Nat)
    (hnd : l.Nodup) (x : Nat) :
    mlookup (l.filterMap (fun v => (f v).map (fun u => (v, u)))) x =
      if x ∈ l then f x else none := by
  induction l with
  | nil => rfl
  | cons v t ih =>
    obtain ⟨hvnot, hndt⟩ := List.nodup_cons.mp hnd
    rw [List.filterMap_cons]
    cases hfv : f v with
    | none =>
      simp only [Option.map_none']
      rw [ih hndt]
      by_cases hx : x = v
      · rw [hx, if_neg hvnot, if_pos (List.mem_cons_self _ _), hfv]
      · by_cases hxt : x ∈ t
        · rw [if_pos hxt, if_pos (List.mem_cons_of_mem _ hxt)]
        · rw [if_neg hxt,
            if_neg (fun hc => (List.mem_cons.mp hc).elim (fun h => hx h)
              (fun h => hxt h))]
    | some u =>
      simp only [Option.map_some']
      rw [mlookup_cons, ih hndt]
      by_cases hx : v = x
      · rw [if_pos hx, if_pos (by rw [← hx]; exact List.mem_cons_self _ _),
          ← hx, hfv]
      · rw [if_neg hx]
        by_cases hxt : x ∈ t
        · rw [if_pos hxt, if_pos (List.mem_cons_of_mem _ hxt)]
        · rw [if_neg hxt,
            if_neg (fun hc => (List.mem_cons.mp hc).elim
              (fun h => hx h.symm) (fun h => hxt h))]

theorem mkeys_filterMap_nodup (l : List Nat) (f : Nat → Option Nat)
    (hnd : l.Nodup) :
    (mkeys (l.filterMap (fun v => (f v).map (fun u => (v, u))))).Nodup := by
  induction l with
  | nil => exact List.nodup_nil
  | cons v t ih =>
    obtain ⟨hvnot, hndt⟩ := List.nodup_cons.mp hnd
    rw [List.filterMap_cons]
    cases hfv : f v with
    | none =>
      simp only [Option.map_none']
      exact ih hndt
    | some u =>
      simp only [Option.map_some']
      unfold mkeys
      rw [List.map_cons, List.nodup_cons]
      exact ⟨fun hc => hvnot (mkeys_filterMap_sub t f v hc), ih hndt⟩

/-- Validity of the matching returned by `hopcroft_karp_matching`: distinct
keys, symmetry, all pairs edges, and each pair having one endpoint on each
side (shared workhorse behind several claims). -/
theorem hk_valid (G : NXGraph)
    (top : Option (List Nat)) (M : List (Nat × Nat))
    (left right : List Nat)
    (hWF : G.WF)
    (hbs : bipartite_sets G top = Except.ok (left, right))
    (hB : Bip G left right)
    (hM : hopcroft_karp_matching G top = Except.ok M) :
    (mkeys M).Nodup ∧
    (∀ u v, mlookup M u = some v → mlookup M v = some u) ∧
    (∀ u v, mlookup M u = some v → v ∈ G.adj u) ∧
    (∀ u v, mlookup M u = some v →
      (u ∈ left ∧ v ∈ right) ∨ (u ∈ right ∧ v ∈ left)) := by
  obtain ⟨hndL, hndR, hdisj, hRsub⟩ := bipartite_sets_props hWF.1 hbs
  unfold hopcroft_karp_matching at hM
  simp only [hbs] at hM
  injection hM with hMeq
  subst hMeq
  set q := hkLoop G left (hkDfsFuel G left) (left.length + 1)
    (fun _ => none) (fun _ => none) with hq
  have hM0 : MInv G left right (fun _ => none) (fun _ => none) := by
    refine ⟨?_, ?_, ?_, ?_, ?_⟩
    · intro v u h
      cases h
    · intro u v h
      cases h
    · intro v u h
      cases h
    · intro v h
      exact absurd rfl h
    · intro u h
      exact absurd rfl h
  obtain ⟨i1, i2, i3, i4, i5⟩ :=
    hkLoop_inv G left right hdisj hB (hkDfsFuel G left) hndL
      (left.length + 1) _ _ hM0
  have hlchar : ∀ x, mlookup (left.filterMap
      (fun v => (q.1 v).map (fun u => (v, u)))) x =
      if x ∈ left then q.1 x else none :=
    fun x => mlookup_filterMap left q.1 hndL x
  have hrchar : ∀ x, mlookup (right.filterMap
      (fun u => (q.2 u).map (fun v => (u, v)))) x =
      if x ∈ right then q.2 x else none :=
    fun x => mlookup_filterMap right q.2 hndR x
  have hchar : ∀ x y, mlookup (left.filterMap
        (fun v => (q.1 v).map (fun u => (v, u))) ++
      right.filterMap (fun u => (q.2 u).map (fun v => (u, v)))) x = some y →
      (x ∈ left ∧ q.1 x = some y) ∨ (x ∈ right ∧ q.2 x = some y) := by
    intro x y h
    by_cases hx : x ∈ left
    · have hA : mlookup (left.filterMap
          (fun v => (q.1 v).map (fun u => (v, u)))) x = q.1 x := by
        rw [hlchar x, if_pos hx]
      cases hq1 : q.1 x with
      | some y0 =>
        have h2 := mlookup_append_left (right.filterMap
          (fun u => (q.2 u).map (fun v => (u, v)))) (by rw [hA, hq1])
        rw [h] at h2
        obtain rfl : y = y0 := Option.some.inj h2
        exact Or.inl ⟨hx, rfl⟩
      | none =>
        rw [mlookup_append_none _ (by rw [hA, hq1]), hrchar x,
          if_neg (hdisj x hx)] at h
        cases h
    · rw [mlookup_append_none _ (by rw [hlchar x, if_neg hx]), hrchar x] at h
      by_cases hx2 : x ∈ right
      · rw [if_pos hx2] at h
        exact Or.inr ⟨hx2, h⟩
      · rw [if_neg hx2] at h
        cases h
  refine ⟨?_, ?_, ?_, ?_⟩
  · unfold mkeys
    rw [List.map_append]
    apply List.Nodup.append
    · exact mkeys_filterMap_nodup left q.1 hndL
    · exact mkeys_filterMap_nodup right q.2 hndR
    · intro z hzA hzB
      exact hdisj z (mkeys_filterMap_sub left q.1 z hzA)
        (mkeys_filterMap_sub right q.2 z hzB)
  · intro u v h
    rcases hchar u v h with ⟨huL, hlm⟩ | ⟨huR, hrm⟩
    · have hrmv : q.2 v = some u := i1 u v hlm
      have hvR : v ∈ right := i5 v (by rw [hrmv]; exact Option.some_ne_none _)
      have hvnotL : v ∉ left := fun hc => hdisj v hc hvR
      rw [mlookup_append_none _ (by rw [hlchar v, if_neg hvnotL]), hrchar v,
        if_pos hvR]
      exact hrmv
    · have hlmv : q.1 v = some u := i2 u v hrm
      have hvL : v ∈ left := i4 v (by rw [hlmv]; exact Option.some_ne_none _)
      exact mlookup_append_left _ (by rw [hlchar v, if_pos hvL, hlmv])
  · intro u v h
    rcases hchar u v h with ⟨huL, hlm⟩ | ⟨huR, hrm⟩
    · exact i3 u v hlm
    · have hlmv : q.1 v = some u := i2 u v hrm
      exact WF.adj_symm hWF (i3 v u hlmv)
  · intro u v h
    rcases hchar u v h with ⟨huL, hlm⟩ | ⟨huR, hrm⟩
    · have hrmv : q.2 v = some u := i1 u v hlm
      exact Or.inl ⟨huL, i5 v (by rw [hrmv]; exact Option.some_ne_none _)⟩
    · have hlmv : q.1 v = some u := i2 u v hrm
      exact Or.inr ⟨huR, i4 v (by rw [hlmv]; exact Option.some_ne_none _)⟩

/-- C1: for every well-formed undirected graph whose bipartition is supplied
or unambiguous (`bipartite_sets` succeeds with an actual bipartition
`(left, right)`), the dictionary returned by
`hopcroft_karp_matching` (and hence by its alias `maximum_matching`) is a
valid matching: its keys are pairwise distinct (no node has more than one
partner; unmatched nodes are absent), it is symmetric (`M[M[u]] = u`), and
every pair `(u, M[u])` is an edge of the graph. -/
theorem C1_hopcroft_karp_matching_valid (G : NXGraph)
    (top : Option (List Nat)) (M : List (Nat × Nat))
    (left right : List Nat)
    (hWF : G.WF)
    (hbs : bipartite_sets G top = Except.ok (left, right))
    (hB : Bip G left right)
    (hM : hopcroft_karp_matching G top = Except.ok M) :
    (mkeys M).Nodup ∧
    (∀ u v, mlookup M u = some v → mlookup M v = some u) ∧
    (∀ u v, mlookup M u = some v → v ∈ G.adj u) :=
  ⟨(hk_valid G top M left right hWF hbs hB hM).1,
   (hk_valid G top M left right hWF hbs hB hM).2.1,
   (hk_valid G top M left right hWF hbs hB hM).2.2.1⟩

theorem C1_hopcroft_karp_matching_valid_witness :
    gHouse.WF ∧
    bipartite_sets gHouse (some [0, 1, 2]) = Except.ok ([0, 1, 2], [3, 4]) ∧
    Bip gHouse [0, 1, 2] [3, 4] ∧
    hopcroft_karp_matching gHouse (some [0, 1, 2]) =
      Except.ok [(0, 3), (1, 4), (3, 0), (4, 1)] ∧
    ((mkeys [(0, 3), (1, 4), (3, 0), (4, 1)]).Nodup ∧
     (∀ u v, mlookup [(0, 3), (1, 4), (3, 0), (4, 1)] u = some v →
       mlookup [(0, 3), (1, 4), (3, 0), (4, 1)] v = some u) ∧
     (∀ u v, mlookup [(0, 3), (1, 4), (3, 0), (4, 1)] u = some v →
       v ∈ gHouse.adj u)) :=
  ⟨by decide, by decide, by decide, by decide,
    C1_hopcroft_karp_matching_valid gHouse (some [0, 1, 2])
      [(0, 3), (1, 4), (3, 0), (4, 1)] [0, 1, 2] [3, 4]
      (by decide) (by decide) (by decide) (by decide)⟩

theorem mlookup_mem {l : List (Nat × Nat)} {a b : Nat}
    (h : mlookup l a = some b) : (a, b) ∈ l := by
  induction l with
  | nil => cases h
  | cons p t ih =>
    obtain ⟨c, d⟩ := p
    rw [mlookup_cons] at h
    by_cases hc : c = a
    · rw [if_pos hc] at h
      have hd : d = b := Option.some.inj h
      rw [← hc, ← hd]
      exact List.mem_cons_self _ _
    · rw [if_neg hc] at h
      exact List.mem_cons_of_mem _ (ih h)

theorem mem_mlookup {l : List (Nat × Nat)} {a b : Nat}
    (hnd : (mkeys l).Nodup) (h : (a, b) ∈ l) : mlookup l a = some b := by
  induction l with
  | nil => cases h
  | cons p t ih =>
    obtain ⟨c, d⟩ := p
    unfold mkeys at hnd
    rw [List.map_cons, List.nodup_cons] at hnd
    obtain ⟨hnd1, hnd2⟩ := hnd
    rcases List.mem_cons.mp h with h0 | h0
    · injection h0 with h1 h2
      rw [mlookup_cons, if_pos h1.symm, h2]
    · have hca : c ≠ a := by
        intro hc
        rw [hc] at hnd1
        exact hnd1 (List.mem_map.mpr ⟨(a, b), h0, rfl⟩)
      rw [mlookup_cons, if_neg hca]
      exact ih hnd2 h0

theorem mlookup_eq_none_iff {l : List (Nat × Nat)} {k : Nat} :
    mlookup l k = none ↔ k ∉ mkeys l := by
  induction l with
  | nil =>
    constructor
    · intro _ hc
      cases hc
    · intro _
      rfl
  | cons p t ih =>
    obtain ⟨c, d⟩ := p
    rw [mlookup_cons]
    by_cases hc : c = k
    · rw [if_pos hc]
      constructor
      · intro h
        cases h
      · intro h
        exact absurd (List.mem_map.mpr ⟨(c, d),
          List.mem_cons_self _ _, hc⟩) h
    · rw [if_neg hc]
      constructor
      · intro h hmem
        rcases List.mem_cons.mp hmem with h0 | h0
        · exact hc h0.symm
        · exact (ih.mp h) h0
      · intro h
        exact ih.mpr (fun hmem => h (List.mem_cons_of_mem _ hmem))

theorem altSeqLoop_acc_mono (G : NXGraph) (M : List (Nat × Nat)) :
    ∀ fuel Xlast Xacc Yacc Yaccum,
    (∀ l ∈ Xacc, l ∈ (altSeqLoop G M fuel Xlast Xacc Yacc Yaccum).1) ∧
    (∀ l ∈ Yacc, l ∈ (altSeqLoop G M fuel Xlast Xacc Yacc Yaccum).2) := by
  intro fuel
  induction fuel with
  | zero =>
    intro Xlast Xacc Yacc Yaccum
    exact ⟨fun l hl => hl, fun l hl => hl⟩
  | succ f ih =>
    intro Xlast Xacc Yacc Yaccum
    rw [altSeqLoop]
    by_cases hYe : (altSeqY G M Xlast Yaccum).isEmpty
    · rw [if_pos hYe]
      exact ⟨fun l hl => hl, fun l hl => hl⟩
    · rw [if_neg hYe]
      by_cases hXe : (altSeqX G M (altSeqY G M Xlast Yaccum)).isEmpty
      · rw [if_pos hXe]
        exact ⟨fun l hl => hl, fun l hl => hl⟩
      · rw [if_neg hXe]
        obtain ⟨ih1, ih2⟩ := ih (altSeqX G M (altSeqY G M Xlast Yaccum))
          (Xacc ++ [altSeqX G M (altSeqY G M Xlast Yaccum)])
          (Yacc ++ [altSeqY G M Xlast Yaccum])
          (Yaccum ++ altSeqY G M Xlast Yaccum)
        exact ⟨fun l hl => ih1 l (List.mem_append_left _ hl),
               fun l hl => ih2 l (List.mem_append_left _ hl)⟩

theorem altSeqLoop_ypair (G : NXGraph) (M : List (Nat × Nat)) :
    ∀ fuel Xlast Xacc Yacc Yaccum,
    (∀ l2 ∈ Yacc, ∃ l1 ∈ Xacc, l1 = altSeqX G M l2) →
    ∀ l2 ∈ (altSeqLoop G M fuel Xlast Xacc Yacc Yaccum).2,
      ∃ l1 ∈ (altSeqLoop G M fuel Xlast Xacc Yacc Yaccum).1,
        l1 = altSeqX G M l2 := by
  intro fuel
  induction fuel with
  | zero =>
    intro Xlast Xacc Yacc Yaccum hpair
    exact hpair
  | succ f ih =>
    intro Xlast Xacc Yacc Yaccum hpair
    rw [altSeqLoop]
    by_cases hYe : (altSeqY G M Xlast Yaccum).isEmpty
    · rw [if_pos hYe]
      exact hpair
    · rw [if_neg hYe]
      by_cases hXe : (altSeqX G M (altSeqY G M Xlast Yaccum)).isEmpty
      · rw [if_pos hXe]
        exact hpair
      · rw [if_neg hXe]
        apply ih
        intro l2 hl2
        rcases List.mem_append.mp hl2 with hl0 | hl0
        · obtain ⟨l1, hl1, heq⟩ := hpair l2 hl0
          exact ⟨l1, List.mem_append_left _ hl1, heq⟩
        · rw [List.mem_singleton.mp hl0]
          exact ⟨altSeqX G M (altSeqY G M Xlast Yaccum),
            List.mem_append_right _ (List.mem_singleton.mpr rfl), rfl⟩

/-- Closure of the `_M_alternating_sequence` loop: any non-matching edge out
of a collected `X` set whose `Y`-endpoint is properly matched leads into a
collected `Y` set. -/
theorem altSeqLoop_closure {G : NXGraph} {M : List (Nat × Nat)}
    {X Y : List Nat} (hB : Bip G X Y) (hD : ∀ x ∈ X, x ∉ Y) :
    ∀ fuel Xlast Xacc Yacc Yaccum,
    (Y.toFinset \ Yaccum.toFinset).card + 1 ≤ fuel →
    (∀ x ∈ Xlast, x ∈ X) →
    (∀ y, y ∈ Yaccum ↔ ∃ l ∈ Yacc, y ∈ l) →
    (∀ l ∈ Xacc, l = Xlast ∨
      (∀ x ∈ l, ∀ y, y ∈ G.adj x → mlookup M x ≠ some y →
        mlookup M y ≠ some x → y ∈ Yaccum)) →
    ∀ l ∈ (altSeqLoop G M fuel Xlast Xacc Yacc Yaccum).1, ∀ x ∈ l,
    ∀ y, y ∈ G.adj x → mlookup M x ≠ some y → mlookup M y ≠ some x →
    (∃ x2, mlookup M y = some x2 ∧ mlookup M x2 = some y ∧ x2 ∈ G.adj y) →
    ∃ l2 ∈ (altSeqLoop G M fuel Xlast Xacc Yacc Yaccum).2, y ∈ l2 := by
  intro fuel
  induction fuel with
  | zero =>
    intro Xlast Xacc Yacc Yaccum hfuel
    omega
  | succ f ih =>
    intro Xlast Xacc Yacc Yaccum hfuel hXlast hYaccum hclosed
    have hYsub : ∀ y ∈ altSeqY G M Xlast Yaccum, y ∈ Y := by
      intro y hy
      obtain ⟨n, hn, hadj, -, -, -⟩ := mem_altSeqY.mp hy
      rcases hB.adj hadj with ⟨hnX, hyY⟩ | ⟨hnY, -⟩
      · exact hyY
      · exact absurd hnY (hD n (hXlast n hn))
    have hYnotacc : ∀ y ∈ altSeqY G M Xlast Yaccum, y ∉ Yaccum := by
      intro y hy
      obtain ⟨n, hn, hadj, hnin, -, -⟩ := mem_altSeqY.mp hy
      exact hnin
    rw [altSeqLoop]
    by_cases hYe : (altSeqY G M Xlast Yaccum).isEmpty
    · rw [if_pos hYe]
      have hYnil : altSeqY G M Xlast Yaccum = [] := by
        cases hcase : altSeqY G M Xlast Yaccum with
        | nil => rfl
        | cons a t =>
          rw [hcase] at hYe
          cases hYe
      intro l hl x hx y hadj hne1 hne2 hmat
      rcases hclosed l hl with hlast | hcl
      · by_cases hyacc : y ∈ Yaccum
        · exact (hYaccum y).mp hyacc
        · exfalso
          have hyC : y ∈ altSeqY G M Xlast Yaccum :=
            mem_altSeqY.mpr ⟨x, hlast ▸ hx, hadj, hyacc, hne1, hne2⟩
          rw [hYnil] at hyC
          cases hyC
      · exact (hYaccum y).mp (hcl x hx y hadj hne1 hne2)
    · rw [if_neg hYe]
      by_cases hXe : (altSeqX G M (altSeqY G M Xlast Yaccum)).isEmpty
      · rw [if_pos hXe]
        have hXnil : altSeqX G M (altSeqY G M Xlast Yaccum) = [] := by
          cases hcase : altSeqX G M (altSeqY G M Xlast Yaccum) with
          | nil => rfl
          | cons a t =>
            rw [hcase] at hXe
            cases hXe
        intro l hl x hx y hadj hne1 hne2 hmat
        rcases hclosed l hl with hlast | hcl
        · by_cases hyacc : y ∈ Yaccum
          · exact (hYaccum y).mp hyacc
          · exfalso
            have hyC : y ∈ altSeqY G M Xlast Yaccum :=
              mem_altSeqY.mpr ⟨x, hlast ▸ hx, hadj, hyacc, hne1, hne2⟩
            obtain ⟨x2, hm1, hm2, hx2adj⟩ := hmat
            have hx2C : x2 ∈ altSeqX G M (altSeqY G M Xlast Yaccum) :=
              mem_altSeqX.mpr ⟨y, hyC, hx2adj, hm1, hm2⟩
            rw [hXnil] at hx2C
            cases hx2C
        · exact (hYaccum y).mp (hcl x hx y hadj hne1 hne2)
      · rw [if_neg hXe]
        have hXsub : ∀ x ∈ altSeqX G M (altSeqY G M Xlast Yaccum), x ∈ X := by
          intro x hx
          obtain ⟨n, hn, hadj, -, -⟩ := mem_altSeqX.mp hx
          rcases hB.adj hadj with ⟨hnX, -⟩ | ⟨-, hxX⟩
          · exact absurd (hYsub n hn) (hD n hnX)
          · exact hxX
        have hYne2 : altSeqY G M Xlast Yaccum ≠ [] := by
          intro hc
          rw [hc] at hYe
          exact hYe rfl
        obtain ⟨y0, hy0⟩ := List.exists_mem_of_ne_nil _ hYne2
        have hsub2 : Y.toFinset \
            (Yaccum ++ altSeqY G M Xlast Yaccum).toFinset ⊆
            Y.toFinset \ Yaccum.toFinset := by
          intro z hz
          simp only [Finset.mem_sdiff, List.mem_toFinset,
            List.mem_append] at hz ⊢
          exact ⟨hz.1, fun hc => hz.2 (Or.inl hc)⟩
        have hy0mem : y0 ∈ Y.toFinset \ Yaccum.toFinset := by
          simp only [Finset.mem_sdiff, List.mem_toFinset]
          exact ⟨hYsub y0 hy0, hYnotacc y0 hy0⟩
        have hy0not : y0 ∉ Y.toFinset \
            (Yaccum ++ altSeqY G M Xlast Yaccum).toFinset := by
          simp only [Finset.mem_sdiff, List.mem_toFinset, List.mem_append]
          intro hc
          exact hc.2 (Or.inr hy0)
        have hcard : (Y.toFinset \
            (Yaccum ++ altSeqY G M Xlast Yaccum).toFinset).card <
            (Y.toFinset \ Yaccum.toFinset).card := by
          apply Finset.card_lt_card
          rw [Finset.ssubset_def]
          exact ⟨hsub2, fun hts => hy0not (hts hy0mem)⟩
        apply ih (altSeqX G M (altSeqY G M Xlast Yaccum))
          (Xacc ++ [altSeqX G M (altSeqY G M Xlast Yaccum)])
          (Yacc ++ [altSeqY G M Xlast Yaccum])
          (Yaccum ++ altSeqY G M Xlast Yaccum)
          (by omega) hXsub
        · intro y
          simp only [List.mem_append, List.mem_singleton]
          constructor
          · rintro (hy | hy)
            · obtain ⟨l, hl, hyl⟩ := (hYaccum y).mp hy
              exact ⟨l, Or.inl hl, hyl⟩
            · exact ⟨altSeqY G M Xlast Yaccum, Or.inr rfl, hy⟩
          · rintro ⟨l, hl | hl, hyl⟩
            · exact Or.inl ((hYaccum y).mpr ⟨l, hl, hyl⟩)
            · rw [hl] at hyl
              exact Or.inr hyl
        · intro l hl
          rcases List.mem_append.mp hl with hl0 | hl0
          · rcases hclosed l hl0 with hlast | hcl
            · right
              intro x hx y hadj hne1 hne2
              by_cases hyacc : y ∈ Yaccum
              · exact List.mem_append_left _ hyacc
              · exact List.mem_append_right _
                  (mem_altSeqY.mpr ⟨x, hlast ▸ hx, hadj, hyacc, hne1, hne2⟩)
            · right
              intro x hx y hadj hne1 hne2
              exact List.mem_append_left _ (hcl x hx y hadj hne1 hne2)
          · left
            exact List.mem_singleton.mp hl0

/-- C4: for every well-formed undirected simple bipartite graph whose
bipartition is supplied or unambiguous, the matching returned by
`maximum_envy_free_matching` is envy-free: a left node left unmatched by the
result has no neighbour that the result matches. -/
theorem C4_maximum_envy_free_matching_envy_free (G : NXGraph)
    (top : Option (List Nat)) (M2 : List (Nat × Nat)) (X Y : List Nat)
    (hWF : G.WF)
    (hbs : bipartite_sets G top = Except.ok (X, Y))
    (hB : Bip G X Y)
    (hres : maximum_envy_free_matching G top = Except.ok M2) :
    ∀ x y, x ∈ X → y ∈ G.adj x →
      mlookup M2 x = none → mlookup M2 y = none := by
  obtain ⟨hndX, hndY, hD, hYsubN⟩ := bipartite_sets_props hWF.1 hbs
  unfold maximum_envy_free_matching at hres
  by_cases hdir : G.directed
  · rw [if_pos hdir] at hres
    cases hres
  rw [if_neg hdir] at hres
  by_cases hmul : G.multigraph
  · rw [if_pos hmul] at hres
    cases hres
  rw [if_neg hmul] at hres
  cases hmm : maximum_matching G top with
  | error e =>
    rw [hmm] at hres
    cases hres
  | ok M =>
    simp only [hmm] at hres
    obtain ⟨⟨Xs, Ys⟩, hseq⟩ := @M_alternating_sequence_ok G M top X Y hbs
    have hseqorig := hseq
    have hpart := envy_free_matching_partition_ok hbs hseq
    simp only [hpart] at hres
    injection hres with hMeq
    obtain ⟨hknd, hksym, hkedge, hkside⟩ := hk_valid G top M X Y hWF hbs hB hmm
    have hknd2 : (mkeys M2).Nodup := by
      rw [← hMeq]
      exact List.Nodup.sublist (List.Sublist.map Prod.fst
        (List.filter_sublist M)) hknd
    have hUmem : ∀ a : Nat, a ∈ Xs.flatten.toFinset ∪ Ys.flatten.toFinset ↔
        (∃ l ∈ Xs, a ∈ l) ∨ (∃ l ∈ Ys, a ∈ l) := by
      intro a
      simp [List.mem_flatten]
    have hM2mem : ∀ a b : Nat, (a, b) ∈ M2 ↔ (a, b) ∈ M ∧
        a ∉ Xs.flatten.toFinset ∪ Ys.flatten.toFinset ∧
        b ∉ Xs.flatten.toFinset ∪ Ys.flatten.toFinset := by
      intro a b
      rw [← hMeq]
      simp only [List.mem_filter, decide_eq_true_eq]
    obtain ⟨hXsX, hYsY, -, -, -, -⟩ :=
      M_alternating_sequence_spec hbs hB hD hYsubN hseqorig
    intro x y hxX hadj hx2
    cases hy2 : mlookup M2 y with
    | none => rfl
    | some x2 =>
      exfalso
      obtain ⟨hyM, hyU, hx2U⟩ := (hM2mem y x2).mp (mlookup_mem hy2)
      have hyMk : mlookup M y = some x2 := mem_mlookup hknd hyM
      have hxkeys : x ∉ mkeys M2 := mlookup_eq_none_iff.mp hx2
      -- the edge (x, y) cannot be the matching edge of x towards y with
      -- x matched in the result, so analyse how x dropped out
      unfold M_alternating_sequence at hseq
      simp only [hbs] at hseq
      by_cases hX0 : (X.filter (fun v => ¬ v ∈ mkeys M)).isEmpty
      · rw [if_pos hX0] at hseq
        injection hseq with hseq
        injection hseq with hXsnil hYsnil
        have hX0nil : X.filter (fun v => ¬ v ∈ mkeys M) = [] := by
          cases hcase : X.filter (fun v => ¬ v ∈ mkeys M) with
          | nil => rfl
          | cons a t =>
            rw [hcase] at hX0
            cases hX0
        cases hMx : mlookup M x with
        | none =>
          have hxk : x ∉ mkeys M := mlookup_eq_none_iff.mp hMx
          have : x ∈ X.filter (fun v => ¬ v ∈ mkeys M) := by
            simp only [List.mem_filter, decide_eq_true_eq]
            exact ⟨hxX, hxk⟩
          rw [hX0nil] at this
          cases this
        | some y0 =>
          have hxy0M : (x, y0) ∈ M := mlookup_mem hMx
          have hnot : ¬ ((x, y0) ∈ M2) := fun hc =>
            hxkeys (List.mem_map.mpr ⟨(x, y0), hc, rfl⟩)
          rw [hM2mem x y0] at hnot
          rcases not_and_or.mp hnot with hc | hc
          · exact hc hxy0M
          rcases not_and_or.mp hc with hc2 | hc2 <;>
            · rw [not_not, hUmem] at hc2
              rcases hc2 with ⟨l, hl, -⟩ | ⟨l, hl, -⟩
              · rw [← hXsnil] at hl
                cases hl
              · rw [← hYsnil] at hl
                cases hl
      · rw [if_neg hX0] at hseq
        injection hseq with hseq
        have hXs1 : (altSeqLoop G M (G.nodes.length + 1)
            (X.filter (fun v => ¬ v ∈ mkeys M))
            [X.filter (fun v => ¬ v ∈ mkeys M)] [] []).1 = Xs := by
          rw [hseq]
        have hYs2 : (altSeqLoop G M (G.nodes.length + 1)
            (X.filter (fun v => ¬ v ∈ mkeys M))
            [X.filter (fun v => ¬ v ∈ mkeys M)] [] []).2 = Ys := by
          rw [hseq]
        have hcard : (Y.toFinset \ ([] : List Nat).toFinset).card + 1 ≤
            G.nodes.length + 1 := by
          have h1 : Y.toFinset ⊆ G.nodes.toFinset := by
            intro z hz
            exact List.mem_toFinset.mpr (hYsubN z (List.mem_toFinset.mp hz))
          have h2 := Finset.card_le_card h1
          have h3 := G.nodes.toFinset_card_le
          simp only [List.toFinset_nil, Finset.sdiff_empty]
          omega
        have hX0sub : ∀ z ∈ X.filter (fun v => ¬ v ∈ mkeys M), z ∈ X := by
          intro z hz
          exact (List.mem_filter.mp hz).1
        have hclosure := @altSeqLoop_closure G M X Y hB hD (G.nodes.length + 1)
          (X.filter (fun v => ¬ v ∈ mkeys M))
          [X.filter (fun v => ¬ v ∈ mkeys M)] [] []
          hcard hX0sub
          (by
            intro z
            constructor
            · intro hz
              cases hz
            · rintro ⟨l, hl, -⟩
              cases hl)
          (by
            intro l hl
            exact Or.inl (List.mem_singleton.mp hl))
        have hpairY := altSeqLoop_ypair G M (G.nodes.length + 1)
          (X.filter (fun v => ¬ v ∈ mkeys M))
          [X.filter (fun v => ¬ v ∈ mkeys M)] [] []
          (by
            intro l2 hl2
            cases hl2)
        have hmono := altSeqLoop_acc_mono G M (G.nodes.length + 1)
          (X.filter (fun v => ¬ v ∈ mkeys M))
          [X.filter (fun v => ¬ v ∈ mkeys M)] [] []
        cases hMx : mlookup M x with
        | none =>
          have hx2x : x2 ≠ x := by
            intro hc
            rw [hc] at hyMk
            rw [hksym y x hyMk] at hMx
            cases hMx
          have hyYs := hclosure (X.filter (fun v => ¬ v ∈ mkeys M))
            (hmono.1 _ (List.mem_singleton.mpr rfl)) x
            (by
              simp only [List.mem_filter, decide_eq_true_eq]
              exact ⟨hxX, mlookup_eq_none_iff.mp hMx⟩)
            y hadj
            (by rw [hMx]; exact fun hc => by cases hc)
            (by
              rw [hyMk]
              intro hc
              exact hx2x (Option.some.inj hc))
            ⟨x2, hyMk, hksym y x2 hyMk, hkedge y x2 hyMk⟩
          obtain ⟨l2, hl2, hyl2⟩ := hyYs
          rw [hYs2] at hl2
          exact hyU ((hUmem y).mpr (Or.inr ⟨l2, hl2, hyl2⟩))
        | some y0 =>
          have hxy0M : (x, y0) ∈ M := mlookup_mem hMx
          have hnot : ¬ ((x, y0) ∈ M2) := fun hc =>
            hxkeys (List.mem_map.mpr ⟨(x, y0), hc, rfl⟩)
          rw [hM2mem x y0] at hnot
          have hy0Y : y0 ∈ Y := by
            rcases hkside x y0 hMx with ⟨-, hy0⟩ | ⟨hxY, -⟩
            · exact hy0
            · exact absurd hxY (hD x hxX)
          by_cases hxU : x ∈ Xs.flatten.toFinset ∪ Ys.flatten.toFinset
          · -- x was collected into an X set
            have hxXs : ∃ l ∈ Xs, x ∈ l := by
              rcases (hUmem x).mp hxU with h0 | ⟨l, hl, hxl⟩
              · exact h0
              · exact absurd (hYsY l hl x hxl) (hD x hxX)
            obtain ⟨l, hlXs, hxl⟩ := hxXs
            by_cases hyy0 : y = y0
            · have hsymx := hksym x y0 hMx
              rw [← hyy0] at hsymx
              rw [hyMk] at hsymx
              have : x2 = x := Option.some.inj hsymx
              rw [this] at hx2U
              exact hx2U hxU
            · have hx2x : x2 ≠ x := by
                intro hc
                rw [hc] at hyMk
                have := hksym y x hyMk
                rw [hMx] at this
                exact hyy0 (Option.some.inj this).symm
              have hyYs := hclosure l (by rw [hXs1]; exact hlXs) x hxl y hadj
                (by
                  rw [hMx]
                  intro hc
                  exact hyy0 (Option.some.inj hc).symm)
                (by
                  rw [hyMk]
                  intro hc
                  exact hx2x (Option.some.inj hc))
                ⟨x2, hyMk, hksym y x2 hyMk, hkedge y x2 hyMk⟩
              obtain ⟨l2, hl2, hyl2⟩ := hyYs
              rw [hYs2] at hl2
              exact hyU ((hUmem y).mpr (Or.inr ⟨l2, hl2, hyl2⟩))
          · -- the partner of x was collected into a Y set
            have hy0U : y0 ∈ Xs.flatten.toFinset ∪ Ys.flatten.toFinset := by
              rcases not_and_or.mp hnot with hc | hc
              · exact absurd hxy0M hc
              rcases not_and_or.mp hc with hc2 | hc2
              · exact absurd (not_not.mp hc2) hxU
              · exact not_not.mp hc2
            have hy0Ys : ∃ l ∈ Ys, y0 ∈ l := by
              rcases (hUmem y0).mp hy0U with ⟨l, hl, hy0l⟩ | h0
              · exact absurd hy0Y (hD y0 (hXsX l hl y0 hy0l))
              · exact h0
            obtain ⟨l2, hl2Ys, hy0l2⟩ := hy0Ys
            obtain ⟨l1, hl1, hl1eq⟩ := hpairY l2 (by rw [hYs2]; exact hl2Ys)
            have hxl1 : x ∈ l1 := by
              rw [hl1eq]
              exact mem_altSeqX.mpr ⟨y0, hy0l2,
                hkedge y0 x (hksym x y0 hMx), hksym x y0 hMx, hMx⟩
            rw [hXs1] at hl1
            exact hxU ((hUmem x).mpr (Or.inl ⟨l1, hl1, hxl1⟩))

theorem C4_maximum_envy_free_matching_envy_free_witness :
    gHouse.WF ∧
    bipartite_sets gHouse (some [0, 1, 2]) = Except.ok ([0, 1, 2], [3, 4]) ∧
    Bip gHouse [0, 1, 2] [3, 4] ∧
    maximum_envy_free_matching gHouse (some [0, 1, 2]) =
      Except.ok [(0, 3), (3, 0)] ∧
    (∀ x y, x ∈ [0, 1, 2] → y ∈ gHouse.adj x →
      mlookup [(0, 3), (3, 0)] x = none →
      mlookup [(0, 3), (3, 0)] y = none) :=
  ⟨by decide, by decide, by decide, by decide,
    C4_maximum_envy_free_matching_envy_free gHouse (some [0, 1, 2])
      [(0, 3), (3, 0)] [0, 1, 2] [3, 4] (by decide) (by decide) (by decide)
      (by decide)⟩

theorem mem_cbLeft {m i : Nat} : i ∈ cbLeft m ↔ i < m := List.mem_range

theorem mem_cbRight {m n j : Nat} : j ∈ cbRight m n ↔ m ≤ j ∧ j < m + n := by
  unfold cbRight
  simp only [List.mem_map, List.mem_range]
  constructor
  · rintro ⟨j2, hj2, rfl⟩
    omega
  · intro ⟨h1, h2⟩
    exact ⟨j - m, by omega, by omega⟩

theorem cbLeft_nodup (m : Nat) : (cbLeft m).Nodup := List.nodup_range m

theorem cbRight_nodup (m n : Nat) : (cbRight m n).Nodup :=
  List.Nodup.map (fun a b h => by omega) (List.nodup_range n)

theorem find?_key_append_none {A B : List (Nat × List Nat)} {v : Nat}
    (h : ∀ p ∈ A, p.1 ≠ v) :
    (A ++ B).find? (fun p => p.1 == v) = B.find? (fun p => p.1 == v) := by
  induction A with
  | nil => rfl
  | cons p t ih =>
    rw [List.cons_append, List.find?_cons_of_neg _
      (by simp [h p (List.mem_cons_self _ _)])]
    exact ih (fun q hq => h q (List.mem_cons_of_mem _ hq))

theorem find?_keymap_self {l : List Nat} {val : List Nat} {v : Nat}
    (hv : v ∈ l) (rest : List (Nat × List Nat)) :
    ((l.map (fun i => (i, val))) ++ rest).find? (fun p => p.1 == v) =
      some (v, val) := by
  induction l with
  | nil => cases hv
  | cons i t ih =>
    rw [List.map_cons, List.cons_append]
    by_cases hiv : i = v
    · rw [List.find?_cons_of_pos _ (by simp [hiv]), hiv]
    · rw [List.find?_cons_of_neg _ (by simp [hiv])]
      exact ih (by
        rcases List.mem_cons.mp hv with h0 | h0
        · exact absurd h0.symm hiv
        · exact h0)

theorem cb_adj_left {m n i : Nat} (hi : i < m) :
    (completeBipartite m n).adj i = cbRight m n := by
  unfold NXGraph.adj completeBipartite
  rw [find?_keymap_self (mem_cbLeft.mpr hi)]

theorem cb_adj_right {m n j : Nat} (hj : j ∈ cbRight m n) :
    (completeBipartite m n).adj j = cbLeft m := by
  unfold NXGraph.adj completeBipartite
  rw [find?_key_append_none (by
    intro p hp
    obtain ⟨i, hi, rfl⟩ := List.mem_map.mp hp
    have h1 := mem_cbLeft.mp hi
    have h2 := (mem_cbRight.mp hj).1
    simp only []
    omega)]
  rw [← List.append_nil ((cbRight m n).map (fun j => (j, cbLeft m))),
    find?_keymap_self hj]

theorem cb_WF (m n : Nat) : (completeBipartite m n).WF := by
  have hdisj : ∀ x ∈ cbLeft m, x ∉ cbRight m n := by
    intro x hx hc
    have h1 := mem_cbLeft.mp hx
    have h2 := (mem_cbRight.mp hc).1
    omega
  have hadjl : ∀ p ∈ (completeBipartite m n).adjl,
      (p.1 ∈ cbLeft m ∧ p.2 = cbRight m n) ∨
      (p.1 ∈ cbRight m n ∧ p.2 = cbLeft m) := by
    intro p hp
    rcases List.mem_append.mp hp with h0 | h0
    · obtain ⟨i, hi, rfl⟩ := List.mem_map.mp h0
      exact Or.inl ⟨hi, rfl⟩
    · obtain ⟨j, hj, rfl⟩ := List.mem_map.mp h0
      exact Or.inr ⟨hj, rfl⟩
  refine ⟨?_, ?_, ?_, ?_, ?_, ?_⟩
  · exact List.Nodup.append (cbLeft_nodup m) (cbRight_nodup m n) hdisj
  · intro p hp
    rcases hadjl p hp with ⟨h1, -⟩ | ⟨h1, -⟩
    · exact List.mem_append_left _ h1
    · exact List.mem_append_right _ h1
  · intro p hp u hu
    rcases hadjl p hp with ⟨-, h2⟩ | ⟨-, h2⟩
    · rw [h2] at hu
      exact List.mem_append_right _ hu
    · rw [h2] at hu
      exact List.mem_append_left _ hu
  · intro p hp u hu
    rcases hadjl p hp with ⟨h1, h2⟩ | ⟨h1, h2⟩
    · rw [h2] at hu
      rw [cb_adj_right hu]
      exact h1
    · rw [h2] at hu
      rw [cb_adj_left (mem_cbLeft.mp hu)]
      exact h1
  · intro p hp
    rcases hadjl p hp with ⟨-, h2⟩ | ⟨-, h2⟩
    · rw [h2]
      exact cbRight_nodup m n
    · rw [h2]
      exact cbLeft_nodup m
  · intro p hp
    rcases hadjl p hp with ⟨h1, h2⟩ | ⟨h1, h2⟩
    · rw [h2]
      exact hdisj p.1 h1
    · rw [h2]
      intro hc
      exact hdisj p.1 hc h1

theorem cb_Bip (m n : Nat) :
    Bip (completeBipartite m n) (cbLeft m) (cbRight m n) := by
  intro p hp u hu
  rcases List.mem_append.mp hp with h0 | h0
  · obtain ⟨i, hi, rfl⟩ := List.mem_map.mp h0
    exact Or.inl ⟨hi, hu⟩
  · obtain ⟨j, hj, rfl⟩ := List.mem_map.mp h0
    exact Or.inr ⟨hj, hu⟩

theorem cb_sets (m n : Nat) :
    bipartite_sets (completeBipartite m n) (some (cbLeft m)) =
      Except.ok (cbLeft m, cbRight m n) := by
  unfold bipartite_sets
  have h1 : (cbLeft m).dedup = cbLeft m :=
    List.dedup_eq_self.mpr (cbLeft_nodup m)
  have h2 : (completeBipartite m n).nodes.filter
      (fun v => ¬ v ∈ cbLeft m) = cbRight m n := by
    show ((cbLeft m ++ cbRight m n).filter (fun v => ¬ v ∈ cbLeft m)) = _
    rw [List.filter_append]
    have h3 : (cbLeft m).filter (fun v => ¬ v ∈ cbLeft m) = [] := by
      rw [List.filter_eq_nil_iff]
      intro a ha
      simp [ha]
    have h4 : (cbRight m n).filter (fun v => ¬ v ∈ cbLeft m) =
        cbRight m n := by
      rw [List.filter_eq_self]
      intro a ha
      have h5 := (mem_cbRight.mp ha).1
      simp only [decide_eq_true_eq]
      intro hc
      have h6 := mem_cbLeft.mp hc
      omega
    rw [h3, h4, List.nil_append]
  show Except.ok ((cbLeft m).dedup, (completeBipartite m n).nodes.filter
    (fun v => ¬ v ∈ cbLeft m)) = Except.ok (cbLeft m, cbRight m n)
  rw [h1, h2]

theorem bfsLoop_nil {G : NXGraph} {rm : Nat → Option Nat} :
    ∀ (fuel : Nat) (dist : Option Nat → Option Nat),
    bfsLoop G rm fuel [] dist = dist := by
  intro fuel dist
  match fuel with
  | 0 => rfl
  | f + 1 => rfl

/-- A scan whose children are all matched neither touches the sentinel
distance nor enqueues anything but match partners. -/
theorem bfsScan_nomiss {rm : Nat → Option Nat} {v : Option Nat} :
    ∀ (us : List Nat) (dist : Option Nat → Option Nat)
      (q : List (Option Nat)),
    (∀ u ∈ us, rm u ≠ none) →
    (bfsScan rm v us dist q).1 none = dist none ∧
    (∀ e ∈ (bfsScan rm v us dist q).2,
      e ∈ q ∨ ∃ u w, u ∈ us ∧ rm u = some w ∧ e = some w) := by
  intro us
  induction us with
  | nil =>
    intro dist q _
    exact ⟨rfl, fun e he => Or.inl he⟩
  | cons u us ih =>
    intro dist q hm
    rw [bfsScan]
    by_cases hg : dist (rm u) = none
    · rw [if_pos hg]
      obtain ⟨ih1, ih2⟩ := ih (updD dist (rm u) (dmap1 (dist v)))
        (q ++ [rm u]) (fun u2 hu2 => hm u2 (List.mem_cons_of_mem _ hu2))
      cases hrm : rm u with
      | none => exact absurd hrm (hm u (List.mem_cons_self _ _))
      | some w =>
        rw [hrm] at ih1 ih2
        constructor
        · rw [ih1, updD_ne _ _ _ none (fun hc => by cases hc)]
        · intro e he
          rcases ih2 e he with he0 | ⟨u2, w2, hu2, hrw2, hew2⟩
          · rcases List.mem_append.mp he0 with he1 | he1
            · exact Or.inl he1
            · rw [List.mem_singleton.mp he1]
              exact Or.inr ⟨u, w, List.mem_cons_self _ _, hrm, rfl⟩
          · exact Or.inr ⟨u2, w2, List.mem_cons_of_mem _ hu2, hrw2, hew2⟩
    · rw [if_neg hg]
      obtain ⟨ih1, ih2⟩ := ih dist q
        (fun u2 hu2 => hm u2 (List.mem_cons_of_mem _ hu2))
      refine ⟨ih1, fun e he => ?_⟩
      rcases ih2 e he with he0 | ⟨u2, w2, hu2, hrw2, hew2⟩
      · exact Or.inl he0
      · exact Or.inr ⟨u2, w2, List.mem_cons_of_mem _ hu2, hrw2, hew2⟩

/-- When every neighbour of every reachable queue node is matched, the
sentinel distance stays infinite through the whole breadth-first search. -/
theorem bfsLoop_none_stays {G : NXGraph} {rm : Nat → Option Nat}
    (hmatch : ∀ u w, rm u = some w → ∀ u2 ∈ G.adj w, rm u2 ≠ none) :
    ∀ (fuel : Nat) (queue : List (Option Nat))
      (dist : Option Nat → Option Nat),
    dist none = none →
    (∀ e ∈ queue, ∀ u ∈ adjO G e, rm u ≠ none) →
    bfsLoop G rm fuel queue dist none = none := by
  intro fuel
  induction fuel with
  | zero =>
    intro queue dist hnone _
    exact hnone
  | succ f ih =>
    intro queue dist hnone hq
    match queue with
    | [] => exact hnone
    | e :: rest =>
      rw [bfsLoop]
      by_cases hg : dlt (dist e) (dist none) = true
      · rw [if_pos hg]
        obtain ⟨h1, h2⟩ := bfsScan_nomiss (adjO G e) dist rest
          (hq e (List.mem_cons_self _ _))
        apply ih
        · rw [h1]
          exact hnone
        · intro e2 he2 u hu
          rcases h2 e2 he2 with he0 | ⟨u2, w2, hu2, hrw2, hew2⟩
          · exact hq e2 (List.mem_cons_of_mem _ he0) u hu
          · rw [hew2] at hu
            exact hmatch u2 w2 hrw2 u hu
      · rw [if_neg hg]
        exact ih rest dist hnone
          (fun e2 he2 => hq e2 (List.mem_cons_of_mem _ he2))

/-- In the all-unmatched first phase, the very first scan pushes the sentinel
distance to `1`. -/
theorem bfsScan_allfree {rm : Nat → Option Nat} {v : Option Nat}
    (hrm : ∀ u, rm u = none) :
    ∀ (us : List Nat) (dist : Option Nat → Option Nat)
      (q : List (Option Nat)),
    us ≠ [] → dist none = none → dist v = some 0 →
    (bfsScan rm v us dist q).1 none = some 1 := by
  intro us
  match us with
  | [] => intro dist q hne; exact absurd rfl hne
  | u :: us2 =>
    intro dist q _ hnone hv
    rw [bfsScan, if_pos (by rw [hrm u]; exact hnone)]
    have hupd : (updD dist (rm u) (dmap1 (dist v))) none = some 1 := by
      rw [hrm u]
      unfold updD
      rw [if_pos rfl, hv]
      rfl
    rw [bfsScan_pres us2 _ _ none (by rw [hupd]; exact Option.some_ne_none _)]
    exact hupd

/-- First-phase breadth-first search: with everything unmatched, the sentinel
distance comes out as exactly `1` (provided there is a left node with a
neighbour). -/
theorem bfs_phase1_none {G : NXGraph} {left : List Nat} {x1 : Nat}
    {rest : List Nat} (hleft : left = x1 :: rest)
    (hadj : G.adj x1 ≠ []) :
    breadthFirstSearch G left (fun _ => none) (fun _ => none) none =
      some 1 := by
  unfold breadthFirstSearch
  have hq : initQueue left (fun _ => none) =
      some x1 :: (rest.filter (fun v => (fun _ => (none : Option Nat)) v =
        none)).map some := by
    unfold initQueue
    rw [hleft, List.filter_cons_of_pos (by simp), List.map_cons]
  rw [hq]
  have hd0 : initDist left (fun _ => none) (some x1) = some 0 := by
    show (if x1 ∈ left ∧ (none : Option Nat) = none
      then some 0 else none) = some 0
    rw [if_pos ⟨by rw [hleft]; exact List.mem_cons_self _ _, rfl⟩]
  have hdn : initDist left (fun _ => none) none = none := rfl
  have hfuel : 2 * left.length + 2 = (2 * left.length + 1) + 1 := by omega
  rw [hfuel, bfsLoop, if_pos (by rw [hd0, hdn]; rfl)]
  have hscan := bfsScan_allfree (fun u => rfl) (adjO G (some x1))
    (initDist left (fun _ => none))
    ((rest.filter (fun v => (fun _ => (none : Option Nat)) v = none)).map
      some) hadj hdn hd0
  rw [bfsLoop_pres _ _ _ none (by rw [hscan]; exact Option.some_ne_none _)]
  exact hscan

/-- First-phase `depth_first_search` from an unmatched root whose distance is
`0` while the sentinel distance is `1` and every matched partner has distance
`0`: the search scans the root's children in order, skips matched ones, and
either matches the first unmatched child or fails having found none. -/
theorem dfs_simpleA (G : NXGraph) (v : Nat) :
    ∀ (us : List Nat) (fuel : Nat) (st : HKSt),
    us.length + 2 ≤ fuel →
    st.dist (some v) = some 0 →
    st.dist none = some 1 →
    (∀ u ∈ us, ∀ w, st.rm u = some w → st.dist (some w) = some 0) →
    ((∀ u ∈ us, st.rm u ≠ none) →
      dfsRun G fuel [(v, us)] st =
        (false, { st with dist := updD st.dist (some v) none })) ∧
    (∀ u0 ∈ us, st.rm u0 = none →
      ∃ u, u ∈ us ∧ st.rm u = none ∧
        dfsRun G fuel [(v, us)] st =
          (true, HKSt.mk (updF st.lm v (some u)) (updF st.rm u (some v))
            st.dist)) := by
  intro us
  induction us with
  | nil =>
    intro fuel st hfuel hv hnone hmat
    match fuel, hfuel with
    | f + 1, _ =>
      constructor
      · intro _
        rw [dfsRun]
      · intro u0 hu0
        cases hu0
  | cons u us2 ih =>
    intro fuel st hfuel hv hnone hmat
    match fuel, hfuel with
    | f + 1, hfuel =>
      by_cases hru : st.rm u = none
      · have hguard : st.dist (st.rm u) = dmap1 (st.dist (some v)) := by
          rw [hru, hnone, hv]
          rfl
        have hrun : dfsRun G (f + 1) [(v, u :: us2)] st =
            (true, HKSt.mk (updF st.lm v (some u)) (updF st.rm u (some v))
              st.dist) := by
          rw [dfsRun, if_pos hguard]
          simp only [hru]
          rfl
        constructor
        · intro hall
          exact absurd hru (hall u (List.mem_cons_self _ _))
        · intro u0 hu0 hu0rm
          exact ⟨u, List.mem_cons_self _ _, hru, hrun⟩
      · obtain ⟨w, hw⟩ := Option.ne_none_iff_exists'.mp hru
        have hguard : ¬ (st.dist (st.rm u) = dmap1 (st.dist (some v))) := by
          rw [hw, hmat u (List.mem_cons_self _ _) w hw, hv]
          intro hc
          cases hc
        obtain ⟨ih1, ih2⟩ := ih f st (by
            simp only [List.length_cons] at hfuel
            omega) hv hnone
          (fun u2 hu2 => hmat u2 (List.mem_cons_of_mem _ hu2))
        constructor
        · intro hall
          rw [dfsRun, if_neg hguard]
          exact ih1 (fun u2 hu2 => hall u2 (List.mem_cons_of_mem _ hu2))
        · intro u0 hu0 hu0rm
          have hu0us2 : u0 ∈ us2 := by
            rcases List.mem_cons.mp hu0 with h0 | h0
            · rw [h0] at hu0rm
              exact absurd hu0rm hru
            · exact h0
          obtain ⟨u3, hu3, hu3rm, hu3run⟩ := ih2 u0 hu0us2 hu0rm
          refine ⟨u3, List.mem_cons_of_mem _ hu3, hu3rm, ?_⟩
          rw [dfsRun, if_neg hguard]
          exact hu3run

theorem filter_all_length {l : List Nat} {p : Nat → Bool}
    (h : ∀ x ∈ l, p x = true) : (l.filter p).length = l.length := by
  rw [List.filter_eq_self.mpr h]

/-- Updating one absent key of a dictionary grows the keyed filter count by
exactly one. -/
theorem filter_updF_succ {l : List Nat} (hnd : l.Nodup) {x : Nat}
    (hx : x ∈ l) {f : Nat → Option Nat} (hfx : f x = none) (c : Nat) :
    (l.filter (fun z => updF f x (some c) z ≠ none)).length =
      (l.filter (fun z => f z ≠ none)).length + 1 := by
  induction l with
  | nil => cases hx
  | cons a t iht =>
    obtain ⟨hanot, hndt⟩ := List.nodup_cons.mp hnd
    rcases List.mem_cons.mp hx with h0 | h0
    · rw [← h0] at hanot
      rw [List.filter_cons_of_pos (by
          simp only [decide_eq_true_eq, updF, ← h0, if_pos rfl]
          exact Option.some_ne_none _),
        List.filter_cons_of_neg (by
          simp only [decide_eq_true_eq, ← h0, hfx, not_not]),
        List.length_cons]
      have hcongr : t.filter (fun z => updF f x (some c) z ≠ none) =
          t.filter (fun z => f z ≠ none) := by
        apply List.filter_congr
        intro z hz
        have hzx : z ≠ x := fun hc => hanot (hc ▸ hz)
        simp only [decide_eq_true_eq, updF, if_neg hzx]
      rw [hcongr]
    · have hax : a ≠ x := fun hc => hanot (hc ▸ h0)
      have hp1 : decide (updF f x (some c) a ≠ none) =
          decide (f a ≠ none) := by
        simp only [updF, if_neg hax]
      by_cases hfa : f a ≠ none
      · have ha2 : decide (f a ≠ none) = true := decide_eq_true hfa
        have ha1 : decide (updF f x (some c) a ≠ none) = true := by
          rw [hp1]
          exact ha2
        rw [List.filter_cons_of_pos (by exact ha1), List.filter_cons_of_pos (by exact ha2),
          List.length_cons, List.length_cons, iht hndt h0]
      · have ha2 : ¬ decide (f a ≠ none) = true := by
          simp [hfa]
        have ha1 : ¬ decide (updF f x (some c) a ≠ none) = true := by
          rw [hp1]
          exact ha2
        rw [List.filter_cons_of_neg (by exact ha1), List.filter_cons_of_neg (by exact ha2),
          iht hndt h0]

theorem filterMap_pairs_length (l : List Nat) (f : Nat → Option Nat) :
    (l.filterMap (fun v => (f v).map (fun u => (v, u)))).length =
      (l.filter (fun v => f v ≠ none)).length := by
  induction l with
  | nil => rfl
  | cons v t ih =>
    rw [List.filterMap_cons]
    cases hfv : f v with
    | none =>
      simp only [Option.map_none']
      rw [List.filter_cons_of_neg (by simp [hfv]), ih]
    | some u =>
      simp only [Option.map_some']
      rw [List.filter_cons_of_pos (by simp [hfv]), List.length_cons,
        List.length_cons, ih]

theorem updF_ne (f : Nat → Option Nat) (k : Nat) (val : Option Nat)
    (x : Nat) (hx : x ≠ k) : updF f k val x = f x := by
  unfold updF
  rw [if_neg hx]

theorem cbRight_length (m n : Nat) : (cbRight m n).length = n := by
  unfold cbRight
  rw [List.length_map, List.length_range]

/-- The first phase of Hopcroft–Karp on `K(m, n)` greedily matches left
roots to so-far-unmatched right nodes: after processing the remaining roots
`ls`, both matched counts equal `min (matched + |ls|) n`. -/
theorem phase1_count (m n : Nat) (dfuel : Nat) (hdf : n + 2 ≤ dfuel) :
    ∀ (ls : List Nat) (st : HKSt),
    ls.Nodup →
    (∀ v ∈ ls, v ∈ cbLeft m) →
    (∀ v ∈ ls, st.lm v = none) →
    (∀ v ∈ ls, st.dist (some v) = some 0) →
    st.dist none = some 1 →
    (∀ u w, st.rm u = some w → st.dist (some w) = some 0) →
    (∀ u w, st.rm u = some w → st.lm w = some u) →
    (∀ u w, st.rm u = some w → w ∈ cbLeft m) →
    ((cbLeft m).filter (fun z => st.lm z ≠ none)).length =
      ((cbRight m n).filter (fun z => st.rm z ≠ none)).length →
    ((cbLeft m).filter (fun z =>
        (phaseLoop (completeBipartite m n) dfuel ls st).lm z ≠
          none)).length =
      min (((cbRight m n).filter (fun z => st.rm z ≠ none)).length +
        ls.length) n ∧
    ((cbRight m n).filter (fun z =>
        (phaseLoop (completeBipartite m n) dfuel ls st).rm z ≠
          none)).length =
      min (((cbRight m n).filter (fun z => st.rm z ≠ none)).length +
        ls.length) n ∧
    (∀ u w, (phaseLoop (completeBipartite m n) dfuel ls st).rm u = some w →
      (phaseLoop (completeBipartite m n) dfuel ls st).lm w = some u ∧
      w ∈ cbLeft m) := by
  intro ls
  induction ls with
  | nil =>
    intro st _ _ _ _ _ _ hrmlm hrmw hcnt
    have hbound : ((cbRight m n).filter
        (fun z => st.rm z ≠ none)).length ≤ n := by
      have := List.length_filter_le (fun z => decide (st.rm z ≠ none))
        (cbRight m n)
      rw [cbRight_length] at this
      exact this
    rw [phaseLoop]
    refine ⟨?_, ?_, fun u w hw => ⟨hrmlm u w hw, hrmw u w hw⟩⟩
    · rw [hcnt]
      simp only [List.length_nil]
      omega
    · simp only [List.length_nil]
      omega
  | cons v ls2 ih =>
    intro st hnd hls hlm hdist0 hdn hrmd hrmlm hrmw hcnt
    obtain ⟨hvnot, hndt⟩ := List.nodup_cons.mp hnd
    have hvm : v < m := mem_cbLeft.mp (hls v (List.mem_cons_self _ _))
    have hfuel2 : (cbRight m n).length + 2 ≤ dfuel := by
      rw [cbRight_length]
      exact hdf
    obtain ⟨hdfsF, hdfsT⟩ := dfs_simpleA (completeBipartite m n) v
      (cbRight m n) dfuel st hfuel2
      (hdist0 v (List.mem_cons_self _ _)) hdn
      (fun u _ w hw => hrmd u w hw)
    rw [phaseLoop, if_pos (hlm v (List.mem_cons_self _ _)),
      cb_adj_left hvm]
    by_cases hfull : ∀ u ∈ cbRight m n, st.rm u ≠ none
    · have hR : ((cbRight m n).filter
          (fun z => st.rm z ≠ none)).length = n := by
        rw [filter_all_length (fun x hx => decide_eq_true (hfull x hx)),
          cbRight_length]
      rw [hdfsF hfull]
      have hih := ih { st with dist := updD st.dist (some v) none }
        hndt (fun z hz => hls z (List.mem_cons_of_mem _ hz))
        (fun z hz => hlm z (List.mem_cons_of_mem _ hz))
        (by
          intro z hz
          show updD st.dist (some v) none (some z) = some 0
          rw [updD_ne _ _ _ _ (by
            intro hc
            rw [Option.some.inj hc] at hz
            exact hvnot hz)]
          exact hdist0 z (List.mem_cons_of_mem _ hz))
        (by
          show updD st.dist (some v) none none = some 1
          rw [updD_ne _ _ _ _ (fun hc => by cases hc)]
          exact hdn)
        (by
          intro u w hw
          have hw2 : st.rm u = some w := hw
          show updD st.dist (some v) none (some w) = some 0
          have hwv : w ≠ v := by
            intro hc
            rw [hc] at hw2
            have h2 := hrmlm u v hw2
            rw [hlm v (List.mem_cons_self _ _)] at h2
            cases h2
          rw [updD_ne _ _ _ _ (fun hc => hwv (Option.some.inj hc))]
          exact hrmd u w hw2)
        hrmlm hrmw hcnt
      obtain ⟨c1, c2, c3⟩ := hih
      refine ⟨?_, ?_, c3⟩
      · rw [c1]
        simp only [List.length_cons]
        omega
      · rw [c2]
        simp only [List.length_cons]
        omega
    · have hex : ∃ u0 ∈ cbRight m n, st.rm u0 = none := by
        by_contra hc
        push_neg at hc
        exact hfull (fun u hu => hc u hu)
      obtain ⟨u0, hu0, hu0rm⟩ := hex
      obtain ⟨ustar, hustar, hustarrm, hrun⟩ := hdfsT u0 hu0 hu0rm
      rw [hrun]
      have hwne : ∀ u w, st.rm u = some w → w ≠ v := by
        intro u w hw hc
        rw [hc] at hw
        have := hrmlm u v hw
        rw [hlm v (List.mem_cons_self _ _)] at this
        cases this
      have hih := ih (HKSt.mk (updF st.lm v (some ustar))
          (updF st.rm ustar (some v)) st.dist)
        hndt (fun z hz => hls z (List.mem_cons_of_mem _ hz))
        (by
          intro z hz
          show updF st.lm v (some ustar) z = none
          rw [updF_ne _ _ _ _ (by
            intro hc
            rw [hc] at hz
            exact hvnot hz)]
          exact hlm z (List.mem_cons_of_mem _ hz))
        (fun z hz => hdist0 z (List.mem_cons_of_mem _ hz))
        hdn
        (by
          intro u w hw
          have hw2 : updF st.rm ustar (some v) u = some w := hw
          show st.dist (some w) = some 0
          by_cases hu : u = ustar
          · rw [hu] at hw2
            unfold updF at hw2
            rw [if_pos rfl] at hw2
            rw [← Option.some.inj hw2]
            exact hdist0 v (List.mem_cons_self _ _)
          · rw [updF_ne _ _ _ _ hu] at hw2
            exact hrmd u w hw2)
        (by
          intro u w hw
          have hw2 : updF st.rm ustar (some v) u = some w := hw
          show updF st.lm v (some ustar) w = some u
          by_cases hu : u = ustar
          · rw [hu] at hw2
            unfold updF at hw2
            rw [if_pos rfl] at hw2
            obtain rfl := Option.some.inj hw2
            unfold updF
            rw [if_pos rfl, hu]
          · rw [updF_ne _ _ _ _ hu] at hw2
            rw [updF_ne _ _ _ _ (hwne u w hw2)]
            exact hrmlm u w hw2)
        (by
          intro u w hw
          have hw2 : updF st.rm ustar (some v) u = some w := hw
          by_cases hu : u = ustar
          · rw [hu] at hw2
            unfold updF at hw2
            rw [if_pos rfl] at hw2
            rw [← Option.some.inj hw2]
            exact hls v (List.mem_cons_self _ _)
          · rw [updF_ne _ _ _ _ hu] at hw2
            exact hrmw u w hw2)
        (by
          show ((cbLeft m).filter
              (fun z => updF st.lm v (some ustar) z ≠ none)).length =
            ((cbRight m n).filter
              (fun z => updF st.rm ustar (some v) z ≠ none)).length
          rw [filter_updF_succ (cbLeft_nodup m) (mem_cbLeft.mpr hvm)
              (hlm v (List.mem_cons_self _ _)) ustar,
            filter_updF_succ (cbRight_nodup m n) hustar hustarrm v, hcnt])
      obtain ⟨c1, c2, c3⟩ := hih
      have hc1R : ((cbRight m n).filter
          (fun z => updF st.rm ustar (some v) z ≠ none)).length =
          ((cbRight m n).filter (fun z => st.rm z ≠ none)).length + 1 :=
        filter_updF_succ (cbRight_nodup m n) hustar hustarrm v
      refine ⟨?_, ?_, c3⟩
      · rw [c1, hc1R]
        simp only [List.length_cons]
        omega
      · rw [c2, hc1R]
        simp only [List.length_cons]
        omega

theorem cbLeft_length (m : Nat) : (cbLeft m).length = m := by
  unfold cbLeft
  rw [List.length_range]

theorem gWeight_bound {G : NXGraph} {v : Nat} (hv : v ∈ G.nodes) :
    2 + (G.adj v).length ≤ gWeight G := by
  unfold gWeight
  have h : ∀ l : List Nat, v ∈ l →
      2 + (G.adj v).length ≤ (l.map (fun x => 2 + (G.adj x).length)).sum := by
    intro l
    induction l with
    | nil =>
      intro hc
      cases hc
    | cons a t ih =>
      intro hmem
      rw [List.map_cons, List.sum_cons]
      rcases List.mem_cons.mp hmem with h0 | h0
      · rw [h0]
        exact Nat.le_add_right _ _
      · calc 2 + (G.adj v).length ≤ _ := ih h0
          _ ≤ _ := Nat.le_add_left _ _
  exact h G.nodes hv

theorem filter_len_all {l : List Nat} {p : Nat → Bool}
    (h : (l.filter p).length = l.length) : ∀ x ∈ l, p x = true := by
  induction l with
  | nil =>
    intro x hx
    cases hx
  | cons a t ih =>
    intro x hx
    by_cases hpa : p a = true
    · rw [List.filter_cons_of_pos (by exact hpa), List.length_cons,
        List.length_cons] at h
      rcases List.mem_cons.mp hx with h0 | h0
      · rw [h0]
        exact hpa
      · exact ih (Nat.succ_injective h) x h0
    · exfalso
      rw [List.filter_cons_of_neg (by exact hpa), List.length_cons] at h
      have := List.length_filter_le p t
      omega

/-- The Hopcroft–Karp outer loop on `K(m, n)`: the first phase greedily
matches `min m n` pairs and the second breadth-first search fails, so the
final match dictionaries have exactly `min m n` entries on each side. -/
theorem hkLoop_cb (m n : Nat) :
    ((cbLeft m).filter (fun z =>
      (hkLoop (completeBipartite m n) (cbLeft m)
        (hkDfsFuel (completeBipartite m n) (cbLeft m))
        ((cbLeft m).length + 1) (fun _ => none) (fun _ => none)).1 z ≠
        none)).length = min m n ∧
    ((cbRight m n).filter (fun z =>
      (hkLoop (completeBipartite m n) (cbLeft m)
        (hkDfsFuel (completeBipartite m n) (cbLeft m))
        ((cbLeft m).length + 1) (fun _ => none) (fun _ => none)).2 z ≠
        none)).length = min m n := by
  have hzero : ∀ l : List Nat,
      (l.filter (fun z => (fun _ => (none : Option Nat)) z ≠ none)).length =
        0 := by
    intro l
    rw [List.filter_eq_nil_iff.mpr (by
      intro a ha
      simp)]
    rfl
  match m with
  | 0 =>
    rw [hkLoop]
    have hbfs : breadthFirstSearch (completeBipartite 0 n) (cbLeft 0)
        (fun _ => none) (fun _ => none) none = none := by
      unfold breadthFirstSearch initQueue
      show bfsLoop _ _ _ [] _ none = none
      rw [bfsLoop_nil]
      rfl
    rw [if_neg (by rw [hbfs]; exact fun hc => hc rfl)]
    constructor
    · rw [hzero, Nat.zero_min]
    · rw [hzero, Nat.zero_min]
  | m0 + 1 =>
    have hql : ∀ (lm : Nat → Option Nat), ∀ e ∈ initQueue (cbLeft (m0 + 1))
        lm, ∃ v, v ∈ cbLeft (m0 + 1) ∧ e = some v := by
      intro lm e he
      unfold initQueue at he
      obtain ⟨v, hv, rfl⟩ := List.mem_map.mp he
      exact ⟨v, (List.mem_filter.mp hv).1, rfl⟩
    match n with
    | 0 =>
      rw [hkLoop]
      have hbfs : breadthFirstSearch (completeBipartite (m0 + 1) 0)
          (cbLeft (m0 + 1)) (fun _ => none) (fun _ => none) none = none := by
        unfold breadthFirstSearch
        apply bfsLoop_none_stays
        · intro u w hw
          cases hw
        · rfl
        · intro e he u hu
          obtain ⟨v, hv, rfl⟩ := hql _ e he
          rw [show adjO (completeBipartite (m0 + 1) 0) (some v) =
              (completeBipartite (m0 + 1) 0).adj v from rfl,
            cb_adj_left (mem_cbLeft.mp hv)] at hu
          cases hu
      rw [if_neg (by rw [hbfs]; exact fun hc => hc rfl)]
      constructor
      · rw [hzero]
        rw [Nat.min_zero]
      · rw [hzero]
        rw [Nat.min_zero]
    | n0 + 1 =>
      have hGnodes : (0 : Nat) ∈ (completeBipartite (m0 + 1) (n0 + 1)).nodes := by
        show (0 : Nat) ∈ cbLeft (m0 + 1) ++ cbRight (m0 + 1) (n0 + 1)
        exact List.mem_append_left _ (mem_cbLeft.mpr (Nat.succ_pos m0))
      have hdf : (n0 + 1) + 2 ≤ hkDfsFuel (completeBipartite (m0 + 1) (n0 + 1))
          (cbLeft (m0 + 1)) := by
        have h1 := gWeight_bound hGnodes
        rw [cb_adj_left (Nat.succ_pos m0), cbRight_length] at h1
        unfold hkDfsFuel
        omega
      have hbfs1 : breadthFirstSearch (completeBipartite (m0 + 1) (n0 + 1))
          (cbLeft (m0 + 1)) (fun _ => none) (fun _ => none) none =
          some 1 := by
        apply @bfs_phase1_none (completeBipartite (m0 + 1) (n0 + 1))
          (cbLeft (m0 + 1)) 0 ((List.range m0).map Nat.succ)
        · show List.range (m0 + 1) = _
          exact List.range_succ_eq_map m0
        · rw [cb_adj_left (Nat.succ_pos m0)]
          intro hc
          have := cbRight_length (m0 + 1) (n0 + 1)
          rw [hc] at this
          simp at this
      rw [hkLoop, if_pos (by rw [hbfs1]; exact Option.some_ne_none _)]
      obtain ⟨c1, c2, c3⟩ := phase1_count (m0 + 1) (n0 + 1)
        (hkDfsFuel (completeBipartite (m0 + 1) (n0 + 1)) (cbLeft (m0 + 1)))
        hdf (cbLeft (m0 + 1))
        ⟨fun _ => none, fun _ => none,
          breadthFirstSearch (completeBipartite (m0 + 1) (n0 + 1))
            (cbLeft (m0 + 1)) (fun _ => none) (fun _ => none)⟩
        (cbLeft_nodup _) (fun v hv => hv)
        (fun v hv => rfl)
        (fun v hv => breadthFirstSearch_roots hv rfl)
        hbfs1
        (fun u w hw => by cases hw)
        (fun u w hw => by cases hw)
        (fun u w hw => by cases hw)
        (by rw [hzero, hzero])
      rw [hzero, Nat.zero_add, cbLeft_length] at c1 c2
      set st1 := phaseLoop (completeBipartite (m0 + 1) (n0 + 1))
        (hkDfsFuel (completeBipartite (m0 + 1) (n0 + 1)) (cbLeft (m0 + 1)))
        (cbLeft (m0 + 1))
        ⟨fun _ => none, fun _ => none,
          breadthFirstSearch (completeBipartite (m0 + 1) (n0 + 1))
            (cbLeft (m0 + 1)) (fun _ => none) (fun _ => none)⟩ with hst1
      have hbfs2 : breadthFirstSearch (completeBipartite (m0 + 1) (n0 + 1))
          (cbLeft (m0 + 1)) st1.lm st1.rm none = none := by
        by_cases hmn : m0 + 1 ≤ n0 + 1
        · have hall : ∀ v ∈ cbLeft (m0 + 1), st1.lm v ≠ none := by
            have hminm : min (m0 + 1) (n0 + 1) = m0 + 1 :=
              Nat.min_eq_left hmn
            rw [hminm] at c1
            have hlen := c1.trans (cbLeft_length (m0 + 1)).symm
            intro v hv
            have := filter_len_all hlen v hv
            exact of_decide_eq_true this
          have hq0 : initQueue (cbLeft (m0 + 1)) st1.lm = [] := by
            unfold initQueue
            rw [List.filter_eq_nil_iff.mpr (by
              intro a ha
              simp only [decide_eq_true_eq]
              exact hall a ha)]
            rfl
          unfold breadthFirstSearch
          rw [hq0, bfsLoop_nil]
          rfl
        · have hminn : min (m0 + 1) (n0 + 1) = n0 + 1 :=
            Nat.min_eq_right (by omega)
          rw [hminn] at c2
          have hlen := c2.trans (cbRight_length (m0 + 1) (n0 + 1)).symm
          have hall : ∀ u ∈ cbRight (m0 + 1) (n0 + 1), st1.rm u ≠ none := by
            intro u hu
            exact of_decide_eq_true (filter_len_all hlen u hu)
          unfold breadthFirstSearch
          apply bfsLoop_none_stays
          · intro u w hw u2 hu2
            obtain ⟨-, hwL⟩ := c3 u w hw
            rw [cb_adj_left (mem_cbLeft.mp hwL)] at hu2
            exact hall u2 hu2
          · rfl
          · intro e he u hu
            obtain ⟨v, hv, rfl⟩ := hql _ e he
            rw [show adjO (completeBipartite (m0 + 1) (n0 + 1)) (some v) =
                (completeBipartite (m0 + 1) (n0 + 1)).adj v from rfl,
              cb_adj_left (mem_cbLeft.mp hv)] at hu
            exact hall u hu
      rw [cbLeft_length, hkLoop, if_neg (by rw [hbfs2]; exact fun hc => hc rfl)]
      exact ⟨c1, c2⟩

/-- C2: on the complete bipartite graph `K(m, n)`, the matching returned by
`maximum_matching` matches exactly `min m n` left nodes (and, the dictionary
holding both directions, has `2 * min m n` entries in total). -/
theorem C2_complete_bipartite_min (m n : Nat) (M : List (Nat × Nat))
    (hM : maximum_matching (completeBipartite m n) (some (cbLeft m)) =
      Except.ok M) :
    ((cbLeft m).filter (fun v => mlookup M v ≠ none)).length = min m n ∧
    M.length = 2 * min m n := by
  unfold maximum_matching hopcroft_karp_matching at hM
  simp only [cb_sets m n] at hM
  injection hM with hMeq
  subst hMeq
  obtain ⟨c1, c2⟩ := hkLoop_cb m n
  set q := hkLoop (completeBipartite m n) (cbLeft m)
    (hkDfsFuel (completeBipartite m n) (cbLeft m))
    ((cbLeft m).length + 1) (fun _ => none) (fun _ => none) with hq
  have hchar : ∀ v ∈ cbLeft m,
      mlookup ((cbLeft m).filterMap
          (fun v => (q.1 v).map (fun u => (v, u))) ++
        (cbRight m n).filterMap
          (fun u => (q.2 u).map (fun v => (u, v)))) v = q.1 v := by
    intro v hv
    have hA : mlookup ((cbLeft m).filterMap
        (fun v => (q.1 v).map (fun u => (v, u)))) v = q.1 v := by
      rw [mlookup_filterMap _ _ (cbLeft_nodup m) v, if_pos hv]
    cases hq1 : q.1 v with
    | some y =>
      rw [mlookup_append_left _ (by rw [hA, hq1])]
    | none =>
      rw [mlookup_append_none _ (by rw [hA, hq1]),
        mlookup_filterMap _ _ (cbRight_nodup m n) v,
        if_neg (by
          intro hc
          have h1 := mem_cbLeft.mp hv
          have h2 := (mem_cbRight.mp hc).1
          omega)]
  constructor
  · have hcong : (cbLeft m).filter (fun v =>
        mlookup ((cbLeft m).filterMap
            (fun v => (q.1 v).map (fun u => (v, u))) ++
          (cbRight m n).filterMap
            (fun u => (q.2 u).map (fun v => (u, v)))) v ≠ none) =
        (cbLeft m).filter (fun z => q.1 z ≠ none) := by
      apply List.filter_congr
      intro v hv
      rw [hchar v hv]
    rw [hcong]
    exact c1
  · rw [List.length_append, filterMap_pairs_length, filterMap_pairs_length,
      c1, c2]
    omega

theorem C2_complete_bipartite_min_witness :
    maximum_matching (completeBipartite 2 3) (some (cbLeft 2)) =
      Except.ok [(0, 2), (1, 3), (2, 0), (3, 1)] ∧
    (((cbLeft 2).filter (fun v =>
      mlookup [(0, 2), (1, 3), (2, 0), (3, 1)] v ≠ none)).length = min 2 3 ∧
     ([(0, 2), (1, 3), (2, 0), (3, 1)] : List (Nat × Nat)).length =
       2 * min 2 3) :=
  ⟨by decide,
    C2_complete_bipartite_min 2 3 [(0, 2), (1, 3), (2, 0), (3, 1)]
      (by decide)⟩

/-! ### Characterisations of the alternating-path edge tests -/

theorem contains_true_iff (l : List Nat) (x : Nat) :
    l.contains x = true ↔ x ∈ l := by
  induction l with
  | nil => simp
  | cons a t ih => simp

theorem inEdgeSets_iff {M : List (Nat × Nat)} (hnd : (mkeys M).Nodup)
    (hsym : ∀ a b, mlookup M a = some b → mlookup M b = some a)
    {a b : Nat} : inEdgeSets M a b = true ↔ mlookup M a = some b := by
  constructor
  · intro h
    obtain ⟨p, hp, hcase⟩ := List.any_eq_true.mp h
    obtain ⟨x, y⟩ := p
    simp only [Bool.or_eq_true, Bool.and_eq_true, beq_iff_eq] at hcase
    rcases hcase with ⟨h1, h2⟩ | ⟨h1, h2⟩
    · subst h1; subst h2
      exact mem_mlookup hnd hp
    · subst h1; subst h2
      exact hsym _ _ (mem_mlookup hnd hp)
  · intro h
    refine List.any_eq_true.mpr ⟨(a, b), mlookup_mem h, ?_⟩
    simp

theorem matchedTest_iff {M : List (Nat × Nat)} (hnd : (mkeys M).Nodup)
    (hsym : ∀ a b, mlookup M a = some b → mlookup M b = some a)
    {a b : Nat} :
    matchedTest M a b = true ↔ (mlookup M a = some b ∧ a ≠ b) := by
  constructor
  · intro h
    obtain ⟨p, hp, hcase⟩ := List.any_eq_true.mp h
    obtain ⟨x, y⟩ := p
    simp only [Bool.and_eq_true, Bool.or_eq_true, beq_iff_eq,
      Bool.not_eq_true', beq_eq_false_iff_ne, ne_eq] at hcase
    obtain ⟨hxy, hcase⟩ := hcase
    rcases hcase with ⟨h1, h2⟩ | ⟨h1, h2⟩
    · subst h1; subst h2
      exact ⟨mem_mlookup hnd hp, hxy⟩
    · subst h1; subst h2
      exact ⟨hsym _ _ (mem_mlookup hnd hp), fun hc => hxy hc.symm⟩
  · rintro ⟨h, hne⟩
    refine List.any_eq_true.mpr ⟨(a, b), mlookup_mem h, ?_⟩
    simp [hne]

theorem unmatchedTest_iff {G : NXGraph} {M : List (Nat × Nat)}
    (hWF : G.WF) (hnd : (mkeys M).Nodup)
    (hsym : ∀ a b, mlookup M a = some b → mlookup M b = some a)
    {a b : Nat} :
    unmatchedTest G M a b = true ↔
      (b ∈ G.adj a ∧ ¬ mlookup M a = some b) := by
  unfold unmatchedTest
  simp only [Bool.and_eq_true, Bool.or_eq_true, Bool.not_eq_true',
    contains_true_iff]
  constructor
  · rintro ⟨hor, hie⟩
    refine ⟨?_, ?_⟩
    · rcases hor with h | h
      · exact h
      · exact WF.adj_symm hWF h
    · intro hc
      rw [(inEdgeSets_iff hnd hsym).mpr hc] at hie
      cases hie
  · rintro ⟨hadj, hnm⟩
    refine ⟨Or.inl hadj, ?_⟩
    cases hie : inEdgeSets M a b with
    | false => rfl
    | true => exact absurd ((inEdgeSets_iff hnd hsym).mp hie) hnm

theorem validEdge_edge {G : NXGraph} {M : List (Nat × Nat)}
    (hWF : G.WF) (hnd : (mkeys M).Nodup)
    (hsym : ∀ a b, mlookup M a = some b → mlookup M b = some a)
    (hedge : ∀ a b, mlookup M a = some b → b ∈ G.adj a)
    {a b : Nat} {d : Bool} (h : validEdge G M a b d = true) :
    b ∈ G.adj a := by
  cases d with
  | true =>
    simp only [validEdge, if_true] at h
    exact hedge _ _ ((matchedTest_iff hnd hsym).mp h).1
  | false =>
    simp only [validEdge, if_false] at h
    exact ((unmatchedTest_iff hWF hnd hsym).mp h).1

theorem side_cross {G : NXGraph} {L R : List Nat} (hB : Bip G L R)
    (hD : ∀ x ∈ L, x ∉ R) {v u : Nat} (h : u ∈ G.adj v) :
    u ∈ L ↔ ¬ v ∈ L := by
  rcases Bip.adj hB h with ⟨hv, hu⟩ | ⟨hv, hu⟩
  · exact ⟨fun hu2 => absurd hu (hD u hu2), fun hnv => absurd hv hnv⟩
  · exact ⟨fun _ => fun hvL => hD v hvL hv, fun _ => hu⟩

/-! ### Alternating-walk parity and side lemmas -/

theorem awalk_end_unmatched {G : NXGraph} {M : List (Nat × Nat)}
    (hnd : (mkeys M).Nodup)
    (hsym : ∀ a b, mlookup M a = some b → mlookup M b = some a) :
    ∀ (xs : List Nat) (a t : Nat) (d : Bool), AWalk G M a d xs →
      xs.getLast? = some t → t ∉ mkeys M →
      (xs.length % 2 = 1 → d = false) ∧ (xs.length % 2 = 0 → d = true) := by
  intro xs
  induction xs with
  | nil =>
    intro a t d _ hl _
    simp at hl
  | cons b rest ih =>
    intro a t d hw hl ht
    obtain ⟨hve, hw2⟩ := hw
    cases rest with
    | nil =>
      have htb : t = b := by simpa using hl.symm
      subst htb
      constructor
      · intro _
        cases d with
        | false => rfl
        | true =>
          simp only [validEdge, if_true] at hve
          have hk := ((matchedTest_iff hnd hsym).mp hve).1
          have hk2 := hsym _ _ hk
          have : t ∈ mkeys M := by
            rw [← mlookup_eq_none_iff] at ht
            · exact absurd hk2 (by rw [ht]; simp)
          exact absurd this ht
      · intro h0
        simp at h0
    | cons c rest2 =>
      have hl2 : (c :: rest2).getLast? = some t := by
        simpa using hl
      obtain ⟨h1, h2⟩ := ih b t (!d) hw2 hl2 ht
      constructor
      · intro hpar
        have : (c :: rest2).length % 2 = 0 := by
          simp only [List.length_cons] at hpar ⊢
          omega
        have := h2 this
        cases d with
        | false => rfl
        | true => simp at this
      · intro hpar
        have : (c :: rest2).length % 2 = 1 := by
          simp only [List.length_cons] at hpar ⊢
          omega
        have := h1 this
        cases d with
        | false => simp at this
        | true => rfl

theorem awalk_length_side {G : NXGraph} {M : List (Nat × Nat)}
    {L R : List Nat} (hWF : G.WF) (hnd : (mkeys M).Nodup)
    (hsym : ∀ a b, mlookup M a = some b → mlookup M b = some a)
    (hedge : ∀ a b, mlookup M a = some b → b ∈ G.adj a)
    (hB : Bip G L R) (hD : ∀ x ∈ L, x ∉ R) :
    ∀ (xs : List Nat) (a t : Nat) (d : Bool), AWalk G M a d xs →
      xs.getLast? = some t →
      (t ∈ L ↔ (a ∈ L ↔ xs.length % 2 = 0)) := by
  intro xs
  induction xs with
  | nil =>
    intro a t d _ hl
    simp at hl
  | cons b rest ih =>
    intro a t d hw hl
    obtain ⟨hve, hw2⟩ := hw
    have hab : b ∈ G.adj a := validEdge_edge hWF hnd hsym hedge hve
    have hcross : b ∈ L ↔ ¬ a ∈ L := side_cross hB hD hab
    cases rest with
    | nil =>
      have htb : t = b := by simpa using hl.symm
      subst htb
      have h10 : ¬ (([t] : List Nat).length % 2 = 0) := by
        simp only [List.length_cons, List.length_nil]
        omega
      tauto
    | cons c rest2 =>
      have hl2 : (c :: rest2).getLast? = some t := by
        simpa using hl
      have hih := ih b t (!d) hw2 hl2
      have hpar : ((c :: rest2).length % 2 = 0) ↔
          ¬ ((b :: c :: rest2).length % 2 = 0) := by
        simp only [List.length_cons]
        omega
      tauto

theorem getLast?_append_ne :
    ∀ (p q : List Nat), q ≠ [] → (p ++ q).getLast? = q.getLast? := by
  intro p
  induction p with
  | nil => intro q _; rfl
  | cons a p2 ih =>
    intro q hq
    rw [List.cons_append]
    cases hpq : p2 ++ q with
    | nil => exact absurd (List.append_eq_nil.mp hpq).2 hq
    | cons x xs =>
      rw [List.getLast?_cons_cons, ← hpq]
      exact ih q hq

theorem getLast?_snoc (xs : List Nat) (c : Nat) :
    (xs ++ [c]).getLast? = some c := by
  rw [getLast?_append_ne xs [c] (by simp)]
  rfl

theorem nodup_or_split :
    ∀ l : List Nat, l.Nodup ∨ ∃ p w s, l = p ++ w :: s ∧ w ∈ s := by
  intro l
  induction l with
  | nil => exact Or.inl List.nodup_nil
  | cons a t ih =>
    by_cases ha : a ∈ t
    · exact Or.inr ⟨[], a, t, rfl, ha⟩
    · rcases ih with h | ⟨p, w, s, heq, hw⟩
      · exact Or.inl (List.nodup_cons.mpr ⟨ha, h⟩)
      · exact Or.inr ⟨a :: p, w, s, by rw [heq, List.cons_append], hw⟩

theorem awalk_prefix {G : NXGraph} {M : List (Nat × Nat)} :
    ∀ (p q : List Nat) (a : Nat) (d : Bool),
      AWalk G M a d (p ++ q) → AWalk G M a d p := by
  intro p
  induction p with
  | nil => intro q a d _; exact trivial
  | cons b p2 ih =>
    intro q a d hw
    obtain ⟨hve, hw2⟩ := hw
    exact ⟨hve, ih q b (!d) hw2⟩

theorem awalk_suffix_pr {G : NXGraph} {M : List (Nat × Nat)}
    (hWF : G.WF) (hnd : (mkeys M).Nodup)
    (hsym : ∀ a b, mlookup M a = some b → mlookup M b = some a)
    (hedge : ∀ a b, mlookup M a = some b → b ∈ G.adj a)
    (pr : Nat → Bool) (hpr : ∀ x u, u ∈ G.adj x → pr u = !pr x) :
    ∀ (p : List Nat) (a b : Nat) (q : List Nat),
      AWalk G M a (pr a) (p ++ b :: q) → AWalk G M b (pr b) q := by
  intro p
  induction p with
  | nil =>
    intro a b q hw
    obtain ⟨hve, hw2⟩ := hw
    rw [← hpr a b (validEdge_edge hWF hnd hsym hedge hve)] at hw2
    exact hw2
  | cons c p2 ih =>
    intro a b q hw
    obtain ⟨hve, hw2⟩ := hw
    rw [← hpr a c (validEdge_edge hWF hnd hsym hedge hve)] at hw2
    exact ih c b q hw2

theorem awalk_join_pr {G : NXGraph} {M : List (Nat × Nat)}
    (hWF : G.WF) (hnd : (mkeys M).Nodup)
    (hsym : ∀ a b, mlookup M a = some b → mlookup M b = some a)
    (hedge : ∀ a b, mlookup M a = some b → b ∈ G.adj a)
    (pr : Nat → Bool) (hpr : ∀ x u, u ∈ G.adj x → pr u = !pr x) :
    ∀ (p : List Nat) (a w : Nat) (q : List Nat),
      AWalk G M a (pr a) (p ++ [w]) → AWalk G M w (pr w) q →
      AWalk G M a (pr a) (p ++ w :: q) := by
  intro p
  induction p with
  | nil =>
    intro a w q hw hq
    obtain ⟨hve, _⟩ := hw
    refine ⟨hve, ?_⟩
    rw [← hpr a w (validEdge_edge hWF hnd hsym hedge hve)]
    exact hq
  | cons c p2 ih =>
    intro a w q hw hq
    obtain ⟨hve, hw2⟩ := hw
    refine ⟨hve, ?_⟩
    have he := validEdge_edge hWF hnd hsym hedge hve
    rw [← hpr a c he] at hw2 ⊢
    exact ih c w q hw2 hq

theorem awalk_snoc {G : NXGraph} {M : List (Nat × Nat)} :
    ∀ (xs : List Nat) (a : Nat) (d : Bool) (c : Nat),
      AWalk G M a d xs →
      (xs = [] → validEdge G M a c d = true) →
      (∀ t, xs.getLast? = some t →
        validEdge G M t c (if xs.length % 2 = 0 then d else !d) = true) →
      AWalk G M a d (xs ++ [c]) := by
  intro xs
  induction xs with
  | nil =>
    intro a d c _ h1 _
    exact ⟨h1 rfl, trivial⟩
  | cons b rest ih =>
    intro a d c hw h1 h2
    obtain ⟨hve, hw2⟩ := hw
    refine ⟨hve, ?_⟩
    refine ih b (!d) c hw2 ?_ ?_
    · intro hr
      subst hr
      have := h2 b (by simp)
      simpa using this
    · intro t ht
      have hbt : (b :: rest).getLast? = some t := by
        cases rest with
        | nil => simp at ht
        | cons z zs => simpa using ht
      have := h2 t hbt
      rcases Nat.mod_two_eq_zero_or_one rest.length with hp | hp
      · rw [if_pos hp]
        have hq : ¬ ((b :: rest).length % 2 = 0) := by
          simp only [List.length_cons]; omega
        rw [if_neg hq] at this
        exact this
      · rw [if_neg (by omega : ¬ (rest.length % 2 = 0)), Bool.not_not]
        have hq : (b :: rest).length % 2 = 0 := by
          simp only [List.length_cons]; omega
        rw [if_pos hq] at this
        exact this

theorem awalk_extract {G : NXGraph} {M : List (Nat × Nat)}
    (hWF : G.WF) (hnd : (mkeys M).Nodup)
    (hsym : ∀ a b, mlookup M a = some b → mlookup M b = some a)
    (hedge : ∀ a b, mlookup M a = some b → b ∈ G.adj a)
    (pr : Nat → Bool) (hpr : ∀ x u, u ∈ G.adj x → pr u = !pr x) :
    ∀ (n : Nat) (xs : List Nat) (a t : Nat), xs.length ≤ n →
      AWalk G M a (pr a) xs → xs.getLast? = some t → a ≠ t →
      ∃ ys, AWalk G M a (pr a) ys ∧ ys.getLast? = some t ∧
        (a :: ys).Nodup := by
  intro n
  induction n with
  | zero =>
    intro xs a t hlen hw hl _
    cases xs with
    | nil => simp at hl
    | cons b r => simp at hlen
  | succ m ih =>
    intro xs a t hlen hw hl hat
    rcases nodup_or_split (a :: xs) with hnd2 | ⟨p, w, s, heq, hws⟩
    · exact ⟨xs, hw, hl, hnd2⟩
    · obtain ⟨s1, s2, hs⟩ := List.append_of_mem hws
      subst hs
      cases p with
      | nil =>
        rw [List.nil_append] at heq
        injection heq with ha hxs
        subst ha
        have hw2 : AWalk G M a (pr a) (s1 ++ a :: s2) := by
          rw [← hxs]
          exact hw
        have hw3 : AWalk G M a (pr a) s2 :=
          awalk_suffix_pr hWF hnd hsym hedge pr hpr s1 a a s2 hw2
        have hlq : xs.getLast? = (a :: s2).getLast? := by
          rw [hxs]
          exact getLast?_append_ne s1 (a :: s2) (by simp)
        cases s2 with
        | nil =>
          exfalso
          rw [hlq] at hl
          simp only [List.getLast?_singleton] at hl
          exact hat (Option.some.inj hl)
        | cons z zs =>
          have hl2 : (z :: zs).getLast? = some t := by
            rw [hlq] at hl
            simpa using hl
          have hlen2 : (z :: zs).length ≤ m := by
            have h3 := congrArg List.length hxs
            simp only [List.length_append, List.length_cons] at h3 ⊢
            omega
          exact ih (z :: zs) a t hlen2 hw3 hl2 hat
      | cons a2 p2 =>
        injection heq with ha hxs
        subst ha
        rw [List.append_eq] at hxs
        have hassoc : (p2 ++ w :: s1) ++ w :: s2 =
            p2 ++ w :: (s1 ++ w :: s2) := by
          rw [List.append_assoc, List.cons_append]
        have hwcast : AWalk G M a (pr a) ((p2 ++ w :: s1) ++ w :: s2) := by
          rw [hassoc, ← hxs]
          exact hw
        have hpre : AWalk G M a (pr a) ((p2 ++ [w])) := by
          refine awalk_prefix (p2 ++ [w]) (s1 ++ w :: s2) a (pr a) ?_
          have h2 : (p2 ++ [w]) ++ (s1 ++ w :: s2) =
              p2 ++ w :: (s1 ++ w :: s2) := by
            rw [List.append_assoc, List.singleton_append]
          rw [h2, ← hxs]
          exact hw
        have hsuf : AWalk G M w (pr w) s2 :=
          awalk_suffix_pr hWF hnd hsym hedge pr hpr (p2 ++ w :: s1) a w s2
            hwcast
        have hjoin : AWalk G M a (pr a) (p2 ++ w :: s2) :=
          awalk_join_pr hWF hnd hsym hedge pr hpr p2 a w s2 hpre hsuf
        have hl2 : (p2 ++ w :: s2).getLast? = some t := by
          have e1 : xs.getLast? = (w :: s2).getLast? := by
            rw [hxs, ← hassoc]
            exact getLast?_append_ne _ _ (by simp)
          have e2 : (p2 ++ w :: s2).getLast? = (w :: s2).getLast? :=
            getLast?_append_ne _ _ (by simp)
          rw [e2, ← e1]
          exact hl
        have hlen2 : (p2 ++ w :: s2).length ≤ m := by
          have h3 := congrArg List.length hxs
          simp only [List.length_append, List.length_cons] at h3 ⊢
          omega
        exact ih (p2 ++ w :: s2) a t hlen2 hjoin hl2 hat

/-! ### Soundness of the alternating depth-first search -/

theorem altDfs_true_walk {G : NXGraph} {M : List (Nat × Nat)}
    (targets : List Nat) (v : Nat) (d0 : Bool) :
    ∀ (fuel : Nat) (stack : List (Nat × List Nat × Bool)) (vis vis2 : List Nat),
      (∀ f ∈ stack, (f.1 = v ∧ f.2.2 = d0) ∨
        ∃ xs t, AWalk G M v d0 xs ∧ xs.getLast? = some t ∧ t = f.1 ∧
          (xs.length % 2 = 0 → f.2.2 = d0) ∧
          (xs.length % 2 = 1 → f.2.2 = !d0)) →
      altDfs G M targets fuel stack vis = (true, vis2) →
      ∃ xs t, AWalk G M v d0 xs ∧ xs.getLast? = some t ∧ t ∈ targets := by
  intro fuel
  induction fuel with
  | zero =>
    intro stack vis vis2 _ h
    rw [altDfs] at h
    cases h
  | succ f ih =>
    intro stack vis vis2 hinv h
    match stack with
    | [] =>
      rw [altDfs] at h
      cases h
    | (p, [], dp) :: rest =>
      rw [altDfs] at h
      exact ih rest vis vis2 (fun f hf => hinv f (List.mem_cons_of_mem _ hf)) h
    | (p, c :: cs, dp) :: rest =>
      rw [altDfs] at h
      by_cases hg : c ∉ vis ∧ validEdge G M p c dp = true
      · rw [if_pos hg] at h
        by_cases ht : c ∈ targets
        · rw [if_pos ht] at h
          rcases hinv (p, c :: cs, dp) (List.mem_cons_self _ _) with
            ⟨hp, hdp⟩ | ⟨xs, t, hwx, hlx, htp, hpar0, hpar1⟩
          · have hp2 : p = v := hp
            have hdp2 : dp = d0 := hdp
            refine ⟨[c], c, ⟨?_, trivial⟩, by simp, ht⟩
            rw [← hp2, ← hdp2]
            exact hg.2
          · have htp2 : t = p := htp
            refine ⟨xs ++ [c], c, ?_, getLast?_snoc xs c, ht⟩
            refine awalk_snoc xs v d0 c hwx ?_ ?_
            · intro hnil
              rw [hnil] at hlx
              simp at hlx
            · intro t2 hl2
              rw [hlx] at hl2
              rw [← (Option.some.inj hl2), htp2]
              rcases Nat.mod_two_eq_zero_or_one xs.length with he | he
              · rw [if_pos he]
                have hdd : dp = d0 := hpar0 he
                rw [← hdd]
                exact hg.2
              · rw [if_neg (by omega : ¬ xs.length % 2 = 0)]
                have hdd : dp = !d0 := hpar1 he
                rw [← hdd]
                exact hg.2
        · rw [if_neg ht] at h
          refine ih _ _ _ ?_ h
          intro f hf
          rcases List.mem_cons.mp hf with hfe | hf2
          · subst hfe
            rcases hinv (p, c :: cs, dp) (List.mem_cons_self _ _) with
              ⟨hp, hdp⟩ | ⟨xs, t, hwx, hlx, htp, hpar0, hpar1⟩
            · have hp2 : p = v := hp
              have hdp2 : dp = d0 := hdp
              refine Or.inr ⟨[c], c, ⟨?_, trivial⟩, by simp, rfl, ?_, ?_⟩
              · rw [← hp2, ← hdp2]
                exact hg.2
              · intro h0
                simp only [List.length_cons, List.length_nil] at h0
                omega
              · intro _
                show (!dp) = (!d0)
                rw [hdp2]
            · have htp2 : t = p := htp
              refine Or.inr ⟨xs ++ [c], c, ?_, getLast?_snoc xs c, rfl,
                ?_, ?_⟩
              · refine awalk_snoc xs v d0 c hwx ?_ ?_
                · intro hnil
                  rw [hnil] at hlx
                  simp at hlx
                · intro t2 hl2
                  rw [hlx] at hl2
                  rw [← (Option.some.inj hl2), htp2]
                  rcases Nat.mod_two_eq_zero_or_one xs.length with he | he
                  · rw [if_pos he]
                    have hdd : dp = d0 := hpar0 he
                    rw [← hdd]
                    exact hg.2
                  · rw [if_neg (by omega : ¬ xs.length % 2 = 0)]
                    have hdd : dp = !d0 := hpar1 he
                    rw [← hdd]
                    exact hg.2
              · intro heven
                have hodd : xs.length % 2 = 1 := by
                  simp only [List.length_append, List.length_cons,
                    List.length_nil] at heven
                  omega
                have hdd : dp = !d0 := hpar1 hodd
                show (!dp) = d0
                rw [hdd, Bool.not_not]
              · intro hodd2
                have heven : xs.length % 2 = 0 := by
                  simp only [List.length_append, List.length_cons,
                    List.length_nil] at hodd2
                  omega
                have hdd : dp = d0 := hpar0 heven
                show (!dp) = (!d0)
                rw [hdd]
          · rcases List.mem_cons.mp hf2 with hfe2 | hf3
            · subst hfe2
              rcases hinv (p, c :: cs, dp) (List.mem_cons_self _ _) with
                ⟨hp, hdp⟩ | ⟨xs, t, hwx, hlx, htp, hpar0, hpar1⟩
              · exact Or.inl ⟨hp, hdp⟩
              · exact Or.inr ⟨xs, t, hwx, hlx, htp, hpar0, hpar1⟩
            · exact hinv f (List.mem_cons_of_mem _ hf3)
      · rw [if_neg hg] at h
        refine ih _ _ _ ?_ h
        intro f hf
        rcases List.mem_cons.mp hf with hfe | hf2
        · subst hfe
          rcases hinv (p, c :: cs, dp) (List.mem_cons_self _ _) with
            ⟨hp, hdp⟩ | ⟨xs, t, hwx, hlx, htp, hpar0, hpar1⟩
          · exact Or.inl ⟨hp, hdp⟩
          · exact Or.inr ⟨xs, t, hwx, hlx, htp, hpar0, hpar1⟩
        · exact hinv f (List.mem_cons_of_mem _ hf2)

theorem isConnected_sound {G : NXGraph} {M : List (Nat × Nat)}
    {targets : List Nat} {v : Nat}
    (h : isConnectedByAltPath G M targets v = true) :
    ∃ d0 xs t, AWalk G M v d0 xs ∧ xs.getLast? = some t ∧ t ∈ targets := by
  unfold isConnectedByAltPath at h
  rw [Bool.or_eq_true] at h
  rcases h with h1 | h1
  · cases hrun : altDfs G M targets (dfsFuel G v) [(v, G.adj v, false)] [] with
    | mk b vis2 =>
      rw [hrun] at h1
      have hb : b = true := h1
      subst hb
      obtain ⟨xs, t, hw, hl, ht⟩ := altDfs_true_walk targets v false
        (dfsFuel G v) [(v, G.adj v, false)] [] vis2
        (by
          intro f hf
          rcases List.mem_cons.mp hf with hfe | hf2
          · subst hfe
            exact Or.inl ⟨rfl, rfl⟩
          · cases hf2)
        hrun
      exact ⟨false, xs, t, hw, hl, ht⟩
  · cases hrun : altDfs G M targets (dfsFuel G v) [(v, G.adj v, true)] [] with
    | mk b vis2 =>
      rw [hrun] at h1
      have hb : b = true := h1
      subst hb
      obtain ⟨xs, t, hw, hl, ht⟩ := altDfs_true_walk targets v true
        (dfsFuel G v) [(v, G.adj v, true)] [] vis2
        (by
          intro f hf
          rcases List.mem_cons.mp hf with hfe | hf2
          · subst hfe
            exact Or.inl ⟨rfl, rfl⟩
          · cases hf2)
        hrun
      exact ⟨true, xs, t, hw, hl, ht⟩

/-! ### Completeness of the alternating depth-first search -/

theorem sum_filter_drop :
    ∀ (l : List Nat) (c : Nat) (f : Nat → Nat) (vis : List Nat),
      l.Nodup → c ∈ l → c ∉ vis →
      ((l.filter (fun x => ¬ x ∈ c :: vis)).map f).sum + f c =
        ((l.filter (fun x => ¬ x ∈ vis)).map f).sum := by
  intro l
  induction l with
  | nil =>
    intro c f vis _ hc _
    cases hc
  | cons a t ih =>
    intro c f vis hnd hc hcv
    obtain ⟨hat, hndt⟩ := List.nodup_cons.mp hnd
    by_cases hac : a = c
    · subst hac
      rw [List.filter_cons_of_neg (by simp), List.filter_cons_of_pos
        (by simp [hcv])]
      have hcong : t.filter (fun x => ¬ x ∈ a :: vis) =
          t.filter (fun x => ¬ x ∈ vis) := by
        apply List.filter_congr
        intro x hx
        have hxa : x ≠ a := fun he => hat (he ▸ hx)
        simp [List.mem_cons, hxa]
      rw [hcong]
      simp only [List.map_cons, List.sum_cons]
      omega
    · have hc2 : c ∈ t := by
        rcases List.mem_cons.mp hc with he | h2
        · exact absurd he.symm hac
        · exact h2
      by_cases hav : a ∈ vis
      · rw [List.filter_cons_of_neg (by simp [hav]),
          List.filter_cons_of_neg (by simp [hav])]
        exact ih c f vis hndt hc2 hcv
      · rw [List.filter_cons_of_pos (by simp [List.mem_cons, hac, hav]),
          List.filter_cons_of_pos (by simp [hav])]
        simp only [List.map_cons, List.sum_cons]
        have := ih c f vis hndt hc2 hcv
        omega

theorem remWeight_nil_le (G : NXGraph) : remWeight G [] ≤ gWeight G := by
  unfold remWeight gWeight
  have hfe : G.nodes.filter (fun x => ¬ x ∈ ([] : List Nat)) = G.nodes := by
    apply List.filter_eq_self.mpr
    intro x _
    simp
  rw [hfe]
  apply List.sum_le_sum
  intro x _
  omega

theorem altDfs_false_closed {G : NXGraph} {M : List (Nat × Nat)}
    {targets : List Nat} (hWF : G.WF) (hnd : (mkeys M).Nodup)
    (hsym : ∀ a b, mlookup M a = some b → mlookup M b = some a)
    (hedge : ∀ a b, mlookup M a = some b → b ∈ G.adj a)
    (pr : Nat → Bool) (hpr : ∀ x u, u ∈ G.adj x → pr u = !pr x)
    (v : Nat) :
    ∀ (fuel : Nat) (stack : List (Nat × List Nat × Bool)) (vis vis2 : List Nat),
      stackWeight stack + remWeight G vis + 1 ≤ fuel →
      (∀ x ∈ vis, x ∈ G.nodes) →
      (∀ x ∈ vis, x ∉ targets) →
      (∀ g ∈ stack, g.2.2 = pr g.1 ∧ ∃ pre, pre ++ g.2.1 = G.adj g.1) →
      (∀ x, (x ∈ vis ∨ x = v) → ∀ c ∈ G.adj x,
        validEdge G M x c (pr x) = true →
        c ∈ vis ∨ ∃ g ∈ stack, g.1 = x ∧ c ∈ g.2.1) →
      altDfs G M targets fuel stack vis = (false, vis2) →
      (∀ x ∈ vis, x ∈ vis2) ∧ (∀ x ∈ vis2, x ∉ targets) ∧
      (∀ x, (x ∈ vis2 ∨ x = v) → ∀ c ∈ G.adj x,
        validEdge G M x c (pr x) = true → c ∈ vis2) := by
  intro fuel
  induction fuel with
  | zero =>
    intro stack vis vis2 hfuel _ _ _ _ _
    omega
  | succ f ih =>
    intro stack vis vis2 hfuel hvn hvt hframes hclosed h
    match stack with
    | [] =>
      rw [altDfs] at h
      injection h with h1 h2
      subst h2
      refine ⟨fun x hx => hx, hvt, ?_⟩
      intro x hx c hc hve
      rcases hclosed x hx c hc hve with h1 | ⟨g, hg, _⟩
      · exact h1
      · cases hg
    | (p, [], dp) :: rest =>
      rw [altDfs] at h
      refine ih rest vis vis2 ?_ hvn hvt
        (fun g hg => hframes g (List.mem_cons_of_mem _ hg)) ?_ h
      · simp only [stackWeight, List.map_cons, List.sum_cons,
          List.length_nil] at hfuel ⊢
        omega
      · intro x hx c hc hve
        rcases hclosed x hx c hc hve with h1 | ⟨g, hg, hg1, hg2⟩
        · exact Or.inl h1
        · rcases List.mem_cons.mp hg with hge | hgr
          · subst hge
            have hg2b : c ∈ ([] : List Nat) := hg2
            cases hg2b
          · exact Or.inr ⟨g, hgr, hg1, hg2⟩
    | (p, c :: cs, dp) :: rest =>
      rw [altDfs] at h
      have hframe0 := hframes (p, c :: cs, dp) (List.mem_cons_self _ _)
      have hdp : dp = pr p := hframe0.1
      have hpre0 : ∃ pre, pre ++ c :: cs = G.adj p := hframe0.2
      obtain ⟨pre, hpre⟩ := hpre0
      by_cases hg : c ∉ vis ∧ validEdge G M p c dp = true
      · rw [if_pos hg] at h
        by_cases ht : c ∈ targets
        · rw [if_pos ht] at h
          injection h with h1 h2
          cases h1
        · rw [if_neg ht] at h
          have hcp : c ∈ G.adj p := validEdge_edge hWF hnd hsym hedge hg.2
          have hcn : c ∈ G.nodes := (WF.adj_mem_nodes hWF hcp).2
          have hprc : pr c = !pr p := hpr p c hcp
          suffices hres : (∀ x ∈ c :: vis, x ∈ vis2) ∧
              (∀ x ∈ vis2, x ∉ targets) ∧
              (∀ x, (x ∈ vis2 ∨ x = v) → ∀ c2 ∈ G.adj x,
                validEdge G M x c2 (pr x) = true → c2 ∈ vis2) by
            exact ⟨fun x hx => hres.1 x (List.mem_cons_of_mem _ hx),
              hres.2.1, hres.2.2⟩
          refine ih _ _ _ ?_ ?_ ?_ ?_ ?_ h
          · have hdrop := sum_filter_drop G.nodes c
              (fun x => (G.adj x).length + 1) vis hWF.1 hcn hg.1
            simp only [stackWeight, remWeight, List.map_cons, List.sum_cons,
              List.length_cons] at hfuel hdrop ⊢
            omega
          · intro x hx
            rcases List.mem_cons.mp hx with he | h2
            · subst he; exact hcn
            · exact hvn x h2
          · intro x hx
            rcases List.mem_cons.mp hx with he | h2
            · subst he; exact ht
            · exact hvt x h2
          · intro g hgm
            rcases List.mem_cons.mp hgm with he | h2
            · subst he
              refine ⟨?_, ⟨[], rfl⟩⟩
              show (!dp) = pr c
              rw [hprc, hdp]
            · rcases List.mem_cons.mp h2 with he2 | h3
              · subst he2
                refine ⟨hdp, ⟨pre ++ [c], ?_⟩⟩
                rw [List.append_assoc, List.singleton_append]
                exact hpre
              · exact hframes g (List.mem_cons_of_mem _ h3)
          · intro x hx c2 hc2 hve2
            have hxcase : x = c ∨ (x ∈ vis ∨ x = v) := by
              rcases hx with hx | hx
              · rcases List.mem_cons.mp hx with he | h2
                · exact Or.inl he
                · exact Or.inr (Or.inl h2)
              · exact Or.inr (Or.inr hx)
            rcases hxcase with he | hold
            · subst he
              exact Or.inr ⟨(x, G.adj x, !dp), List.mem_cons_self _ _, rfl,
                hc2⟩
            · rcases hclosed x hold c2 hc2 hve2 with h3 | ⟨g, hgm, hg1, hg2⟩
              · exact Or.inl (List.mem_cons_of_mem _ h3)
              · rcases List.mem_cons.mp hgm with he2 | h4
                · subst he2
                  have hg1b : p = x := hg1
                  have hg2b : c2 ∈ c :: cs := hg2
                  rcases List.mem_cons.mp hg2b with he3 | h5
                  · subst he3
                    exact Or.inl (List.mem_cons_self _ _)
                  · exact Or.inr ⟨(p, cs, dp),
                      List.mem_cons_of_mem _ (List.mem_cons_self _ _),
                      hg1b, h5⟩
                · exact Or.inr ⟨g, List.mem_cons_of_mem _
                    (List.mem_cons_of_mem _ h4), hg1, hg2⟩
      · rw [if_neg hg] at h
        refine ih _ _ _ ?_ hvn hvt ?_ ?_ h
        · simp only [stackWeight, List.map_cons, List.sum_cons,
            List.length_cons] at hfuel ⊢
          omega
        · intro g hgm
          rcases List.mem_cons.mp hgm with he | h2
          · subst he
            refine ⟨hdp, ⟨pre ++ [c], ?_⟩⟩
            rw [List.append_assoc, List.singleton_append]
            exact hpre
          · exact hframes g (List.mem_cons_of_mem _ h2)
        · intro x hx c2 hc2 hve2
          rcases hclosed x hx c2 hc2 hve2 with h3 | ⟨g, hgm, hg1, hg2⟩
          · exact Or.inl h3
          · rcases List.mem_cons.mp hgm with he | h4
            · subst he
              have hg1b : p = x := hg1
              have hg2b : c2 ∈ c :: cs := hg2
              rcases List.mem_cons.mp hg2b with he3 | h5
              · subst he3
                by_cases hcv : c2 ∈ vis
                · exact Or.inl hcv
                · exfalso
                  apply hg
                  refine ⟨hcv, ?_⟩
                  rw [hdp, hg1b]
                  exact hve2
              · exact Or.inr ⟨(p, cs, dp), List.mem_cons_self _ _, hg1b, h5⟩
            · exact Or.inr ⟨g, List.mem_cons_of_mem _ h4, hg1, hg2⟩

theorem altDfs_false_no_walk {G : NXGraph} {M : List (Nat × Nat)}
    {targets : List Nat} (hWF : G.WF) (hnd : (mkeys M).Nodup)
    (hsym : ∀ a b, mlookup M a = some b → mlookup M b = some a)
    (hedge : ∀ a b, mlookup M a = some b → b ∈ G.adj a)
    (pr : Nat → Bool) (hpr : ∀ x u, u ∈ G.adj x → pr u = !pr x)
    (v : Nat) (vis2 : List Nat)
    (hcl : ∀ x, (x ∈ vis2 ∨ x = v) → ∀ c ∈ G.adj x,
      validEdge G M x c (pr x) = true → c ∈ vis2)
    (hvt : ∀ x ∈ vis2, x ∉ targets) :
    ∀ (xs : List Nat) (a : Nat), (a ∈ vis2 ∨ a = v) →
      AWalk G M a (pr a) xs → ∀ t, xs.getLast? = some t → t ∉ targets := by
  intro xs
  induction xs with
  | nil =>
    intro a _ _ t hl
    simp at hl
  | cons b rest ih =>
    intro a ha hw t hl
    obtain ⟨hve, hw2⟩ := hw
    have hb : b ∈ G.adj a := validEdge_edge hWF hnd hsym hedge hve
    have hbv : b ∈ vis2 := hcl a ha b hb hve
    have hprb : pr b = !pr a := hpr a b hb
    cases rest with
    | nil =>
      have htb : t = b := by simpa using hl.symm
      subst htb
      exact hvt t hbv
    | cons z zs =>
      refine ih b (Or.inl hbv) ?_ t (by simpa using hl)
      rw [hprb]
      exact hw2

theorem pr_flip {G : NXGraph} {L R : List Nat} (hB : Bip G L R)
    (hD : ∀ x ∈ L, x ∉ R) (v : Nat) (d0 : Bool) :
    ∀ x u, u ∈ G.adj x →
      (if (decide (u ∈ L)) = (decide (v ∈ L)) then d0 else !d0) =
      !(if (decide (x ∈ L)) = (decide (v ∈ L)) then d0 else !d0) := by
  intro x u hu
  have hcross : u ∈ L ↔ ¬ x ∈ L := side_cross hB hD hu
  by_cases hxL : x ∈ L
  · have huL : ¬ u ∈ L := fun h2 => (hcross.mp h2) hxL
    by_cases hvL : v ∈ L <;> simp [hxL, huL, hvL, Bool.not_not]
  · have huL : u ∈ L := hcross.mpr hxL
    by_cases hvL : v ∈ L <;> simp [hxL, huL, hvL, Bool.not_not]

theorem isConnected_complete {G : NXGraph} {M : List (Nat × Nat)}
    {L R : List Nat} (hWF : G.WF) (hnd : (mkeys M).Nodup)
    (hsym : ∀ a b, mlookup M a = some b → mlookup M b = some a)
    (hedge : ∀ a b, mlookup M a = some b → b ∈ G.adj a)
    (hB : Bip G L R) (hD : ∀ x ∈ L, x ∉ R)
    {targets : List Nat} {v : Nat} {d0 : Bool} {xs : List Nat} {t : Nat}
    (hw : AWalk G M v d0 xs) (hl : xs.getLast? = some t)
    (ht : t ∈ targets) :
    isConnectedByAltPath G M targets v = true := by
  by_contra hc
  rw [Bool.not_eq_true] at hc
  unfold isConnectedByAltPath at hc
  rw [Bool.or_eq_false_iff] at hc
  have hprf := pr_flip hB hD v d0
  have hv0 : (if (decide (v ∈ L)) = (decide (v ∈ L)) then d0 else !d0)
      = d0 := if_pos rfl
  have hrun0 : altDfs G M targets (dfsFuel G v) [(v, G.adj v, d0)] [] =
      ((altDfs G M targets (dfsFuel G v) [(v, G.adj v, d0)] []).1,
       (altDfs G M targets (dfsFuel G v) [(v, G.adj v, d0)] []).2) := rfl
  have hfst : (altDfs G M targets (dfsFuel G v) [(v, G.adj v, d0)] []).1 =
      false := by
    cases d0 with
    | false => exact hc.1
    | true => exact hc.2
  have hrun : altDfs G M targets (dfsFuel G v) [(v, G.adj v, d0)] [] =
      (false, (altDfs G M targets (dfsFuel G v) [(v, G.adj v, d0)] []).2) := by
    rw [hrun0, hfst]
  have hfuel : stackWeight [(v, G.adj v, d0)] + remWeight G [] + 1 ≤
      dfsFuel G v := by
    have := remWeight_nil_le G
    simp only [stackWeight, List.map_cons, List.map_nil, List.sum_cons,
      List.sum_nil, dfsFuel]
    omega
  obtain ⟨_, hvt2, hcl2⟩ := altDfs_false_closed hWF hnd hsym hedge
    (fun z => if (decide (z ∈ L)) = (decide (v ∈ L)) then d0 else !d0)
    hprf v (dfsFuel G v) [(v, G.adj v, d0)] []
    (altDfs G M targets (dfsFuel G v) [(v, G.adj v, d0)] []).2
    hfuel (fun x hx => absurd hx (List.not_mem_nil x))
    (fun x hx => absurd hx (List.not_mem_nil x))
    (by
      intro g hg
      rcases List.mem_cons.mp hg with he | h2
      · subst he
        exact ⟨hv0.symm, ⟨[], rfl⟩⟩
      · cases h2)
    (by
      intro x hx c hcadj hve
      rcases hx with hx | hx
      · cases hx
      · subst hx
        exact Or.inr ⟨(x, G.adj x, d0), List.mem_cons_self _ _, rfl, hcadj⟩)
    hrun
  have hnowalk := altDfs_false_no_walk hWF hnd hsym hedge
    (fun z => if (decide (z ∈ L)) = (decide (v ∈ L)) then d0 else !d0)
    hprf v _ hcl2 hvt2 xs v (Or.inr rfl)
    (by
      show AWalk G M v
        (if (decide (v ∈ L)) = (decide (v ∈ L)) then d0 else !d0) xs
      rw [hv0]
      exact hw) t hl
  exact hnowalk ht

/-! ### The reachable set `Z` and its closure properties -/

theorem mem_reach_iff {G : NXGraph} {M : List (Nat × Nat)} {L R : List Nat}
    (hWF : G.WF) (hnd : (mkeys M).Nodup)
    (hsym : ∀ a b, mlookup M a = some b → mlookup M b = some a)
    (hedge : ∀ a b, mlookup M a = some b → b ∈ G.adj a)
    (hB : Bip G L R) (hD : ∀ x ∈ L, x ∉ R)
    (targets : List Nat) (a : Nat) :
    a ∈ connectedByAlternatingPaths G M targets ↔
      a ∈ G.nodes ∧ (a ∈ targets ∨ ReachU G M targets a) := by
  unfold connectedByAlternatingPaths
  rw [List.mem_filter]
  constructor
  · rintro ⟨han, hpred⟩
    refine ⟨han, ?_⟩
    rw [decide_eq_true_eq] at hpred
    rcases hpred with h1 | h1
    · exact Or.inl h1
    · obtain ⟨d0, xs, t, hw, hl, ht⟩ := isConnected_sound h1
      exact Or.inr ⟨d0, xs, t, hw, hl, ht⟩
  · rintro ⟨han, hcase⟩
    refine ⟨han, ?_⟩
    rw [decide_eq_true_eq]
    rcases hcase with h1 | ⟨d0, xs, t, hw, hl, ht⟩
    · exact Or.inl h1
    · exact Or.inr (isConnected_complete hWF hnd hsym hedge hB hD hw hl ht)

theorem Z_closed {G : NXGraph} {M : List (Nat × Nat)} {L R : List Nat}
    (hWF : G.WF) (hnd : (mkeys M).Nodup)
    (hsym : ∀ a b, mlookup M a = some b → mlookup M b = some a)
    (hedge : ∀ a b, mlookup M a = some b → b ∈ G.adj a)
    (hB : Bip G L R) (hD : ∀ x ∈ L, x ∉ R)
    (U : List Nat) (hU : ∀ u ∈ U, u ∈ L ∧ ¬ u ∈ mkeys M)
    {a b : Nat} (haL : a ∈ L)
    (haZ : a ∈ connectedByAlternatingPaths G M U)
    (hab : b ∈ G.adj a) (hbR : b ∈ R) :
    b ∈ connectedByAlternatingPaths G M U := by
  have hbn : b ∈ G.nodes := (WF.adj_mem_nodes hWF hab).2
  rw [mem_reach_iff hWF hnd hsym hedge hB hD] at haZ ⊢
  obtain ⟨han, hacase⟩ := haZ
  refine ⟨hbn, Or.inr ?_⟩
  rcases hacase with haU | ⟨d0, xs, t, hw, hl, ht⟩
  · have haM : ¬ a ∈ mkeys M := (hU a haU).2
    refine ⟨false, [a], a, ⟨?_, trivial⟩, by simp, haU⟩
    show unmatchedTest G M b a = true
    apply (unmatchedTest_iff hWF hnd hsym).mpr
    refine ⟨WF.adj_symm hWF hab, ?_⟩
    intro hc
    have h2 := hsym _ _ hc
    have h3 := mlookup_eq_none_iff.mpr haM
    rw [h3] at h2
    cases h2
  · have htL : t ∈ L := (hU t ht).1
    have htM : ¬ t ∈ mkeys M := (hU t ht).2
    have hside := awalk_length_side hWF hnd hsym hedge hB hD xs a t d0 hw hl
    have hpar := awalk_end_unmatched hnd hsym xs a t d0 hw hl htM
    have heven : xs.length % 2 = 0 := (hside.mp htL).mp haL
    have hd0 : d0 = true := hpar.2 heven
    subst hd0
    cases xs with
    | nil => simp at hl
    | cons x1 rest =>
      obtain ⟨hve, hw2⟩ := hw
      have hve2 : matchedTest M a x1 = true := hve
      have hax1 : mlookup M a = some x1 :=
        ((matchedTest_iff hnd hsym).mp hve2).1
      by_cases hbx : x1 = b
      · cases rest with
        | nil =>
          exfalso
          have htx : t = x1 := by simpa using hl.symm
          have h2 := hsym _ _ hax1
          have h3 := mlookup_eq_none_iff.mpr htM
          rw [htx] at h3
          rw [h2] at h3
          cases h3
        | cons z zs =>
          refine ⟨false, z :: zs, t, ?_, by simpa using hl, ht⟩
          rw [hbx] at hw2
          exact hw2
      · refine ⟨false, a :: x1 :: rest, t, ⟨?_, ⟨hve, hw2⟩⟩, ?_, ht⟩
        · show unmatchedTest G M b a = true
          apply (unmatchedTest_iff hWF hnd hsym).mpr
          refine ⟨WF.adj_symm hWF hab, ?_⟩
          intro hc
          have h2 := hsym _ _ hc
          rw [hax1] at h2
          exact hbx (Option.some.inj h2)
        · rw [List.getLast?_cons_cons]
          exact hl

theorem partner_Z_of_L {G : NXGraph} {M : List (Nat × Nat)} {L R : List Nat}
    (hWF : G.WF) (hnd : (mkeys M).Nodup)
    (hsym : ∀ a b, mlookup M a = some b → mlookup M b = some a)
    (hedge : ∀ a b, mlookup M a = some b → b ∈ G.adj a)
    (hB : Bip G L R) (hD : ∀ x ∈ L, x ∉ R)
    (U : List Nat) (hU : ∀ u ∈ U, u ∈ L ∧ ¬ u ∈ mkeys M)
    {x w : Nat} (hxL : x ∈ L) (hxw : mlookup M x = some w)
    (hxZ : x ∈ connectedByAlternatingPaths G M U) :
    w ∈ connectedByAlternatingPaths G M U := by
  have hwadj : w ∈ G.adj x := hedge _ _ hxw
  have hwn : w ∈ G.nodes := (WF.adj_mem_nodes hWF hwadj).2
  rw [mem_reach_iff hWF hnd hsym hedge hB hD] at hxZ ⊢
  obtain ⟨hxn, hcase⟩ := hxZ
  refine ⟨hwn, Or.inr ?_⟩
  rcases hcase with hxU | ⟨d0, xs, t, hw, hl, ht⟩
  · exfalso
    have h3 := mlookup_eq_none_iff.mpr ((hU x hxU).2)
    rw [hxw] at h3
    cases h3
  · have htL := (hU t ht).1
    have htM := (hU t ht).2
    have heven : xs.length % 2 = 0 :=
      ((awalk_length_side hWF hnd hsym hedge hB hD xs x t d0 hw hl).mp
        htL).mp hxL
    have hd0 : d0 = true :=
      (awalk_end_unmatched hnd hsym xs x t d0 hw hl htM).2 heven
    subst hd0
    cases xs with
    | nil => simp at hl
    | cons x1 rest =>
      obtain ⟨hve, hw2⟩ := hw
      have hve2 : matchedTest M x x1 = true := hve
      have hx1 : mlookup M x = some x1 :=
        ((matchedTest_iff hnd hsym).mp hve2).1
      have hwx1 : w = x1 := by
        rw [hxw] at hx1
        exact Option.some.inj hx1
      cases rest with
      | nil =>
        exfalso
        have htx : t = x1 := by simpa using hl.symm
        have h2 := hsym _ _ hx1
        have h3 := mlookup_eq_none_iff.mpr htM
        rw [htx] at h3
        rw [h2] at h3
        cases h3
      | cons z zs =>
        refine ⟨false, z :: zs, t, ?_, by simpa using hl, ht⟩
        rw [hwx1]
        exact hw2

theorem partner_Z_of_R {G : NXGraph} {M : List (Nat × Nat)} {L R : List Nat}
    (hWF : G.WF) (hnd : (mkeys M).Nodup)
    (hsym : ∀ a b, mlookup M a = some b → mlookup M b = some a)
    (hedge : ∀ a b, mlookup M a = some b → b ∈ G.adj a)
    (hB : Bip G L R) (hD : ∀ x ∈ L, x ∉ R)
    (U : List Nat) (hU : ∀ u ∈ U, u ∈ L ∧ ¬ u ∈ mkeys M)
    {y x : Nat} (hyR : y ∈ R) (hyx : mlookup M y = some x)
    (hyZ : y ∈ connectedByAlternatingPaths G M U) :
    x ∈ connectedByAlternatingPaths G M U := by
  have hxadj : x ∈ G.adj y := hedge _ _ hyx
  have hxn : x ∈ G.nodes := (WF.adj_mem_nodes hWF hxadj).2
  have hyL : ¬ y ∈ L := fun h2 => hD y h2 hyR
  rw [mem_reach_iff hWF hnd hsym hedge hB hD] at hyZ ⊢
  obtain ⟨hyn, hcase⟩ := hyZ
  refine ⟨hxn, Or.inr ?_⟩
  rcases hcase with hyU | ⟨d0, xs, t, hw, hl, ht⟩
  · exact absurd (hU y hyU).1 hyL
  · have htL := (hU t ht).1
    have htM := (hU t ht).2
    have hside := awalk_length_side hWF hnd hsym hedge hB hD xs y t d0 hw hl
    have hodd : xs.length % 2 = 1 := by
      have h2 := hside.mp htL
      rcases Nat.mod_two_eq_zero_or_one xs.length with he | he
      · exact absurd (h2.mpr he) hyL
      · exact he
    have hd0 : d0 = false :=
      (awalk_end_unmatched hnd hsym xs y t d0 hw hl htM).1 hodd
    subst hd0
    refine ⟨true, y :: xs, t, ⟨?_, hw⟩, ?_, ht⟩
    · show matchedTest M x y = true
      apply (matchedTest_iff hnd hsym).mpr
      refine ⟨hsym _ _ hyx, ?_⟩
      intro hxy
      exact WF.adj_irrefl hWF (hxy ▸ hxadj)
    · cases xs with
      | nil => simp at hl
      | cons z zs =>
        rw [List.getLast?_cons_cons]
        exact hl

/-! ### Flipping an augmenting path -/

theorem getLast?_mem_self :
    ∀ (l : List Nat) (t : Nat), l.getLast? = some t → t ∈ l := by
  intro l
  induction l with
  | nil => intro t h; simp at h
  | cons a r ih =>
    intro t h
    cases r with
    | nil =>
      simp only [List.getLast?_singleton] at h
      exact List.mem_singleton.mpr (Option.some.inj h).symm
    | cons b s =>
      rw [List.getLast?_cons_cons] at h
      exact List.mem_cons_of_mem _ (ih t h)

theorem filter_length_split {α : Type} (l : List α) (p : α → Bool) :
    (l.filter p).length + (l.filter (fun x => !(p x))).length = l.length := by
  induction l with
  | nil => rfl
  | cons a r ih =>
    cases hp : p a with
    | true =>
      rw [List.filter_cons_of_pos (by exact hp),
        List.filter_cons_of_neg (by rw [hp]; decide)]
      simp only [List.length_cons]
      omega
    | false =>
      rw [List.filter_cons_of_neg (by rw [hp]; decide),
        List.filter_cons_of_pos (by rw [hp]; decide)]
      simp only [List.length_cons]
      omega

theorem map_fst_filter_length :
    ∀ (l : List (Nat × Nat)) (pr : Nat → Bool),
      ((l.map Prod.fst).filter pr).length =
        (l.filter (fun q => pr q.1)).length := by
  intro l pr
  induction l with
  | nil => rfl
  | cons q r ih =>
    rw [List.map_cons]
    cases hp : pr q.1 with
    | true =>
      rw [List.filter_cons_of_pos (by exact hp),
        List.filter_cons_of_pos (by exact hp)]
      simp only [List.length_cons]
      omega
    | false =>
      rw [List.filter_cons_of_neg (by rw [hp]; decide),
        List.filter_cons_of_neg (by rw [hp]; decide)]
      exact ih

theorem filter_ne_length :
    ∀ (l : List Nat) (t : Nat), l.Nodup → t ∈ l →
      (l.filter (fun k => ¬ k = t)).length = l.length - 1 := by
  intro l
  induction l with
  | nil => intro t _ ht; cases ht
  | cons a r ih =>
    intro t hnd ht
    obtain ⟨har, hndr⟩ := List.nodup_cons.mp hnd
    by_cases hat : a = t
    · subst hat
      rw [List.filter_cons_of_neg (by simp)]
      have hcong : r.filter (fun k => ¬ k = a) = r := by
        apply List.filter_eq_self.mpr
        intro x hx
        simp only [decide_eq_true_eq]
        exact fun he => har (he ▸ hx)
      rw [hcong]
      simp
    · have htr : t ∈ r := by
        rcases List.mem_cons.mp ht with he | h2
        · exact absurd he.symm hat
        · exact h2
      rw [List.filter_cons_of_pos (by simp [hat])]
      simp only [List.length_cons]
      rw [ih t hndr htr]
      have : 1 ≤ r.length := List.length_pos.mpr
        (fun he => by rw [he] at htr; cases htr)
      omega

theorem nodup_length_eq (l1 l2 : List Nat) (h1 : l1.Nodup) (h2 : l2.Nodup)
    (h : ∀ x, x ∈ l1 ↔ x ∈ l2) : l1.length = l2.length := by
  rw [← List.toFinset_card_of_nodup h1, ← List.toFinset_card_of_nodup h2]
  congr 1
  ext x
  simp only [List.mem_toFinset]
  exact h x

theorem nodup_sub_length (l1 l2 : List Nat) (h1 : l1.Nodup) (h2 : l2.Nodup)
    (h : ∀ x ∈ l1, x ∈ l2) : l1.length ≤ l2.length := by
  rw [← List.toFinset_card_of_nodup h1, ← List.toFinset_card_of_nodup h2]
  apply Finset.card_le_card
  intro x hx
  rw [List.mem_toFinset] at hx ⊢
  exact h x hx

theorem awalk_partner {G : NXGraph} {M : List (Nat × Nat)}
    (hnd : (mkeys M).Nodup)
    (hsym : ∀ a b, mlookup M a = some b → mlookup M b = some a) :
    ∀ (ys : List Nat) (a : Nat) (d : Bool) (t : Nat), AWalk G M a d ys →
      ys.getLast? = some t →
      ∀ x ∈ ys, x ≠ t → ∃ y2 ∈ a :: ys, mlookup M x = some y2 := by
  intro ys
  induction ys with
  | nil =>
    intro a d t _ hl
    simp at hl
  | cons b rest ih =>
    intro a d t hw hl x hx hxt
    obtain ⟨hve, hw2⟩ := hw
    rcases List.mem_cons.mp hx with hxb | hx2
    · cases rest with
      | nil =>
        exfalso
        have htb : t = b := by simpa using hl.symm
        exact hxt (hxb.trans htb.symm)
      | cons c rest2 =>
        cases d with
        | true =>
          have hve2 : matchedTest M a b = true := hve
          have hab := ((matchedTest_iff hnd hsym).mp hve2).1
          refine ⟨a, List.mem_cons_self _ _, ?_⟩
          rw [hxb]
          exact hsym _ _ hab
        | false =>
          obtain ⟨hve3, _⟩ := hw2
          have hve4 : matchedTest M b c = true := hve3
          have hbc := ((matchedTest_iff hnd hsym).mp hve4).1
          refine ⟨c, List.mem_cons_of_mem _
            (List.mem_cons_of_mem _ (List.mem_cons_self _ _)), ?_⟩
          rw [hxb]
          exact hbc
    · cases rest with
      | nil => cases hx2
      | cons c rest2 =>
        have hl2 : (c :: rest2).getLast? = some t := by simpa using hl
        obtain ⟨y2, hy2m, hy2⟩ := ih b (!d) t hw2 hl2 x hx2 hxt
        exact ⟨y2, List.mem_cons_of_mem _ hy2m, hy2⟩

theorem flipPairs_keys : ∀ (path : List Nat), path.length % 2 = 0 →
    mkeys (flipPairs path) = path
  | [] => fun _ => rfl
  | [a] => fun h => by simp at h
  | a :: b :: rest => fun h => by
    have ih := flipPairs_keys rest (by
      simp only [List.length_cons] at h
      omega)
    show mkeys ((a, b) :: (b, a) :: flipPairs rest) = a :: b :: rest
    unfold mkeys at ih ⊢
    simp only [List.map_cons]
    rw [ih]

theorem flipPairs_length (path : List Nat) (h : path.length % 2 = 0) :
    (flipPairs path).length = path.length := by
  have h2 := congrArg List.length (flipPairs_keys path h)
  unfold mkeys at h2
  rw [List.length_map] at h2
  exact h2

theorem flipPairs_mem_edge {G : NXGraph} {M : List (Nat × Nat)}
    (hWF : G.WF) (hnd : (mkeys M).Nodup)
    (hsym : ∀ a b, mlookup M a = some b → mlookup M b = some a)
    (hedge : ∀ a b, mlookup M a = some b → b ∈ G.adj a) :
    ∀ (ys : List Nat) (a : Nat) (d : Bool), AWalk G M a d ys →
      ∀ p2 ∈ flipPairs (a :: ys), p2.2 ∈ G.adj p2.1
  | [], a, d, _, p2, hp2 => by
    simp [flipPairs] at hp2
  | b :: rest, a, d, hw, p2, hp2 => by
    obtain ⟨hve, hw2⟩ := hw
    have hab : b ∈ G.adj a := validEdge_edge hWF hnd hsym hedge hve
    have hp3 : p2 ∈ ((a, b) :: (b, a) :: flipPairs rest) := hp2
    rcases List.mem_cons.mp hp3 with he | hp4
    · subst he
      exact hab
    · rcases List.mem_cons.mp hp4 with he | hp5
      · subst he
        exact WF.adj_symm hWF hab
      · cases rest with
        | nil => simp [flipPairs] at hp5
        | cons c rest2 =>
          obtain ⟨hvebc, hw3⟩ := hw2
          exact flipPairs_mem_edge hWF hnd hsym hedge rest2 c (!(!d)) hw3
            p2 hp5

theorem flipPairs_sym : ∀ (path : List Nat), path.Nodup →
    path.length % 2 = 0 →
    ∀ u w, mlookup (flipPairs path) u = some w →
      mlookup (flipPairs path) w = some u
  | [] => by
    intro _ _ u w h
    cases h
  | [a] => by
    intro _ h _ _ _
    simp at h
  | a :: b :: rest => by
    intro hnd2 hlen u w hu
    obtain ⟨hanb, hnd3⟩ := List.nodup_cons.mp hnd2
    obtain ⟨hbnr, hnd4⟩ := List.nodup_cons.mp hnd3
    have hab : a ≠ b := fun he => hanb (by rw [he]; exact List.mem_cons_self _ _)
    have hihlen : rest.length % 2 = 0 := by
      simp only [List.length_cons] at hlen
      omega
    have hu2 : mlookup ((a, b) :: (b, a) :: flipPairs rest) u = some w := hu
    rw [mlookup_cons, mlookup_cons] at hu2
    show mlookup ((a, b) :: (b, a) :: flipPairs rest) w = some u
    rw [mlookup_cons, mlookup_cons]
    by_cases hau : a = u
    · rw [if_pos hau] at hu2
      have hwb : w = b := (Option.some.inj hu2).symm
      rw [if_neg (show ¬ a = w by rw [hwb]; exact hab),
        if_pos hwb.symm, hau]
    · rw [if_neg hau] at hu2
      by_cases hbu : b = u
      · rw [if_pos hbu] at hu2
        have hwa : w = a := (Option.some.inj hu2).symm
        rw [if_pos hwa.symm, hbu]
      · rw [if_neg hbu] at hu2
        have hrec := flipPairs_sym rest hnd4 hihlen u w hu2
        have hwk : w ∈ mkeys (flipPairs rest) := by
          by_contra hc
          have h3 := mlookup_eq_none_iff.mpr hc
          rw [h3] at hrec
          cases hrec
        rw [flipPairs_keys rest hihlen] at hwk
        have hwa : ¬ a = w := fun he =>
          hanb (by rw [he]; exact List.mem_cons_of_mem _ hwk)
        have hwb : ¬ b = w := fun he => hbnr (by rw [he]; exact hwk)
        rw [if_neg hwa, if_neg hwb]
        exact hrec

theorem mkeys_filter_sub (M : List (Nat × Nat)) (p : Nat × Nat → Bool) :
    ∀ z ∈ mkeys (M.filter p), z ∈ mkeys M := by
  intro z hz
  obtain ⟨q, hq, hqz⟩ := List.mem_map.mp hz
  exact List.mem_map.mpr ⟨q, (List.mem_filter.mp hq).1, hqz⟩

theorem mkeys_filter_nodup (M : List (Nat × Nat)) (p : Nat × Nat → Bool)
    (hnd : (mkeys M).Nodup) : (mkeys (M.filter p)).Nodup := by
  induction M with
  | nil => exact List.nodup_nil
  | cons q r ih =>
    have hnd0 : (q.1 :: mkeys r).Nodup := hnd
    obtain ⟨hq1, hnd2⟩ := List.nodup_cons.mp hnd0
    cases hp : p q with
    | true =>
      rw [List.filter_cons_of_pos (by exact hp)]
      show (q.1 :: mkeys (r.filter p)).Nodup
      exact List.nodup_cons.mpr
        ⟨fun hc => hq1 (mkeys_filter_sub r p q.1 hc), ih hnd2⟩
    | false =>
      rw [List.filter_cons_of_neg (by rw [hp]; decide)]
      exact ih hnd2

theorem flip_grows {G : NXGraph} {M : List (Nat × Nat)}
    (hWF : G.WF) (hnd : (mkeys M).Nodup)
    (hsym : ∀ a b, mlookup M a = some b → mlookup M b = some a)
    (hedge : ∀ a b, mlookup M a = some b → b ∈ G.adj a)
    (ys : List Nat) (a t : Nat)
    (hw : AWalk G M a false ys)
    (hl : ys.getLast? = some t)
    (hndp : (a :: ys).Nodup)
    (haM : ¬ a ∈ mkeys M) (htM : ¬ t ∈ mkeys M) :
    (mkeys (flipMatching M (a :: ys))).Nodup ∧
    (∀ u w, mlookup (flipMatching M (a :: ys)) u = some w →
      mlookup (flipMatching M (a :: ys)) w = some u) ∧
    (∀ u w, mlookup (flipMatching M (a :: ys)) u = some w → w ∈ G.adj u) ∧
    (flipMatching M (a :: ys)).length = M.length + 2 := by
  have hpar := awalk_end_unmatched hnd hsym ys a t false hw hl htM
  have hodd : ys.length % 2 = 1 := by
    rcases Nat.mod_two_eq_zero_or_one ys.length with he | he
    · have h2 := hpar.2 he
      simp at h2
    · exact he
  have heven : (a :: ys).length % 2 = 0 := by
    simp only [List.length_cons]
    omega
  have htys : t ∈ ys := getLast?_mem_self ys t hl
  obtain ⟨hays, hndys⟩ := List.nodup_cons.mp hndp
  have hpart := awalk_partner hnd hsym ys a false t hw hl
  have hkeymem : ∀ k, k ∈ mkeys M → k ∈ a :: ys → (k ≠ a ∧ k ≠ t) := by
    intro k hk _
    exact ⟨fun he => haM (he ▸ hk), fun he => htM (he ▸ hk)⟩
  have hmemkey : ∀ k ∈ a :: ys, k ≠ a → k ≠ t → k ∈ mkeys M := by
    intro k hkp hka hkt
    have hk2 : k ∈ ys := by
      rcases List.mem_cons.mp hkp with he | h2
      · exact absurd he hka
      · exact h2
    obtain ⟨y2, _, hy2⟩ := hpart k hk2 hkt
    by_contra hc
    have h3 := mlookup_eq_none_iff.mpr hc
    rw [h3] at hy2
    cases hy2
  have hsnd : ∀ p ∈ M, p.2 ∈ a :: ys → p.1 ∈ a :: ys := by
    intro p hp hp2
    have hlk : mlookup M p.1 = some p.2 := mem_mlookup hnd hp
    have hlk2 := hsym _ _ hlk
    have hp2k : p.2 ∈ mkeys M := by
      by_contra hc
      have h3 := mlookup_eq_none_iff.mpr hc
      rw [h3] at hlk2
      cases hlk2
    obtain ⟨hp2a, hp2t⟩ := hkeymem p.2 hp2k hp2
    have hp2ys : p.2 ∈ ys := by
      rcases List.mem_cons.mp hp2 with he | h2
      · exact absurd he hp2a
      · exact h2
    obtain ⟨y2, hy2m, hy2⟩ := hpart p.2 hp2ys hp2t
    rw [hlk2] at hy2
    rw [← Option.some.inj hy2] at hy2m
    exact hy2m
  have hkeysFP : mkeys (flipPairs (a :: ys)) = a :: ys :=
    flipPairs_keys _ heven
  have hndfil : (mkeys (M.filter
      (fun p => ¬ p.1 ∈ a :: ys ∧ ¬ p.2 ∈ a :: ys))).Nodup :=
    mkeys_filter_nodup M _ hnd
  have hdisj : ∀ k ∈ mkeys (M.filter
      (fun p => ¬ p.1 ∈ a :: ys ∧ ¬ p.2 ∈ a :: ys)), ¬ k ∈ a :: ys := by
    intro k hk
    obtain ⟨p, hp, hpk⟩ := List.mem_map.mp hk
    obtain ⟨hpM, hpred⟩ := List.mem_filter.mp hp
    rw [decide_eq_true_eq] at hpred
    rw [← hpk]
    exact hpred.1
  have hkeysFM : mkeys (flipMatching M (a :: ys)) =
      (a :: ys) ++ mkeys (M.filter
        (fun p => ¬ p.1 ∈ a :: ys ∧ ¬ p.2 ∈ a :: ys)) := by
    unfold flipMatching mkeys
    rw [List.map_append]
    unfold mkeys at hkeysFP
    rw [hkeysFP]
  refine ⟨?_, ?_, ?_, ?_⟩
  · rw [hkeysFM, List.nodup_append]
    exact ⟨hndp, hndfil, fun x hx hx2 => hdisj x hx2 hx⟩
  · intro u w hu
    by_cases hup : u ∈ a :: ys
    · have hufk : u ∈ mkeys (flipPairs (a :: ys)) := by
        rw [hkeysFP]
        exact hup
      cases hFP : mlookup (flipPairs (a :: ys)) u with
      | none => exact absurd hufk (mlookup_eq_none_iff.mp hFP)
      | some w0 =>
        have hu3 : mlookup (flipMatching M (a :: ys)) u = some w0 := by
          unfold flipMatching
          exact mlookup_append_left _ hFP
        rw [hu3] at hu
        have hww : w0 = w := Option.some.inj hu
        subst hww
        have hsym2 := flipPairs_sym (a :: ys) hndp heven u w0 hFP
        unfold flipMatching
        exact mlookup_append_left _ hsym2
    · have hFPnone : mlookup (flipPairs (a :: ys)) u = none := by
        apply mlookup_eq_none_iff.mpr
        rw [hkeysFP]
        exact hup
      unfold flipMatching at hu
      rw [mlookup_append_none _ hFPnone] at hu
      have hmem := mlookup_mem hu
      obtain ⟨hM2, hpred⟩ := List.mem_filter.mp hmem
      rw [decide_eq_true_eq] at hpred
      have hpred1 : ¬ u ∈ a :: ys := hpred.1
      have hpred2 : ¬ w ∈ a :: ys := hpred.2
      have hlkM : mlookup M u = some w := mem_mlookup hnd hM2
      have hlkM2 := hsym _ _ hlkM
      have hmem2 : (w, u) ∈ M.filter
          (fun p => ¬ p.1 ∈ a :: ys ∧ ¬ p.2 ∈ a :: ys) := by
        apply List.mem_filter.mpr
        refine ⟨mlookup_mem hlkM2, ?_⟩
        rw [decide_eq_true_eq]
        exact ⟨hpred2, hpred1⟩
      have hlkfil := mem_mlookup hndfil hmem2
      have hFPnone2 : mlookup (flipPairs (a :: ys)) w = none := by
        apply mlookup_eq_none_iff.mpr
        rw [hkeysFP]
        exact hpred2
      unfold flipMatching
      rw [mlookup_append_none _ hFPnone2]
      exact hlkfil
  · intro u w hu
    by_cases hup : u ∈ a :: ys
    · have hufk : u ∈ mkeys (flipPairs (a :: ys)) := by
        rw [hkeysFP]
        exact hup
      cases hFP : mlookup (flipPairs (a :: ys)) u with
      | none => exact absurd hufk (mlookup_eq_none_iff.mp hFP)
      | some w0 =>
        have hu3 : mlookup (flipMatching M (a :: ys)) u = some w0 := by
          unfold flipMatching
          exact mlookup_append_left _ hFP
        rw [hu3] at hu
        have hww : w0 = w := Option.some.inj hu
        subst hww
        have hmemFP : (u, w0) ∈ flipPairs (a :: ys) := mlookup_mem hFP
        exact flipPairs_mem_edge hWF hnd hsym hedge ys a false hw
          (u, w0) hmemFP
    · have hFPnone : mlookup (flipPairs (a :: ys)) u = none := by
        apply mlookup_eq_none_iff.mpr
        rw [hkeysFP]
        exact hup
      unfold flipMatching at hu
      rw [mlookup_append_none _ hFPnone] at hu
      have hmem := mlookup_mem hu
      obtain ⟨hM2, _⟩ := List.mem_filter.mp hmem
      exact hedge _ _ (mem_mlookup hnd hM2)
  · unfold flipMatching
    rw [List.length_append, flipPairs_length _ heven]
    have hcong : M.filter (fun p => ¬ p.1 ∈ a :: ys ∧ ¬ p.2 ∈ a :: ys) =
        M.filter (fun p => ¬ p.1 ∈ a :: ys) := by
      apply List.filter_congr
      intro p hp
      rw [decide_eq_decide]
      constructor
      · exact fun h2 => h2.1
      · intro h2
        exact ⟨h2, fun hc => h2 (hsnd p hp hc)⟩
    rw [hcong]
    have hcong2 : M.filter (fun p => ¬ p.1 ∈ a :: ys) =
        M.filter (fun p => !(decide (p.1 ∈ a :: ys))) := by
      apply List.filter_congr
      intro p _
      rw [decide_not]
    have hsplit := filter_length_split M (fun p => decide (p.1 ∈ a :: ys))
    simp only [] at hsplit
    have hdropeq : (M.filter (fun p => decide (p.1 ∈ a :: ys))).length =
        ys.length - 1 := by
      have h1 : ((mkeys M).filter (fun k => decide (k ∈ a :: ys))).length =
          (M.filter (fun p => decide (p.1 ∈ a :: ys))).length := by
        unfold mkeys
        exact map_fst_filter_length M (fun k => decide (k ∈ a :: ys))
      rw [← h1]
      have h2 : ∀ x, x ∈ (mkeys M).filter (fun k => decide (k ∈ a :: ys)) ↔
          x ∈ (a :: ys).filter (fun k => ¬ k = a ∧ ¬ k = t) := by
        intro x
        rw [List.mem_filter, List.mem_filter, decide_eq_true_eq,
          decide_eq_true_eq]
        constructor
        · rintro ⟨hk, hp⟩
          obtain ⟨h3, h4⟩ := hkeymem x hk hp
          exact ⟨hp, h3, h4⟩
        · rintro ⟨hp, h3, h4⟩
          exact ⟨hmemkey x hp h3 h4, hp⟩
      have hnd1 : ((mkeys M).filter
          (fun k => decide (k ∈ a :: ys))).Nodup := List.Nodup.filter _ hnd
      have hnd2 : ((a :: ys).filter
          (fun k => ¬ k = a ∧ ¬ k = t)).Nodup := List.Nodup.filter _ hndp
      rw [nodup_length_eq _ _ hnd1 hnd2 h2]
      rw [List.filter_cons_of_neg (by simp)]
      have hcong3 : ys.filter (fun k => ¬ k = a ∧ ¬ k = t) =
          ys.filter (fun k => ¬ k = t) := by
        apply List.filter_congr
        intro x hx
        rw [decide_eq_decide]
        constructor
        · exact fun h2 => h2.2
        · intro h2
          exact ⟨fun he => hays (he ▸ hx), h2⟩
      rw [hcong3]
      exact filter_ne_length ys t hndys htys
    have hle : (M.filter (fun p => decide (p.1 ∈ a :: ys))).length ≤
        M.length := List.length_filter_le _ _
    have hys1 : 1 ≤ ys.length := List.length_pos.mpr
      (fun he => by rw [he] at htys; cases htys)
    rw [hcong2]
    simp only [List.length_cons]
    omega

theorem rZ_matched {G : NXGraph} {M : List (Nat × Nat)} {L R : List Nat}
    (hWF : G.WF) (hnd : (mkeys M).Nodup)
    (hsym : ∀ a b, mlookup M a = some b → mlookup M b = some a)
    (hedge : ∀ a b, mlookup M a = some b → b ∈ G.adj a)
    (hB : Bip G L R) (hD : ∀ x ∈ L, x ∉ R)
    (hmax : ∀ M2 : List (Nat × Nat), (mkeys M2).Nodup →
      (∀ a b, mlookup M2 a = some b → mlookup M2 b = some a) →
      (∀ a b, mlookup M2 a = some b → b ∈ G.adj a) →
      M2.length ≤ M.length)
    (U : List Nat) (hU : ∀ u ∈ U, u ∈ L ∧ ¬ u ∈ mkeys M)
    {y : Nat} (hyR : y ∈ R)
    (hyZ : y ∈ connectedByAlternatingPaths G M U) :
    y ∈ mkeys M := by
  by_contra hyM
  have hyL : ¬ y ∈ L := fun h2 => hD y h2 hyR
  rw [mem_reach_iff hWF hnd hsym hedge hB hD] at hyZ
  obtain ⟨hyn, hcase⟩ := hyZ
  rcases hcase with hyU | ⟨d0, xs, t, hw, hl, ht⟩
  · exact hyL (hU y hyU).1
  · have htL := (hU t ht).1
    have htM := (hU t ht).2
    have hside := awalk_length_side hWF hnd hsym hedge hB hD xs y t d0 hw hl
    have hodd : xs.length % 2 = 1 := by
      have h2 := hside.mp htL
      rcases Nat.mod_two_eq_zero_or_one xs.length with he | he
      · exact absurd (h2.mpr he) hyL
      · exact he
    have hd0 : d0 = false :=
      (awalk_end_unmatched hnd hsym xs y t d0 hw hl htM).1 hodd
    subst hd0
    have hyt : y ≠ t := fun he => hyL (he ▸ htL)
    have hprf := pr_flip hB hD y false
    have hy0 : (if (decide (y ∈ L)) = (decide (y ∈ L)) then false
        else !false) = false := if_pos rfl
    obtain ⟨ys, hw2, hl2, hnd2⟩ := awalk_extract hWF hnd hsym hedge
      (fun z => if (decide (z ∈ L)) = (decide (y ∈ L)) then false
        else !false)
      hprf xs.length xs y t (le_refl _)
      (by
        show AWalk G M y (if (decide (y ∈ L)) = (decide (y ∈ L)) then false
          else !false) xs
        rw [hy0]
        exact hw) hl hyt
    have hw3 : AWalk G M y false ys := by
      have h2 : AWalk G M y (if (decide (y ∈ L)) = (decide (y ∈ L))
          then false else !false) ys := hw2
      rw [hy0] at h2
      exact h2
    obtain ⟨hfnd, hfsym, hfedge, hflen⟩ := flip_grows hWF hnd hsym hedge
      ys y t hw3 hl2 hnd2 hyM htM
    have hle := hmax (flipMatching M (y :: ys)) hfnd hfsym hfedge
    omega

/-! ### Counting the König cover -/

theorem filter_and_split_nat (l : List Nat) (p q : Nat → Prop)
    [DecidablePred p] [DecidablePred q] :
    (l.filter (fun x => p x ∧ q x)).length +
      (l.filter (fun x => p x ∧ ¬ q x)).length =
      (l.filter (fun x => p x)).length := by
  induction l with
  | nil => rfl
  | cons a r ih =>
    by_cases hp : p a
    · by_cases hq : q a
      · rw [List.filter_cons_of_pos (by simp [hp, hq]),
          List.filter_cons_of_neg (by simp [hp, hq]),
          List.filter_cons_of_pos (by simp [hp])]
        simp only [List.length_cons]
        omega
      · rw [List.filter_cons_of_neg (by simp [hp, hq]),
          List.filter_cons_of_pos (by simp [hp, hq]),
          List.filter_cons_of_pos (by simp [hp])]
        simp only [List.length_cons]
        omega
    · rw [List.filter_cons_of_neg (by simp [hp]),
        List.filter_cons_of_neg (by simp [hp]),
        List.filter_cons_of_neg (by simp [hp])]
      exact ih

theorem matched_card_LR {G : NXGraph} {M : List (Nat × Nat)} {L R : List Nat}
    (hnd : (mkeys M).Nodup)
    (hsym : ∀ a b, mlookup M a = some b → mlookup M b = some a)
    (hedge : ∀ a b, mlookup M a = some b → b ∈ G.adj a)
    (hB : Bip G L R) (hD : ∀ x ∈ L, x ∉ R)
    (P : Nat → Prop) [DecidablePred P]
    (hPtrans : ∀ x w, x ∈ L → mlookup M x = some w → (P x ↔ P w)) :
    ((L.filter (fun v => mlookup M v ≠ none ∧ P v)).toFinset).card =
    ((R.filter (fun v => mlookup M v ≠ none ∧ P v)).toFinset).card := by
  have hmemL : ∀ v, v ∈ (L.filter
      (fun v => mlookup M v ≠ none ∧ P v)).toFinset ↔
      (v ∈ L ∧ mlookup M v ≠ none ∧ P v) := by
    intro v
    rw [List.mem_toFinset, List.mem_filter, decide_eq_true_eq]
  have hmemR : ∀ v, v ∈ (R.filter
      (fun v => mlookup M v ≠ none ∧ P v)).toFinset ↔
      (v ∈ R ∧ mlookup M v ≠ none ∧ P v) := by
    intro v
    rw [List.mem_toFinset, List.mem_filter, decide_eq_true_eq]
  apply Finset.card_bij' (fun v _ => (mlookup M v).getD 0)
    (fun v _ => (mlookup M v).getD 0)
  · intro v hv
    obtain ⟨hvL, hvm, hvP⟩ := (hmemL v).mp hv
    cases hlk : mlookup M v with
    | none => exact absurd hlk hvm
    | some w =>
      rw [Option.getD_some]
      apply (hmemR w).mpr
      have hwR : w ∈ R := by
        rcases Bip.adj hB (hedge _ _ hlk) with ⟨_, h2⟩ | ⟨h2, _⟩
        · exact h2
        · exact absurd h2 (hD v hvL)
      refine ⟨hwR, ?_, (hPtrans v w hvL hlk).mp hvP⟩
      rw [hsym _ _ hlk]
      exact fun hc => Option.noConfusion hc
  · intro v hv
    obtain ⟨hvR, hvm, hvP⟩ := (hmemR v).mp hv
    cases hlk : mlookup M v with
    | none => exact absurd hlk hvm
    | some x =>
      rw [Option.getD_some]
      apply (hmemL x).mpr
      have hxL : x ∈ L := by
        rcases Bip.adj hB (hedge _ _ hlk) with ⟨h2, _⟩ | ⟨_, h2⟩
        · exact absurd h2 (fun h3 => hD v h3 hvR)
        · exact h2
      have hxv := hsym _ _ hlk
      refine ⟨hxL, ?_, (hPtrans x v hxL hxv).mpr hvP⟩
      rw [hxv]
      exact fun hc => Option.noConfusion hc
  · intro v hv
    obtain ⟨hvL, hvm, _⟩ := (hmemL v).mp hv
    cases hlk : mlookup M v with
    | none => exact absurd hlk hvm
    | some w =>
      rw [Option.getD_some, hsym _ _ hlk, Option.getD_some]
  · intro v hv
    obtain ⟨hvR, hvm, _⟩ := (hmemR v).mp hv
    cases hlk : mlookup M v with
    | none => exact absurd hlk hvm
    | some x =>
      rw [Option.getD_some, hsym _ _ hlk, Option.getD_some]

theorem koenig_main {G : NXGraph} {M : List (Nat × Nat)} {L R : List Nat}
    (hWF : G.WF) (hnd : (mkeys M).Nodup)
    (hsym : ∀ a b, mlookup M a = some b → mlookup M b = some a)
    (hedge : ∀ a b, mlookup M a = some b → b ∈ G.adj a)
    (hB : Bip G L R)
    (hndL : L.Nodup) (hndR : R.Nodup)
    (hD : ∀ x ∈ L, x ∉ R)
    (hLn : ∀ x ∈ L, x ∈ G.nodes)
    (hmax : ∀ M2 : List (Nat × Nat), (mkeys M2).Nodup →
      (∀ a b, mlookup M2 a = some b → mlookup M2 b = some a) →
      (∀ a b, mlookup M2 a = some b → b ∈ G.adj a) →
      M2.length ≤ M.length)
    (U : List Nat)
    (hU : ∀ u ∈ U, u ∈ L ∧ ¬ u ∈ mkeys M)
    (hUmem : ∀ u, u ∈ G.nodes → ¬ u ∈ mkeys M → u ∈ L → u ∈ U) :
    (∀ a b, b ∈ G.adj a →
      a ∈ ((L.filter (fun v =>
          ¬ v ∈ connectedByAlternatingPaths G M U)).toFinset ∪
        (R.filter (fun v =>
          v ∈ connectedByAlternatingPaths G M U)).toFinset) ∨
      b ∈ ((L.filter (fun v =>
          ¬ v ∈ connectedByAlternatingPaths G M U)).toFinset ∪
        (R.filter (fun v =>
          v ∈ connectedByAlternatingPaths G M U)).toFinset)) ∧
    2 * ((L.filter (fun v =>
        ¬ v ∈ connectedByAlternatingPaths G M U)).toFinset ∪
      (R.filter (fun v =>
        v ∈ connectedByAlternatingPaths G M U)).toFinset).card = M.length := by
  constructor
  · intro a b hab
    rcases Bip.adj hB hab with ⟨haL, hbR⟩ | ⟨haR, hbL⟩
    · by_cases haZ : a ∈ connectedByAlternatingPaths G M U
      · refine Or.inr (Finset.mem_union_right _ ?_)
        rw [List.mem_toFinset, List.mem_filter]
        refine ⟨hbR, ?_⟩
        rw [decide_eq_true_eq]
        exact Z_closed hWF hnd hsym hedge hB hD U hU haL haZ hab hbR
      · refine Or.inl (Finset.mem_union_left _ ?_)
        rw [List.mem_toFinset, List.mem_filter]
        refine ⟨haL, ?_⟩
        rw [decide_eq_true_eq]
        exact haZ
    · have hba : a ∈ G.adj b := WF.adj_symm hWF hab
      by_cases hbZ : b ∈ connectedByAlternatingPaths G M U
      · refine Or.inl (Finset.mem_union_right _ ?_)
        rw [List.mem_toFinset, List.mem_filter]
        refine ⟨haR, ?_⟩
        rw [decide_eq_true_eq]
        exact Z_closed hWF hnd hsym hedge hB hD U hU hbL hbZ hba haR
      · refine Or.inr (Finset.mem_union_left _ ?_)
        rw [List.mem_toFinset, List.mem_filter]
        refine ⟨hbL, ?_⟩
        rw [decide_eq_true_eq]
        exact hbZ
  · have hLZm : ∀ v ∈ L, ¬ v ∈ connectedByAlternatingPaths G M U →
        mlookup M v ≠ none := by
      intro v hvL hvZ hc
      have hvk : ¬ v ∈ mkeys M := mlookup_eq_none_iff.mp hc
      apply hvZ
      rw [mem_reach_iff hWF hnd hsym hedge hB hD]
      exact ⟨hLn v hvL, Or.inl (hUmem v (hLn v hvL) hvk hvL)⟩
    have hRZm : ∀ v ∈ R, v ∈ connectedByAlternatingPaths G M U →
        mlookup M v ≠ none := by
      intro v hvR hvZ hc
      exact (mlookup_eq_none_iff.mp hc)
        (rZ_matched hWF hnd hsym hedge hB hD hmax U hU hvR hvZ)
    have htransZ : ∀ x w, x ∈ L → mlookup M x = some w →
        ((x ∈ connectedByAlternatingPaths G M U) ↔
         (w ∈ connectedByAlternatingPaths G M U)) := by
      intro x w hxL hlk
      constructor
      · exact partner_Z_of_L hWF hnd hsym hedge hB hD U hU hxL hlk
      · intro hwZ
        have hwR : w ∈ R := by
          rcases Bip.adj hB (hedge _ _ hlk) with ⟨_, h2⟩ | ⟨h2, _⟩
          · exact h2
          · exact absurd h2 (hD x hxL)
        exact partner_Z_of_R hWF hnd hsym hedge hB hD U hU hwR
          (hsym _ _ hlk) hwZ
    have hdisjLR : Disjoint
        (L.filter (fun v =>
          ¬ v ∈ connectedByAlternatingPaths G M U)).toFinset
        (R.filter (fun v =>
          v ∈ connectedByAlternatingPaths G M U)).toFinset := by
      rw [Finset.disjoint_left]
      intro x hx hx2
      rw [List.mem_toFinset, List.mem_filter] at hx hx2
      exact hD x hx.1 hx2.1
    rw [Finset.card_union_of_disjoint hdisjLR]
    rw [List.toFinset_card_of_nodup (List.Nodup.filter _ hndL),
      List.toFinset_card_of_nodup (List.Nodup.filter _ hndR)]
    have h1 : L.filter (fun v =>
        ¬ v ∈ connectedByAlternatingPaths G M U) =
        L.filter (fun v => mlookup M v ≠ none ∧
          ¬ v ∈ connectedByAlternatingPaths G M U) := by
      apply List.filter_congr
      intro v hv
      rw [decide_eq_decide]
      exact ⟨fun h2 => ⟨hLZm v hv h2, h2⟩, fun h2 => h2.2⟩
    have h2 : R.filter (fun v =>
        v ∈ connectedByAlternatingPaths G M U) =
        R.filter (fun v => mlookup M v ≠ none ∧
          v ∈ connectedByAlternatingPaths G M U) := by
      apply List.filter_congr
      intro v hv
      rw [decide_eq_decide]
      exact ⟨fun h3 => ⟨hRZm v hv h3, h3⟩, fun h3 => h3.2⟩
    rw [h1, h2]
    have hbij1 := matched_card_LR hnd hsym hedge hB hD
      (fun v => v ∈ connectedByAlternatingPaths G M U) htransZ
    have hbij2 := matched_card_LR hnd hsym hedge hB hD
      (fun v => ¬ v ∈ connectedByAlternatingPaths G M U)
      (fun x w h1b h2b => not_congr (htransZ x w h1b h2b))
    rw [List.toFinset_card_of_nodup (List.Nodup.filter _ hndL),
      List.toFinset_card_of_nodup (List.Nodup.filter _ hndR)] at hbij1 hbij2
    have hsplitL := filter_and_split_nat L (fun v => mlookup M v ≠ none)
      (fun v => v ∈ connectedByAlternatingPaths G M U)
    have hsplitR := filter_and_split_nat R (fun v => mlookup M v ≠ none)
      (fun v => v ∈ connectedByAlternatingPaths G M U)
    have hkeys : (mkeys M).length = M.length := by
      unfold mkeys
      exact List.length_map _ _
    have hksplit := filter_length_split (mkeys M) (fun k => decide (k ∈ L))
    simp only [] at hksplit
    have hkL : ((mkeys M).filter (fun k => decide (k ∈ L))).length =
        (L.filter (fun v => mlookup M v ≠ none)).length := by
      apply nodup_length_eq _ _ (List.Nodup.filter _ hnd)
        (List.Nodup.filter _ hndL)
      intro x
      rw [List.mem_filter, List.mem_filter, decide_eq_true_eq,
        decide_eq_true_eq]
      constructor
      · rintro ⟨hk, hxL⟩
        refine ⟨hxL, ?_⟩
        intro hc
        exact (mlookup_eq_none_iff.mp hc) hk
      · rintro ⟨hxL, hm⟩
        refine ⟨?_, hxL⟩
        by_contra hc
        exact hm (mlookup_eq_none_iff.mpr hc)
    have hkR : ((mkeys M).filter (fun k => !(decide (k ∈ L)))).length =
        (R.filter (fun v => mlookup M v ≠ none)).length := by
      apply nodup_length_eq _ _ (List.Nodup.filter _ hnd)
        (List.Nodup.filter _ hndR)
      intro x
      rw [List.mem_filter, List.mem_filter, decide_eq_true_eq]
      constructor
      · rintro ⟨hk, hxnL⟩
        have hxnL2 : ¬ x ∈ L := by simpa using hxnL
        have hxm : mlookup M x ≠ none := fun hc =>
          (mlookup_eq_none_iff.mp hc) hk
        cases hlk : mlookup M x with
        | none => exact absurd hlk hxm
        | some w =>
          have hxR : x ∈ R := by
            rcases Bip.adj hB (hedge _ _ hlk) with ⟨h3, _⟩ | ⟨h3, _⟩
            · exact absurd h3 hxnL2
            · exact h3
          exact ⟨hxR, fun hc => Option.noConfusion hc⟩
      · rintro ⟨hxR, hm⟩
        have hk : x ∈ mkeys M := by
          by_contra hc
          exact hm (mlookup_eq_none_iff.mpr hc)
        refine ⟨hk, ?_⟩
        have hxnL : ¬ x ∈ L := fun h3 => hD x h3 hxR
        simp [hxnL]
    have hbij1b : (L.filter (fun v => mlookup M v ≠ none ∧
        v ∈ connectedByAlternatingPaths G M U)).length =
        (R.filter (fun v => mlookup M v ≠ none ∧
        v ∈ connectedByAlternatingPaths G M U)).length := hbij1
    have hbij2b : (L.filter (fun v => mlookup M v ≠ none ∧
        ¬ v ∈ connectedByAlternatingPaths G M U)).length =
        (R.filter (fun v => mlookup M v ≠ none ∧
        ¬ v ∈ connectedByAlternatingPaths G M U)).length := hbij2
    omega

theorem matching_le_nodes (G : NXGraph) (hWF : G.WF)
    (M2 : List (Nat × Nat)) (hnd2 : (mkeys M2).Nodup)
    (hedge2 : ∀ a b, mlookup M2 a = some b → b ∈ G.adj a) :
    M2.length ≤ G.nodes.length := by
  have hlen : M2.length = (mkeys M2).length := by
    unfold mkeys
    rw [List.length_map]
  rw [hlen]
  apply nodup_sub_length _ _ hnd2 hWF.1
  intro k hk
  obtain ⟨p, hp, hpk⟩ := List.mem_map.mp hk
  have hlk : mlookup M2 p.1 = some p.2 := mem_mlookup hnd2 hp
  have hadj := hedge2 _ _ hlk
  rw [← hpk]
  exact (WF.adj_mem_nodes hWF hadj).1

/-- C3: for every undirected bipartite graph `G` — well-formed, with
`bipartite_sets` splitting its nodes into the parts `L` and `R` — and every
maximum matching `M` of `G` (a symmetric matching dictionary whose pairs are
edges, of maximal size among all such dictionaries), `to_vertex_cover`
returns a set of nodes that covers every edge of `G` and whose cardinality
equals the number of matched pairs: the dictionary `M` stores each matched
pair twice, so `2 * |C| = |M|`. -/
theorem C3_to_vertex_cover (G : NXGraph) (top : Option (List Nat))
    (M : List (Nat × Nat)) (L R : List Nat) (C : Finset Nat)
    (hWF : G.WF)
    (hbs : bipartite_sets G top = Except.ok (L, R))
    (hB : Bip G L R)
    (hLn : ∀ x ∈ L, x ∈ G.nodes)
    (hnd : (mkeys M).Nodup)
    (hsym : ∀ a b, mlookup M a = some b → mlookup M b = some a)
    (hedge : ∀ a b, mlookup M a = some b → b ∈ G.adj a)
    (hmax : ∀ M2 : List (Nat × Nat), (mkeys M2).Nodup →
      (∀ a b, mlookup M2 a = some b → mlookup M2 b = some a) →
      (∀ a b, mlookup M2 a = some b → b ∈ G.adj a) →
      M2.length ≤ M.length)
    (hres : to_vertex_cover G M top = Except.ok C) :
    (∀ a b, b ∈ G.adj a → a ∈ C ∨ b ∈ C) ∧ 2 * C.card = M.length := by
  obtain ⟨hndL, hndR, hD, hRn⟩ := bipartite_sets_props hWF.1 hbs
  unfold to_vertex_cover at hres
  rw [hbs] at hres
  have hC : C = (L.filter (fun v => ¬ v ∈ connectedByAlternatingPaths G M
      ((G.nodes.filter (fun v => ¬ v ∈ mkeys M)).filter
        (fun v => v ∈ L)))).toFinset ∪
      (R.filter (fun v => v ∈ connectedByAlternatingPaths G M
      ((G.nodes.filter (fun v => ¬ v ∈ mkeys M)).filter
        (fun v => v ∈ L)))).toFinset := (Except.ok.inj hres).symm
  subst hC
  have hU : ∀ u ∈ (G.nodes.filter (fun v => ¬ v ∈ mkeys M)).filter
      (fun v => v ∈ L), u ∈ L ∧ ¬ u ∈ mkeys M := by
    intro u hu
    rw [List.mem_filter] at hu
    obtain ⟨hu1, hu2⟩ := hu
    rw [List.mem_filter] at hu1
    obtain ⟨_, hu3⟩ := hu1
    rw [decide_eq_true_eq] at hu2 hu3
    exact ⟨hu2, hu3⟩
  have hUmem : ∀ u, u ∈ G.nodes → ¬ u ∈ mkeys M → u ∈ L →
      u ∈ (G.nodes.filter (fun v => ¬ v ∈ mkeys M)).filter
        (fun v => v ∈ L) := by
    intro u h1 h2 h3
    rw [List.mem_filter]
    refine ⟨?_, by rw [decide_eq_true_eq]; exact h3⟩
    rw [List.mem_filter]
    exact ⟨h1, by rw [decide_eq_true_eq]; exact h2⟩
  exact koenig_main hWF hnd hsym hedge hB hndL hndR hD hLn hmax _ hU hUmem

theorem C3_to_vertex_cover_witness :
    (∀ a b, b ∈ gEdge01.adj a →
      a ∈ ({0} : Finset Nat) ∨ b ∈ ({0} : Finset Nat)) ∧
    2 * ({0} : Finset Nat).card =
      ([(0, 1), (1, 0)] : List (Nat × Nat)).length :=
  C3_to_vertex_cover gEdge01 (some [0]) [(0, 1), (1, 0)] [0] [1] {0}
    (by decide) (by decide) (by decide) (by decide) (by decide)
    (by
      intro a b h
      rw [mlookup_cons, mlookup_cons] at h
      by_cases h0 : (0 : Nat) = a
      · rw [if_pos h0] at h
        have hb : b = 1 := (Option.some.inj h).symm
        subst hb
        rw [← h0]
        decide
      · rw [if_neg h0] at h
        by_cases h1 : (1 : Nat) = a
        · rw [if_pos h1] at h
          have hb : b = 0 := (Option.some.inj h).symm
          subst hb
          rw [← h1]
          decide
        · rw [if_neg h1] at h
          cases h)
    (by
      intro a b h
      rw [mlookup_cons, mlookup_cons] at h
      by_cases h0 : (0 : Nat) = a
      · rw [if_pos h0] at h
        rw [← h0, ← Option.some.inj h]
        decide
      · rw [if_neg h0] at h
        by_cases h1 : (1 : Nat) = a
        · rw [if_pos h1] at h
          rw [← h1, ← Option.some.inj h]
          decide
        · rw [if_neg h1] at h
          cases h)
    (fun M2 h1 _ h3 =>
      le_trans (matching_le_nodes gEdge01 (by decide) M2 h1 h3) (by decide))
    (by decide)

end NXMatching
